import Mathlib

/-!
LSTGRETROARC archive engine: cipher, key derivation, record codec, reader, writer.

Shallow embedding of `engine/file-system/core/ArchiveEncryption.hpp` and
`engine/file-system/core/FileSystemDATArchive.cpp`.

Conventions of the embedding:
* a byte buffer (`uint8_t*` with a length, `std::vector<uint8_t>`, `std::string`)
  is a `List Nat`; a well-formed buffer holds values below 256 (`isBytes`);
* `uint8_t` and `uint32_t` values are `Nat`, with the truncation of every store
  written out (`u8`, `u32`);
* `size_t` is 64 bits wide; the few `size_t` products the code forms are of a
  `uint32_t` with 2, which cannot wrap, so they are plain `Nat` products;
* `wchar_t` is the 2-byte UTF-16 code unit of the target platform;
* a file is the list of its bytes and a file system a function from paths to
  files; a stream is the file it is open on, and `std::fstream::open` opens a
  file only with a mode of the open-mode table (`validOpenMode`);
* a loop whose end depends on a library call (`zlibInflate`) takes a bound on
  its rounds and yields `none` when it has not ended within the bound.
-/

namespace core

/-- Truncation of a value stored into a `uint8_t`. -/
def u8 (x : Nat) : Nat := x % 256

/-- Truncation of a value stored into a `uint32_t`. -/
def u32 (x : Nat) : Nat := x % 2 ^ 32

/-- Well-formed byte buffer: every element is a `uint8_t` value. -/
def isBytes (l : List Nat) : Prop := ∀ b ∈ l, b < 256

instance (l : List Nat) : Decidable (isBytes l) := by
  unfold isBytes; infer_instance

namespace ArchiveEncryption

/-- First 8 bytes of `HEADER_MAGIC = "LSTGRETROARC\0\0"`, i.e. `"LSTGRETR"`. -/
def HEADER_MAGIC : List Nat := [76, 83, 84, 71, 82, 69, 84, 82]

def HEADER_MAGIC_LENGTH : Nat := 8

def VERSION_CURRENT : Nat := 2

def VERSION_LEGACY : Nat := 1

/-- Bytes of `ENCRYPTION_KEY = "Sonic The Hedgehog"` (terminator excluded). -/
def ENCRYPTION_KEY : List Nat :=
  [83, 111, 110, 105, 99, 32, 84, 104, 101, 32, 72, 101, 100, 103, 101, 104, 111, 103]

def OFFSET_BASIS : Nat := 2166136261

def FNV_PRIME : Nat := 16777619

/-- The `for (i = 0; i < len; ++i)` loop of `fnv1a_32(char const*, size_t)`:
`n` iterations remain, `i` is the loop index, `hash` the running `uint32_t`.
Each iteration does `hash ^= static_cast<uint8_t>(data[i]); hash *= FNV_PRIME;`. -/
def fnv1a_32_loop (data : List Nat) : Nat → Nat → Nat → Nat
  | 0, _, hash => hash
  | n + 1, i, hash =>
    fnv1a_32_loop data n (i + 1) (u32 ((hash ^^^ u8 (data.getD i 0)) * FNV_PRIME))

/-- The pointer overload `fnv1a_32(char const* data, size_t len)`. -/
def fnv1a_32_ptr (data : List Nat) (len : Nat) : Nat :=
  fnv1a_32_loop data len 0 OFFSET_BASIS

/-- The `std::string_view` overload: `fnv1a_32(s.data(), s.size())`. -/
def fnv1a_32 (s : List Nat) : Nat := fnv1a_32_ptr s s.length

/-- FNV-1a as the specification words it: a left fold from 2166136261 with
`hash ← (hash XOR b) * 16777619 (mod 2^32)` for each byte. -/
def fnv1a_32_spec (s : List Nat) : Nat :=
  s.foldl (fun hash b => ((hash ^^^ b) * 16777619) % 2 ^ 32) 2166136261

/-- `getKeyHashHeader`: returns `(keyBase, keyStep)`. -/
def getKeyHashHeader (key : List Nat) : Nat × Nat :=
  let hash := fnv1a_32 key
  (u8 (u8 (hash &&& 0xFF) ^^^ 0x55), u8 (u8 ((hash >>> 8) &&& 0xFF) ^^^ 0xC8))

/-- `getKeyHashHeaderLegacy`: same masks, the hash comes from the toolchain
(`std::_Hash_array_representation` under MSVC, `fnv1a_32` elsewhere); the hash
function is a parameter, its result is stored into a `uint32_t`. -/
def getKeyHashHeaderLegacy (legacyHash : List Nat → Nat) (key : List Nat) : Nat × Nat :=
  let hash := u32 (legacyHash key)
  (u8 (u8 (hash &&& 0xFF) ^^^ 0x55), u8 (u8 ((hash >>> 8) &&& 0xFF) ^^^ 0xC8))

/-- `getKeyHashFile`: returns `(keyBase, keyStep)`. -/
def getKeyHashFile (path : List Nat) (headerBase headerStep : Nat) : Nat × Nat :=
  let hash := fnv1a_32 path
  (u8 (u8 ((hash >>> 24) &&& 0xFF) ^^^ headerBase ^^^ 0x4A),
   u8 (u8 ((hash >>> 16) &&& 0xFF) ^^^ headerStep ^^^ 0xEB))

/-- The loop of `shiftBlock`: `n` iterations remain, `i` is the loop index.
Each iteration does `data[i] ^= base;` and
`base = static_cast<uint8_t>(static_cast<uint32_t>(base) * 0xBD + static_cast<uint32_t>(step));`.
Returns the buffer and the advanced `base` (passed by reference in the source). -/
def shiftBlock_loop (step : Nat) : Nat → Nat → List Nat → Nat → List Nat × Nat
  | 0, _, data, base => (data, base)
  | n + 1, i, data, base =>
    shiftBlock_loop step n (i + 1) (data.set i (u8 (data.getD i 0 ^^^ base)))
      (u8 (u32 (base * 0xBD + step)))

/-- `shiftBlock(data, count, base, step)`. -/
def shiftBlock (data : List Nat) (count base step : Nat) : List Nat × Nat :=
  shiftBlock_loop step count 0 data base

/-- The loop of `shiftBlockLegacy`: `data[i] ^= base;` and
`base = static_cast<uint8_t>(static_cast<uint32_t>(base) + static_cast<uint32_t>(step));`. -/
def shiftBlockLegacy_loop (step : Nat) : Nat → Nat → List Nat → Nat → List Nat × Nat
  | 0, _, data, base => (data, base)
  | n + 1, i, data, base =>
    shiftBlockLegacy_loop step n (i + 1) (data.set i (u8 (data.getD i 0 ^^^ base)))
      (u8 (u32 (base + step)))

/-- `shiftBlockLegacy(data, count, base, step)`. -/
def shiftBlockLegacy (data : List Nat) (count base step : Nat) : List Nat × Nat :=
  shiftBlockLegacy_loop step count 0 data base

/-- The keystream as the specification words it: `b_0 = base` and
`b_(i+1) = (b_i * 0xBD + step) mod 256`. -/
def keyStream (base step : Nat) : Nat → Nat
  | 0 => base
  | i + 1 => (keyStream base step i * 0xBD + step) % 256

end ArchiveEncryption

/-! ## Data model (`FileSystemDATArchive.hpp`) -/

/-- On-disk header, 24 bytes packed little-endian: `magic[8]`, `version`,
`entryCount`, `headerOffset`, `headerSize`. -/
structure DATArchiveHeader where
  magic : List Nat
  version : Nat
  entryCount : Nat
  headerOffset : Nat
  headerSize : Nat
  deriving DecidableEq, Repr

/-- Value of `CompressionType::CT_NONE`. -/
def CT_NONE : Nat := 0

/-- Value of `CompressionType::CT_ZLIB`. -/
def CT_ZLIB : Nat := 1

/-- In-memory entry descriptor. `compressionType` is the value of the
`uint8_t`-backed enum. -/
structure DATArchiveEntry where
  path : List Nat
  compressionType : Nat
  sizeFull : Nat
  sizeStored : Nat
  offsetPos : Nat
  keyBase : Nat
  keyStep : Nat
  crc32Value : Nat
  deriving DecidableEq, Repr

/-- The value-initialised entry `DATArchiveEntry entry{}`. -/
def DATArchiveEntry.empty : DATArchiveEntry :=
  ⟨[], CT_NONE, 0, 0, 0, 0, 0, 0⟩

/-- Every field of the entry holds a value of its C++ type. -/
def DATArchiveEntry.wf (e : DATArchiveEntry) : Prop :=
  isBytes e.path ∧ e.compressionType < 256 ∧ e.sizeFull < 2 ^ 32 ∧ e.sizeStored < 2 ^ 32 ∧
  e.offsetPos < 2 ^ 32 ∧ e.keyBase < 256 ∧ e.keyStep < 256 ∧ e.crc32Value < 2 ^ 32

instance (e : DATArchiveEntry) : Decidable e.wf := by
  unfold DATArchiveEntry.wf; infer_instance

/-- The part of a `z_stream` that the loop of `zlibInflate` hands to `inflate`
and gets back: the input not yet consumed (`next_in`, `avail_in` being its
length) and the internal state of the library, which the embedding does not
look into. -/
structure z_stream where
  next_in : List Nat
  state : List Nat
  deriving DecidableEq, Repr

/-- Return code `Z_OK` of zlib (`zlib.h`). -/
def Z_OK : Int := 0

/-- Return code `Z_STREAM_END` of zlib. -/
def Z_STREAM_END : Int := 1

/-- Return code `Z_STREAM_ERROR` of zlib. -/
def Z_STREAM_ERROR : Int := -2

/-- Return code `Z_DATA_ERROR` of zlib. -/
def Z_DATA_ERROR : Int := -3

/-- Return code `Z_MEM_ERROR` of zlib. -/
def Z_MEM_ERROR : Int := -4

/-- Return code `Z_BUF_ERROR` of zlib: no progress was possible. -/
def Z_BUF_ERROR : Int := -5

/-- Library functions the archive code calls and whose sources are outside the
archive engine; they are parameters of the embedding.
* `to_wstring`, `to_string`: `utf8::to_wstring` (UTF-8 bytes to UTF-16 code
  units) and `utf8::to_string` (the converse);
* `compress2`: zlib `compress2` at the default level, `none` unless `Z_OK`;
* `uncompress`: zlib `uncompress` of a source into a destination of the given
  capacity, `none` unless `Z_OK`;
* `inflateInit`: the return code of zlib `inflateInit`;
* `inflate`: one call of zlib `inflate(&strm, Z_NO_FLUSH)` on a stream with
  `avail_out` bytes of room: the return code, the bytes written at `next_out`
  and the stream afterwards;
* `crc32`: zlib `crc32(0, data, len)`;
* `hashArrayRepresentation`: `std::_Hash_array_representation` of the MSVC
  runtime (legacy header key). -/
structure Externals where
  to_wstring : List Nat → List Nat
  to_string : List Nat → List Nat
  compress2 : List Nat → Option (List Nat)
  uncompress : List Nat → Nat → Option (List Nat)
  inflateInit : Int
  inflate : z_stream → Nat → Int × List Nat × z_stream
  crc32 : List Nat → Nat
  hashArrayRepresentation : List Nat → Nat

/-! ## File-local helpers (`FileSystemDATArchive.cpp`) -/

/-- `normalizeSlashes`: every `'\\'` (92) becomes `'/'` (47). -/
def normalizeSlashes (path : List Nat) : List Nat :=
  path.map (fun c => if c = 92 then 47 else c)

/-- `zlibDeflate`: `(ok, out)`; `out` is cleared on error. -/
def zlibDeflate (X : Externals) (src : List Nat) : Bool × List Nat :=
  match X.compress2 src with
  | some out => (true, out)
  | none => (false, [])

/-- The `do … while (ret != Z_STREAM_END)` loop of `zlibInflate`: each round
offers `inflate` the 32768-byte `chunk`, returns false on `Z_STREAM_ERROR`,
`Z_DATA_ERROR` or `Z_MEM_ERROR`, appends the bytes produced to `out`, and goes
on unless the code was `Z_STREAM_END`; on any other code, `Z_BUF_ERROR`
included, the next round follows. `fuel` bounds the rounds: `none` means that
the loop has not ended within `fuel` rounds. -/
def zlibInflate_loop (X : Externals) : Nat → z_stream → List Nat → Option (Bool × List Nat)
  | 0, _, _ => none
  | fuel + 1, strm, out =>
    let r := X.inflate strm 32768
    if r.1 = Z_STREAM_ERROR ∨ r.1 = Z_DATA_ERROR ∨ r.1 = Z_MEM_ERROR then some (false, out)
    else
      let out := out ++ r.2.1.take 32768
      if r.1 ≠ Z_STREAM_END then zlibInflate_loop X fuel r.2.2 out
      else some (true, out)

/-- `zlibInflate` (streaming, output size not known in advance) on an empty
`out`: `(ok, out)`, or `none` when the loop has not ended within `fuel`
rounds. `avail_in` is the length cast to `uInt`. -/
def zlibInflate (X : Externals) (fuel : Nat) (src : List Nat) : Option (Bool × List Nat) :=
  if X.inflateInit ≠ Z_OK then some (false, [])
  else zlibInflate_loop X fuel ⟨src.take (u32 src.length), []⟩ []

/-- `zlibInflateKnown`: `(ok, out)`; `out` is cleared on error. -/
def zlibInflateKnown (X : Externals) (src : List Nat) (expectedSize : Nat) : Bool × List Nat :=
  match X.uncompress src expectedSize with
  | some out => (true, out)
  | none => (false, [])

/-- The 4 bytes a `memcpy` from a `uint32_t` yields on the little-endian target. -/
def le32Bytes (x : Nat) : List Nat :=
  [x % 256, x / 256 % 256, x / 65536 % 256, x / 16777216 % 256]

/-- The `uint32_t` a `memcpy` of 4 bytes yields on the little-endian target
(missing bytes count as zero). -/
def le32Value (bytes : List Nat) : Nat :=
  u32 (bytes.getD 0 0 + 256 * bytes.getD 1 0 + 65536 * bytes.getD 2 0 + 16777216 * bytes.getD 3 0)

/-- The bytes of a `wchar_t` array (2-byte little-endian code units). -/
def wcharBytes : List Nat → List Nat
  | [] => []
  | u :: us => u % 256 :: u / 256 % 256 :: wcharBytes us

/-- The `wchar_t` array that a `memcpy` of bytes fills (2 bytes per unit). -/
def wcharsOfBytes : List Nat → List Nat
  | b0 :: b1 :: rest => (b0 + 256 * b1) :: wcharsOfBytes rest
  | _ => []

/-- `sizeof(wchar_t)` on the target platform. -/
def SIZEOF_WCHAR : Nat := 2

/-- `entryRecordSize`: bytes of the on-disk record, the leading size tag excluded. -/
def entryRecordSize (X : Externals) (entry : DATArchiveEntry) : Nat :=
  (X.to_wstring entry.path).length * SIZEOF_WCHAR + 4 + 1 + 4 * 4 + 1 * 2

/-- `writeEntryRecord`: appends the serialised record of `entry` to `buf`. -/
def writeEntryRecord (X : Externals) (buf : List Nat) (entry : DATArchiveEntry) : List Nat :=
  let wpath := X.to_wstring entry.path
  let charCount := u32 wpath.length
  let buf := buf ++ le32Bytes charCount
  let buf := buf ++ (wcharBytes wpath).take (charCount * SIZEOF_WCHAR)
  let ct := u8 entry.compressionType
  let buf := buf ++ [ct]
  let buf := buf ++ le32Bytes entry.sizeFull
  let buf := buf ++ le32Bytes entry.sizeStored
  let buf := buf ++ le32Bytes entry.offsetPos
  let buf := buf ++ [entry.keyBase]
  let buf := buf ++ [entry.keyStep]
  buf ++ le32Bytes entry.crc32Value

/-- The `read` lambda of `readEntryRecord`: fails when `cursor + len > end`,
else yields the `len` bytes at `cursor` and the advanced cursor. -/
def readBytes (buf : List Nat) (cursor end_ len : Nat) : Option (List Nat × Nat) :=
  if cursor + len > end_ then none
  else some ((buf.drop cursor).take len, cursor + len)

/-- `readEntryRecord`: parses one record of `buf` at `cursor` (with `end_` the
index one past the last readable byte); `none` is the source returning false,
otherwise the parsed entry and the advanced cursor. -/
def readEntryRecord (X : Externals) (buf : List Nat) (cursor end_ : Nat) (hasCrc : Bool) :
    Option (DATArchiveEntry × Nat) :=
  match readBytes buf cursor end_ 4 with
  | none => none
  | some (b, cursor) =>
    let charCount := le32Value b
    if charCount * SIZEOF_WCHAR > end_ - cursor then none
    else
      match readBytes buf cursor end_ (charCount * SIZEOF_WCHAR) with
      | none => none
      | some (b, cursor) =>
        let wpath := wcharsOfBytes b
        let path := normalizeSlashes (X.to_string wpath)
        match readBytes buf cursor end_ 1 with
        | none => none
        | some (b, cursor) =>
          let ct := b.getD 0 0
          match readBytes buf cursor end_ 4 with
          | none => none
          | some (b, cursor) =>
            let sizeFull := le32Value b
            match readBytes buf cursor end_ 4 with
            | none => none
            | some (b, cursor) =>
              let sizeStored := le32Value b
              match readBytes buf cursor end_ 4 with
              | none => none
              | some (b, cursor) =>
                let offsetPos := le32Value b
                match readBytes buf cursor end_ 1 with
                | none => none
                | some (b, cursor) =>
                  let keyBase := b.getD 0 0
                  match readBytes buf cursor end_ 1 with
                  | none => none
                  | some (b, cursor) =>
                    let keyStep := b.getD 0 0
                    if hasCrc then
                      match readBytes buf cursor end_ 4 with
                      | none => none
                      | some (b, cursor) =>
                        some (⟨path, ct, sizeFull, sizeStored, offsetPos, keyBase, keyStep,
                          le32Value b⟩, cursor)
                    else
                      some (⟨path, ct, sizeFull, sizeStored, offsetPos, keyBase, keyStep, 0⟩,
                        cursor)

/-- `collectParentDirectories`, the loop from position `pos`: `n` characters
remain; every `'/'` found at `pos` adds `filePath.substr(0, pos + 1)` to `dirs`
(a `std::set`, so an element already present is not added again). -/
def collectParentDirectories_loop (filePath : List Nat) :
    Nat → Nat → List (List Nat) → List (List Nat)
  | 0, _, dirs => dirs
  | n + 1, pos, dirs =>
    if filePath.getD pos 0 = 47 then
      collectParentDirectories_loop filePath n (pos + 1)
        (if filePath.take (pos + 1) ∈ dirs then dirs else dirs ++ [filePath.take (pos + 1)])
    else collectParentDirectories_loop filePath n (pos + 1) dirs

/-- `collectParentDirectories(filePath, dirs)`. -/
def collectParentDirectories (filePath : List Nat) (dirs : List (List Nat)) : List (List Nat) :=
  collectParentDirectories_loop filePath filePath.length 0 dirs

/-! ## Files and streams

A file is the list of its bytes. A stream read at a position yields the bytes
that are there (fewer than asked at the end of the file); a stream write at a
position overwrites or extends the file, the gap after a seek past the end
reading as zero bytes. -/

/-- `std::ios_base::openmode`: the flags `app`, `ate`, `binary`, `in`, `out`,
`trunc`. -/
structure openmode where
  app : Bool
  ate : Bool
  binary : Bool
  in_ : Bool
  out : Bool
  trunc : Bool
  deriving DecidableEq, Repr

/-- The mode `std::ios::binary`. -/
def ios_binary : openmode := ⟨false, false, true, false, false, false⟩

/-- Modelled from the C++ standard, the library not being among the sources:
the table of file open modes of `basic_filebuf::open`. With `binary` and `ate`
set aside, the combinations of `in`, `out`, `trunc`, `app` that open a file are
`out`, `out|trunc`, `out|app`, `app`, `in`, `in|out`, `in|out|trunc`,
`in|out|app` and `in|app`; with any other combination, none of the four flags
among them, the open fails. -/
def validOpenMode (mode : openmode) : Bool :=
  match mode.in_, mode.out, mode.trunc, mode.app with
  | false, true, false, false => true
  | false, true, true, false => true
  | false, true, false, true => true
  | false, false, false, true => true
  | true, false, false, false => true
  | true, true, false, false => true
  | true, true, true, false => true
  | true, true, false, true => true
  | true, false, false, true => true
  | _, _, _, _ => false

/-- `std::fstream::open(path, mode)` on a stream in state `stream` (the file it
is open on, `none` when closed): the stream afterwards and whether the call
succeeded (else it sets `failbit`). `std::basic_fstream::open` hands `mode` to
`basic_filebuf::open` unchanged. The call fails on a stream that is already
open, which stays on its file, on a mode outside the table, and when the file
system has no file at `path`. -/
def fstream_open (stream : Option (List Nat)) (fs : List Nat → Option (List Nat))
    (path : List Nat) (mode : openmode) : Option (List Nat) × Bool :=
  match stream with
  | some file => (some file, false)
  | none =>
    if validOpenMode mode then
      match fs path with
      | some file => (some file, true)
      | none => (none, false)
    else (none, false)

/-- `seekg(pos)` followed by `read(buf, len)`: the bytes obtained (`gcount()` is
their number). -/
def fileRead (file : List Nat) (pos len : Nat) : List Nat :=
  (file.drop pos).take len

/-- `seekp(pos)` followed by `write(bytes)`. -/
def fileWrite (file : List Nat) (pos : Nat) (bytes : List Nat) : List Nat :=
  if bytes = [] then file
  else (file ++ List.replicate (pos - file.length) 0).take pos ++ bytes
    ++ file.drop (pos + bytes.length)

/-- The 24 bytes of a `DATArchiveHeader` in memory (packed, little-endian). -/
def headerBytes (h : DATArchiveHeader) : List Nat :=
  h.magic.take 8 ++ le32Bytes h.version ++ le32Bytes h.entryCount ++
    le32Bytes h.headerOffset ++ le32Bytes h.headerSize

/-- `std::memcpy(&header, buf, sizeof(header))`. -/
def parseHeader (buf : List Nat) : DATArchiveHeader :=
  ⟨buf.take 8, le32Value ((buf.drop 8).take 4), le32Value ((buf.drop 12).take 4),
    le32Value ((buf.drop 16).take 4), le32Value ((buf.drop 20).take 4)⟩

/-- `sizeof(DATArchiveHeader)`. -/
def SIZEOF_HEADER : Nat := 24

/-- Messages sent to the logger. -/
inductive LogMsg where
  | cannotOpen
  | headerReadFailed
  | notAnArchive
  | unsupportedVersion (version : Nat)
  | metadataReadFailed
  | decompressFailed
  | truncatedMetadata (i : Nat)
  | parseFailed (i : Nat)
  | inflateFailed
  | sizeMismatch
  | crcMismatch
  deriving DecidableEq, Repr

/-! ## Writer: `DATArchiveCreator::encryptArchive` -/

/-- `CHUNK`, the size of the scratch buffer of `encryptArchive`. -/
def CHUNK : Nat := 16384

/-- The `while (remaining > 0)` copy loop of `encryptArchive`, for a scratch
buffer of `chunk` bytes; source and destination streams are both at `pos`.
`buf` stands for the `got` bytes the read placed at the front of the scratch
buffer. Returns the destination file and the advanced key base. The loop ends
after at most `remaining` rounds, which `fuel` counts. -/
def encryptArchive_copy (chunk : Nat) (src : List Nat) (step : Nat) :
    Nat → Nat → Nat → Nat → List Nat → List Nat × Nat
  | 0, _, _, base, dest => (dest, base)
  | fuel + 1, pos, remaining, base, dest =>
    if remaining > 0 then
      let toRead := min remaining chunk
      let buf := fileRead src pos toRead
      let got := if buf.length > remaining then remaining else buf.length
      let r := ArchiveEncryption.shiftBlock buf got base step
      let dest := fileWrite dest pos (r.1.take got)
      if got = 0 then (dest, r.2)
      else encryptArchive_copy chunk src step fuel (pos + got) (remaining - got) r.2 dest
    else (dest, base)

/-- Step 2 of `encryptArchive`: each entry body is copied through the cipher
with its own key stream. -/
def encryptArchive_entries (src : List Nat) : List DATArchiveEntry → List Nat → List Nat
  | [], dest => dest
  | entry :: rest, dest =>
    encryptArchive_entries src rest
      (encryptArchive_copy CHUNK src entry.keyStep entry.sizeStored entry.offsetPos
        entry.sizeStored entry.keyBase dest).1

/-- `DATArchiveCreator::encryptArchive`, with both streams open: the content of
the output file. The header is read into the zero-initialised scratch buffer. -/
def encryptArchive (src : List Nat) (header : DATArchiveHeader) (keyBase keyStep : Nat)
    (entries : List DATArchiveEntry) : List Nat :=
  let got := fileRead src 0 SIZEOF_HEADER
  let buf := got ++ List.replicate (SIZEOF_HEADER - got.length) 0
  let r := ArchiveEncryption.shiftBlock buf SIZEOF_HEADER keyBase keyStep
  let headerBase := r.2
  let dest := fileWrite [] 0 (r.1.take SIZEOF_HEADER)
  let dest := encryptArchive_entries src entries dest
  (encryptArchive_copy CHUNK src keyStep header.headerSize header.headerOffset
    header.headerSize headerBase dest).1

/-! ## Reader: `FileSystemDATArchive` -/

/-- `m_entries.emplace(key, value)` on a `std::map`: no effect when the key is
already present. -/
def mapEmplace (m : List (List Nat × DATArchiveEntry)) (key : List Nat)
    (value : DATArchiveEntry) : List (List Nat × DATArchiveEntry) :=
  if (m.find? (fun kv => kv.1 = key)).isSome then m else m ++ [(key, value)]

/-- `m_entries.find(key)`. -/
def mapFind (m : List (List Nat × DATArchiveEntry)) (key : List Nat) : Option DATArchiveEntry :=
  (m.find? (fun kv => kv.1 = key)).map Prod.snd

/-- State of a `FileSystemDATArchive`. `m_file` is the content of the file the
stream is open on (`none`: not open); `m_entries` is the `std::map` as the list
of its key/value pairs, `m_directories` the `std::set` as the list of its
elements. -/
structure FileSystemDATArchive where
  m_path : List Nat
  m_file : Option (List Nat)
  m_readOffset : Nat
  m_keyBase : Nat
  m_keyStep : Nat
  m_version : Nat
  m_entries : List (List Nat × DATArchiveEntry)
  m_directories : List (List Nat)
  deriving DecidableEq, Repr

/-- A default-constructed `FileSystemDATArchive`. -/
def FileSystemDATArchive.new : FileSystemDATArchive :=
  ⟨[], none, 0, 0, 0, 0, [], []⟩

/-- The trial decryption of `open`: first the v2 cipher under the v2 header key,
and only on a magic mismatch the legacy cipher under the legacy header key.
Returns `(isLegacy, base advanced past the header, keyStep, header)`; `none`
when neither decryption shows the magic. -/
def openArchive_trial (X : Externals) (headerBuf : List Nat) :
    Option (Bool × Nat × Nat × DATArchiveHeader) :=
  let k := ArchiveEncryption.getKeyHashHeader ArchiveEncryption.ENCRYPTION_KEY
  let r := ArchiveEncryption.shiftBlock headerBuf SIZEOF_HEADER k.1 k.2
  let header := parseHeader r.1
  if header.magic = ArchiveEncryption.HEADER_MAGIC then some (false, r.2, k.2, header)
  else
    let k := ArchiveEncryption.getKeyHashHeaderLegacy X.hashArrayRepresentation
      ArchiveEncryption.ENCRYPTION_KEY
    let r := ArchiveEncryption.shiftBlockLegacy headerBuf SIZEOF_HEADER k.1 k.2
    let header := parseHeader r.1
    if header.magic ≠ ArchiveEncryption.HEADER_MAGIC then none
    else some (true, r.2, k.2, header)

/-- The decryption of the metadata block in `open`, continuing the header key
stream: the decrypted block and the advanced base. -/
def openArchive_decryptMeta (isLegacy : Bool) (encMeta : List Nat) (keyBase keyStep : Nat) :
    List Nat × Nat :=
  if isLegacy then ArchiveEncryption.shiftBlockLegacy encMeta encMeta.length keyBase keyStep
  else ArchiveEncryption.shiftBlock encMeta encMeta.length keyBase keyStep

/-- The record loop of `open`: `n` records remain, `i` is the loop index. Each
round consumes the `recordSize` tag, parses a record and indexes it; a tag or
record that does not fit ends the loop with a warning. Returns `m_entries`,
`m_directories` and the warnings. -/
def openArchive_parse (X : Externals) (metaBuf : List Nat) (end_ : Nat) (hasCrc : Bool) :
    Nat → Nat → Nat → List (List Nat × DATArchiveEntry) → List (List Nat) →
    List (List Nat × DATArchiveEntry) × List (List Nat) × List LogMsg
  | 0, _, _, entries, dirs => (entries, dirs, [])
  | n + 1, i, cursor, entries, dirs =>
    if cursor + 4 > end_ then (entries, dirs, [LogMsg.truncatedMetadata i])
    else
      let _recordSize := le32Value (fileRead metaBuf cursor 4)
      let cursor := cursor + 4
      match readEntryRecord X metaBuf cursor end_ hasCrc with
      | none => (entries, dirs, [LogMsg.parseFailed i])
      | some (entry, cursor) =>
        openArchive_parse X metaBuf end_ hasCrc n (i + 1) cursor
          (mapEmplace entries entry.path entry) (collectParentDirectories entry.path dirs)

/-- `FileSystemDATArchive::open(path, readOffset)`. `fs` is the file system:
`fs path` is the content of the file at `path`, `none` when there is none.
The stream is opened by `m_file.open(pathStr, std::ios::binary)`; when
`is_open()` is false afterwards the function returns false, and after a failed
`open` call on a stream that was open already the header read fails. `fuel`
bounds the rounds of the inflate loop, and the result is `none` when that loop
has not ended within it. Otherwise it is the value returned, the state of the
reader (each member as of the return: the index is cleared on entry,
`m_keyBase`, `m_keyStep` are set after the magic matched, `m_version` before
the version check) and the log. -/
def openArchive (X : Externals) (self : FileSystemDATArchive)
    (fs : List Nat → Option (List Nat)) (path : List Nat) (readOffset : Nat) (fuel : Nat) :
    Option (Bool × FileSystemDATArchive × List LogMsg) :=
  let opened := fstream_open self.m_file fs path ios_binary
  let m_file := opened.1
  let streamGood := opened.2
  match m_file with
  | none =>
    some (false,
      ⟨path, m_file, readOffset, self.m_keyBase, self.m_keyStep, self.m_version, [], []⟩,
      [LogMsg.cannotOpen])
  | some file =>
    let headerBuf := fileRead file readOffset SIZEOF_HEADER
    if ¬ streamGood ∨ headerBuf.length < SIZEOF_HEADER then
      some (false,
        ⟨path, m_file, readOffset, self.m_keyBase, self.m_keyStep, self.m_version, [], []⟩,
        [LogMsg.headerReadFailed])
    else
      match openArchive_trial X headerBuf with
      | none =>
        some (false,
          ⟨path, m_file, readOffset, self.m_keyBase, self.m_keyStep, self.m_version, [], []⟩,
          [LogMsg.notAnArchive])
      | some (isLegacy, base, keyStep, header) =>
        let m_version := header.version
        if m_version ≠ ArchiveEncryption.VERSION_CURRENT ∧
            m_version ≠ ArchiveEncryption.VERSION_LEGACY then
          some (false, ⟨path, m_file, readOffset, base, keyStep, m_version, [], []⟩,
            [LogMsg.unsupportedVersion m_version])
        else
          let encMeta := fileRead file (readOffset + header.headerOffset) header.headerSize
          if encMeta.length < header.headerSize then
            some (false, ⟨path, m_file, readOffset, base, keyStep, m_version, [], []⟩,
              [LogMsg.metadataReadFailed])
          else
            let r := openArchive_decryptMeta isLegacy encMeta base keyStep
            match zlibInflate X fuel r.1 with
            | none => none
            | some inflated =>
              if ¬ inflated.1 then
                some (false, ⟨path, m_file, readOffset, r.2, keyStep, m_version, [], []⟩,
                  [LogMsg.decompressFailed])
              else
                let metaBuf := inflated.2
                let hasCrc := decide (m_version ≠ ArchiveEncryption.VERSION_LEGACY)
                let parsed := openArchive_parse X metaBuf metaBuf.length hasCrc
                  header.entryCount 0 0 [] []
                some (true,
                  ⟨path, m_file, readOffset, r.2, keyStep, m_version, parsed.1, parsed.2.1⟩,
                  parsed.2.2)

/-- `FileSystemDATArchive::readEntryData`: the buffer handed back (`none` when
the source returns false) and the warnings logged. The allocation of the
result by `IData::create`, declared outside these sources, is taken to succeed. -/
def readEntryData (X : Externals) (self : FileSystemDATArchive) (entry : DATArchiveEntry) :
    Option (List Nat) × List LogMsg :=
  match self.m_file with
  | none => (none, [])
  | some file =>
    let rawBuf := fileRead file (self.m_readOffset + entry.offsetPos) entry.sizeStored
    if entry.sizeStored > 0 ∧ rawBuf.length < entry.sizeStored then (none, [])
    else
      let rawBuf :=
        if self.m_version = ArchiveEncryption.VERSION_LEGACY then
          (ArchiveEncryption.shiftBlockLegacy rawBuf rawBuf.length entry.keyBase entry.keyStep).1
        else (ArchiveEncryption.shiftBlock rawBuf rawBuf.length entry.keyBase entry.keyStep).1
      let crcLog := fun (outBuf : List Nat) =>
        if entry.crc32Value ≠ 0 ∧ outBuf ≠ [] ∧ u32 (X.crc32 outBuf) ≠ entry.crc32Value then
          [LogMsg.crcMismatch]
        else []
      if entry.compressionType = CT_NONE then (some rawBuf, crcLog rawBuf)
      else if entry.compressionType = CT_ZLIB then
        let inflated :=
          if entry.sizeStored > 0 then zlibInflateKnown X rawBuf entry.sizeFull else (true, [])
        if ¬ inflated.1 then (none, [LogMsg.inflateFailed])
        else
          let outBuf := inflated.2
          let sizeLog := if outBuf.length ≠ entry.sizeFull then [LogMsg.sizeMismatch] else []
          (some outBuf, sizeLog ++ crcLog outBuf)
      else (some [], crcLog [])

/-- `FileSystemDATArchive::readFile` (with a non-null `data`). -/
def readFile (X : Externals) (self : FileSystemDATArchive) (name : List Nat) :
    Option (List Nat) × List LogMsg :=
  match mapFind self.m_entries name with
  | none => (none, [])
  | some entry => readEntryData X self entry

/-- Modelled from the spec: `FileSystemNodeType` (`core/FileSystem.hpp` is not
among the sources), the kinds a lookup reports: file, directory, or unknown. -/
inductive FileSystemNodeType where
  | unknown
  | file
  | directory
  deriving DecidableEq, Repr

/-- `m_entries.count(key)` on the `std::map`: 1 when the key is present, else 0. -/
def mapCount (m : List (List Nat × DATArchiveEntry)) (key : List Nat) : Nat :=
  if (m.find? (fun kv => kv.1 = key)).isSome then 1 else 0

/-- `m_directories.count(key)` on the `std::set`: 1 when present, else 0. -/
def setCount (s : List (List Nat)) (key : List Nat) : Nat :=
  if key ∈ s then 1 else 0

/-- `FileSystemDATArchive::hasNode`. -/
def hasNode (self : FileSystemDATArchive) (name : List Nat) : Bool :=
  if mapCount self.m_entries name ≠ 0 then true
  else
    let dir := name
    let dir := if dir ≠ [] ∧ dir.getLast? ≠ some 47 then dir ++ [47] else dir
    decide (setCount self.m_directories dir > 0)

/-- `FileSystemDATArchive::getNodeType`. -/
def getNodeType (self : FileSystemDATArchive) (name : List Nat) : FileSystemNodeType :=
  if mapCount self.m_entries name ≠ 0 then FileSystemNodeType.file
  else
    let dir := name
    let dir := if dir ≠ [] ∧ dir.getLast? ≠ some 47 then dir ++ [47] else dir
    if setCount self.m_directories dir ≠ 0 then FileSystemNodeType.directory
    else FileSystemNodeType.unknown

/-- `FileSystemDATArchive::hasFile`. -/
def hasFile (self : FileSystemDATArchive) (name : List Nat) : Bool :=
  decide (mapCount self.m_entries name > 0)

/-- `FileSystemDATArchive::getFileSize`. -/
def getFileSize (self : FileSystemDATArchive) (name : List Nat) : Nat :=
  match mapFind self.m_entries name with
  | some entry => entry.sizeFull
  | none => 0

/-- `FileSystemDATArchive::hasDirectory`. -/
def hasDirectory (self : FileSystemDATArchive) (name : List Nat) : Bool :=
  if name = [] then true
  else
    let dir := name
    let dir := if dir ≠ [] ∧ dir.getLast? ≠ some 47 then dir ++ [47] else dir
    decide (setCount self.m_directories dir > 0)

/-! ## Enumerator: `FileSystemDATArchiveEnumerator` -/

/-- `FileSystemDATArchiveEnumerator::Item`: one element of the snapshot. -/
structure Item where
  name : List Nat
  isDirectory : Bool
  fileSize : Nat
  deriving DecidableEq, Repr

/-- State of a `FileSystemDATArchiveEnumerator`: the archive it reads from, the
snapshot `m_items` and the position `m_index` (an `int`). -/
structure FileSystemDATArchiveEnumerator where
  m_archive : FileSystemDATArchive
  m_items : List Item
  m_index : Int
  deriving DecidableEq, Repr

/-- The value of an `int` after an arithmetic step on the two's-complement
target. C++ leaves an increment past `INT_MAX` undefined; the wrap is what the
target computes. -/
def wrapInt (x : Int) : Int :=
  (x + 2 ^ 31) % 2 ^ 32 - 2 ^ 31

/-- The enumerator as its constructor leaves it over the snapshot `items`:
`m_index` is `-1` by its member initialiser. Which paths the constructor puts
in the snapshot is decided by `isPathMatched`, declared outside these sources. -/
def FileSystemDATArchiveEnumerator.new (archive : FileSystemDATArchive) (items : List Item) :
    FileSystemDATArchiveEnumerator :=
  ⟨archive, items, -1⟩

/-- `FileSystemDATArchiveEnumerator::next`: the result and the state afterwards. -/
def FileSystemDATArchiveEnumerator.next (self : FileSystemDATArchiveEnumerator) :
    Bool × FileSystemDATArchiveEnumerator :=
  let m_index := wrapInt (self.m_index + 1)
  (decide (m_index ≥ 0 ∧ m_index.toNat < self.m_items.length),
    ⟨self.m_archive, self.m_items, m_index⟩)

/-- `FileSystemDATArchiveEnumerator::getName`. -/
def FileSystemDATArchiveEnumerator.getName (self : FileSystemDATArchiveEnumerator) : List Nat :=
  if self.m_index < 0 ∨ self.m_index.toNat ≥ self.m_items.length then []
  else (self.m_items.getD self.m_index.toNat ⟨[], false, 0⟩).name

/-- `FileSystemDATArchiveEnumerator::getNodeType`. -/
def FileSystemDATArchiveEnumerator.getNodeType (self : FileSystemDATArchiveEnumerator) :
    FileSystemNodeType :=
  if self.m_index < 0 ∨ self.m_index.toNat ≥ self.m_items.length then
    FileSystemNodeType.unknown
  else if (self.m_items.getD self.m_index.toNat ⟨[], false, 0⟩).isDirectory then
    FileSystemNodeType.directory
  else FileSystemNodeType.file

/-- `FileSystemDATArchiveEnumerator::getFileSize`. -/
def FileSystemDATArchiveEnumerator.getFileSize (self : FileSystemDATArchiveEnumerator) : Nat :=
  if self.m_index < 0 ∨ self.m_index.toNat ≥ self.m_items.length then 0
  else (self.m_items.getD self.m_index.toNat ⟨[], false, 0⟩).fileSize

/-- `FileSystemDATArchiveEnumerator::readFile`: the buffer handed back (`none`
when the source returns false) and the warnings logged. -/
def FileSystemDATArchiveEnumerator.readFile (X : Externals)
    (self : FileSystemDATArchiveEnumerator) : Option (List Nat) × List LogMsg :=
  if self.m_index < 0 ∨ self.m_index.toNat ≥ self.m_items.length then (none, [])
  else if (self.m_items.getD self.m_index.toNat ⟨[], false, 0⟩).isDirectory then (none, [])
  else
    match mapFind self.m_archive.m_entries
        (self.m_items.getD self.m_index.toNat ⟨[], false, 0⟩).name with
    | none => (none, [])
    | some entry => readEntryData X self.m_archive entry

/-! ## Writer: `DATArchiveCreator` -/

/-- `DATArchiveCreator::addFile`: `m_files` with the normalised path appended. -/
def addFile (m_files : List (List Nat)) (relativePath : List Nat) : List (List Nat) :=
  m_files ++ [normalizeSlashes relativePath]

/-- The normalised base directory of `create`: slashes normalised and a
trailing `'/'` added to a non-empty directory that lacks it. -/
def create_base (baseDir : List Nat) : List Nat :=
  let base := normalizeSlashes baseDir
  if base ≠ [] ∧ base.getLast? ≠ some 47 then base ++ [47] else base

/-- The compression step of `create` for one file: files of at least 256
bytes are deflated, with a fall back to the uncompressed bytes on failure.
Returns `(compressionType, sizeStored, content)`. -/
def create_compress (X : Externals) (content : List Nat) (fileSize : Nat) :
    Nat × Nat × List Nat :=
  if fileSize ≥ 0x100 then
    let compressed := zlibDeflate X (content.take fileSize)
    if compressed.1 then (CT_ZLIB, u32 compressed.2.length, compressed.2)
    else (CT_NONE, fileSize, content)
  else (CT_NONE, fileSize, content)

/-- The per-file loop of `create` over the files still to process: `tmpFile`
is the content of the temp file (written sequentially, so `tellp()` is its
length) and `entries` the entries so far. `fs` gives the content of the input
file at a path, `none` when it cannot be opened (`create` then returns false). -/
def create_files (X : Externals) (fs : List Nat → Option (List Nat)) (base : List Nat)
    (headerKeyBase headerKeyStep : Nat) :
    List (List Nat) → List Nat → List DATArchiveEntry → Option (List Nat × List DATArchiveEntry)
  | [], tmpFile, entries => some (tmpFile, entries)
  | file :: rest, tmpFile, entries =>
    match fs (base ++ file) with
    | none => none
    | some input =>
      let fileSize := u32 input.length
      let content := fileRead input 0 fileSize
      let offsetPos := u32 tmpFile.length
      let crc32Value := u32 (X.crc32 content)
      let key := ArchiveEncryption.getKeyHashFile file headerKeyBase headerKeyStep
      let stored := create_compress X content fileSize
      let tmpFile :=
        if stored.2.2 = [] then tmpFile else tmpFile ++ stored.2.2.take stored.2.1
      create_files X fs base headerKeyBase headerKeyStep rest tmpFile
        (entries ++ [⟨file, stored.1, fileSize, stored.2.1, offsetPos, key.1, key.2,
          crc32Value⟩])

/-- The serialisation loop of `create`: each record preceded by its
`uint32_t` size tag. -/
def create_meta (X : Externals) : List DATArchiveEntry → List Nat → List Nat
  | [], metaBuf => metaBuf
  | entry :: rest, metaBuf =>
    create_meta X rest
      (writeEntryRecord X (metaBuf ++ le32Bytes (u32 (entryRecordSize X entry))) entry)

/-- The temp file `create` has staged when it calls `encryptArchive`, with the
patched header and the entries; `none` when `create` returns false before. -/
def create_stage (X : Externals) (fs : List Nat → Option (List Nat)) (m_files : List (List Nat))
    (baseDir : List Nat) : Option (List Nat × DATArchiveHeader × List DATArchiveEntry) :=
  let key := ArchiveEncryption.getKeyHashHeader ArchiveEncryption.ENCRYPTION_KEY
  let base := create_base baseDir
  let header : DATArchiveHeader :=
    ⟨ArchiveEncryption.HEADER_MAGIC, ArchiveEncryption.VERSION_CURRENT, u32 m_files.length, 0, 0⟩
  let tmpFile := headerBytes header
  match create_files X fs base key.1 key.2 m_files tmpFile [] with
  | none => none
  | some (tmpFile, entries) =>
    let metaBegin := tmpFile.length
    let metaBuf := create_meta X entries []
    let compMeta := zlibDeflate X metaBuf
    if ¬ compMeta.1 then none
    else
      let tmpFile := tmpFile ++ compMeta.2
      let header : DATArchiveHeader :=
        ⟨header.magic, header.version, header.entryCount, u32 metaBegin, u32 compMeta.2.length⟩
      let tmpFile := fileWrite tmpFile 16 (le32Bytes header.headerOffset)
      let tmpFile := fileWrite tmpFile 20 (le32Bytes header.headerSize)
      some (tmpFile, header, entries)

/-- `DATArchiveCreator::create`, with the temp and output files open: the
content of the output file, `none` when `create` returns false. -/
def create (X : Externals) (fs : List Nat → Option (List Nat)) (m_files : List (List Nat))
    (baseDir : List Nat) : Option (List Nat) :=
  let key := ArchiveEncryption.getKeyHashHeader ArchiveEncryption.ENCRYPTION_KEY
  match create_stage X fs m_files baseDir with
  | none => none
  | some (tmpFile, header, entries) => some (encryptArchive tmpFile header key.1 key.2 entries)

/-! ## Reference UTF-8 / UTF-16 conversion -/

namespace utf8

/-- UTF-8 decoder as a byte-driven state machine: `need` continuation bytes are
still expected for the code point accumulated in `acc`. Ill-formed input yields
U+FFFD. -/
def decodeUtf8 : List Nat → Nat → Nat → List Nat
  | [], need, _ => if need = 0 then [] else [0xFFFD]
  | b :: bs, 0, _ =>
    if b < 0x80 then b :: decodeUtf8 bs 0 0
    else if 0xC0 ≤ b ∧ b < 0xE0 then decodeUtf8 bs 1 (b % 32)
    else if 0xE0 ≤ b ∧ b < 0xF0 then decodeUtf8 bs 2 (b % 16)
    else if 0xF0 ≤ b ∧ b < 0xF8 then decodeUtf8 bs 3 (b % 8)
    else 0xFFFD :: decodeUtf8 bs 0 0
  | b :: bs, need + 1, acc =>
    if 0x80 ≤ b ∧ b < 0xC0 then
      (if need = 0 then (acc * 64 + b % 64) :: decodeUtf8 bs 0 0
       else decodeUtf8 bs need (acc * 64 + b % 64))
    else 0xFFFD :: decodeUtf8 bs 0 0

/-- UTF-16 code units of one code point. -/
def encodeUtf16 (cp : Nat) : List Nat :=
  if cp < 0x10000 then [cp]
  else [0xD800 + (cp - 0x10000) / 1024 % 1024, 0xDC00 + (cp - 0x10000) % 1024]

/-- UTF-16 decoder: `hi` holds a pending high surrogate. -/
def decodeUtf16 : List Nat → Option Nat → List Nat
  | [], none => []
  | [], some _ => [0xFFFD]
  | u :: us, none =>
    if 0xD800 ≤ u ∧ u < 0xDC00 then decodeUtf16 us (some u)
    else u :: decodeUtf16 us none
  | u :: us, some h =>
    if 0xDC00 ≤ u ∧ u < 0xE000 then
      (0x10000 + (h - 0xD800) * 1024 + (u - 0xDC00)) :: decodeUtf16 us none
    else if 0xD800 ≤ u ∧ u < 0xDC00 then 0xFFFD :: decodeUtf16 us (some u)
    else 0xFFFD :: u :: decodeUtf16 us none

/-- UTF-8 bytes of one code point. -/
def encodeUtf8 (cp : Nat) : List Nat :=
  if cp < 0x80 then [cp]
  else if cp < 0x800 then [0xC0 + cp / 64, 0x80 + cp % 64]
  else if cp < 0x10000 then [0xE0 + cp / 4096, 0x80 + cp / 64 % 64, 0x80 + cp % 64]
  else [0xF0 + cp / 262144 % 8, 0x80 + cp / 4096 % 64, 0x80 + cp / 64 % 64, 0x80 + cp % 64]

/-- Modelled from the spec: `utf8::to_wstring` (`utf8.hpp` is not among the
sources), the UTF-8 to UTF-16 conversion helper, specified by its contract:
lossless round trip of representable characters. -/
def to_wstring (s : List Nat) : List Nat :=
  (decodeUtf8 s 0 0).flatMap encodeUtf16

/-- Modelled from the spec: `utf8::to_string` (`utf8.hpp` is not among the
sources), the UTF-16 to UTF-8 conversion helper, specified by its contract:
lossless round trip of representable characters. -/
def to_string (w : List Nat) : List Nat :=
  (decodeUtf16 w none).flatMap encodeUtf8

end utf8

/-! ## Reference instances of the library functions

Executable stand-ins used to evaluate the embedding on concrete inputs. -/

namespace reference

/-- One bit of the reflected CRC-32 (polynomial `0xEDB88320`). -/
def crc32Bit (crc : Nat) : Nat :=
  if crc % 2 = 1 then (crc / 2) ^^^ 0xEDB88320 else crc / 2

/-- One byte of the reflected CRC-32. -/
def crc32Byte (crc b : Nat) : Nat :=
  crc32Bit (crc32Bit (crc32Bit (crc32Bit (crc32Bit (crc32Bit (crc32Bit (crc32Bit (crc ^^^ b))))))))

/-- CRC-32 as zlib computes it from the initial value 0. -/
def crc32 (data : List Nat) : Nat :=
  (data.foldl crc32Byte 0xFFFFFFFF) ^^^ 0xFFFFFFFF

/-- Stand-in for `compress2`: a two-byte tag followed by the stored data. -/
def compress2 (src : List Nat) : Option (List Nat) := some (120 :: 1 :: src)

/-- Stand-in for `uncompress`, inverse of the stand-in `compress2`; fails on a
missing tag or when the data exceed the destination capacity. -/
def uncompress : List Nat → Nat → Option (List Nat)
  | 120 :: 1 :: rest, cap => if rest.length ≤ cap then some rest else none
  | _, _ => none

/-- Stand-in for one call of `inflate`, for the format of the stand-in
`compress2`. Before the tag is read (`state` empty): with fewer than two bytes
of input nothing can be done (`Z_BUF_ERROR`), a wrong tag is a data error, the
right tag is consumed. After it the input is copied out, `avail_out` bytes at
most, and the stream ends when the input is used up. -/
def inflate (strm : z_stream) (avail_out : Nat) : Int × List Nat × z_stream :=
  if strm.state = [] then
    match strm.next_in with
    | 120 :: 1 :: rest =>
      (if rest.length ≤ avail_out then Z_STREAM_END else Z_OK, rest.take avail_out,
        ⟨rest.drop avail_out, [1]⟩)
    | _ :: _ :: _ => (Z_DATA_ERROR, [], strm)
    | _ => (Z_BUF_ERROR, [], strm)
  else
    (if strm.next_in.length ≤ avail_out then Z_STREAM_END else Z_OK,
      strm.next_in.take avail_out, ⟨strm.next_in.drop avail_out, [1]⟩)

/-- Reference externals: the UTF conversions of `utf8`, the zlib stand-ins,
CRC-32, and FNV-1a in the place of the toolchain hash (the non-MSVC branch of
`getKeyHashHeaderLegacy`). -/
def externals : Externals :=
  ⟨utf8.to_wstring, utf8.to_string, compress2, uncompress, Z_OK, inflate, crc32,
    ArchiveEncryption.fnv1a_32⟩

/-- An entry whose path `a\b` holds a backslash. -/
def backslashEntry : DATArchiveEntry := ⟨[97, 92, 98], 0, 13, 13, 24, 7, 9, 0xEBE6C6E6⟩

/-- A reader state whose index holds the single file `a/b` (3 bytes at offset
24 of the archive file) and its parent directory `a/`. -/
def sampleReader : FileSystemDATArchive :=
  ⟨[111], some (List.replicate 24 0 ++ [1, 2, 3]), 0, 0, 0, 2,
    [([97, 47, 98], ⟨[97, 47, 98], 0, 3, 3, 24, 7, 9, 0⟩)], [[97, 47]]⟩

/-- The reader after `open` on the archive `create` writes for zero files
(a fresh reader when the call has not returned within one round of fuel). -/
def emptyArchiveReader : FileSystemDATArchive :=
  ((openArchive externals FileSystemDATArchive.new
    (fun _ => create externals (fun _ => none) [] [100]) [111] 0 1).getD
    (false, FileSystemDATArchive.new, [])).2.1

/-- An entry whose path `a/😀.txt` holds a non-BMP character. -/
def emojiEntry : DATArchiveEntry :=
  ⟨[97, 47, 0xF0, 0x9F, 0x98, 0x80, 46, 116, 120, 116], 1, 4096, 30, 24, 7, 9, 0xEBE6C6E6⟩

/-- A staged header: one entry, directory block at offset 27, 2 bytes long. -/
def stagedHeader : DATArchiveHeader := ⟨ArchiveEncryption.HEADER_MAGIC, 2, 1, 27, 2⟩

/-- The entry of the staged sample, its 3-byte body at offset 24. -/
def stagedEntry : DATArchiveEntry := ⟨[97], 0, 3, 3, 24, 7, 9, 0⟩

/-- A file system with the 3-byte file `d/a` and the 256-byte file `d/b/c`. -/
def sampleFs (p : List Nat) : Option (List Nat) :=
  if p = [100, 47, 97] then some [1, 2, 3]
  else if p = [100, 47, 98, 47, 99] then some (List.replicate 256 65)
  else none

/-- The relative paths `a` and `b\c` as handed to `addFile`. -/
def samplePaths : List (List Nat) := [[97], [98, 92, 99]]

/-- An archive file under the v2 cipher without entry bodies: the header with
the given `version` and `entryCount`, and at offset 24 the deflated
`directory`. -/
def archiveOf (version entryCount : Nat) (directory : List Nat) : List Nat :=
  (ArchiveEncryption.shiftBlock
    (headerBytes ⟨ArchiveEncryption.HEADER_MAGIC, version, entryCount, 24,
      ((compress2 directory).getD []).length⟩ ++ (compress2 directory).getD [])
    (24 + ((compress2 directory).getD []).length)
    (ArchiveEncryption.getKeyHashHeader ArchiveEncryption.ENCRYPTION_KEY).1
    (ArchiveEncryption.getKeyHashHeader ArchiveEncryption.ENCRYPTION_KEY).2).1

/-- The archive `create` writes for the sample files (empty when `create`
returns false). -/
def sampleArchive : List Nat :=
  (create externals sampleFs (samplePaths.foldl addFile []) [100]).getD []

/-- A file system that holds the file `archive` at every path. -/
def fsOf (archive : List Nat) : List Nat → Option (List Nat) :=
  fun _ => some archive

/-- A directory of two records, for the files `a` and `b/c`, followed by a size
tag and the first two bytes of a third record. -/
def truncatedDirectory : List Nat :=
  writeEntryRecord externals (le32Bytes 24) ⟨[97], 0, 3, 3, 24, 7, 9, 5⟩ ++
  writeEntryRecord externals (le32Bytes 28) ⟨[98, 47, 99], 1, 300, 40, 27, 1, 2, 6⟩ ++
  [24, 0, 0, 0, 1, 0]

/-- A directory of one record whose `compressionType` byte is 7. -/
def oddCompressionDirectory : List Nat :=
  writeEntryRecord externals (le32Bytes 24) ⟨[97], 7, 3, 3, 24, 7, 9, 0⟩

/-- An enumerator snapshot: the file `a` of 3 bytes and the directory `b/`. -/
def sampleItems : List Item := [⟨[97], false, 3⟩, ⟨[98, 47], true, 0⟩]

end reference

/-! ## Proof devices -/

/-- Entry bodies laid out back to back from offset `off`: each entry points at
its body and records its length. -/
def Layout : Nat → List DATArchiveEntry → List (List Nat) → Prop
  | _, [], [] => True
  | off, e :: es, b :: bs =>
    e.offsetPos = off ∧ e.sizeStored = b.length ∧ Layout (off + b.length) es bs
  | _, _, _ => False

/-- The entry bodies after step 2 of `encryptArchive`, each under its own key. -/
def encryptBodies : List DATArchiveEntry → List (List Nat) → List (List Nat)
  | e :: es, b :: bs =>
    (ArchiveEncryption.shiftBlock b b.length e.keyBase e.keyStep).1 :: encryptBodies es bs
  | _, _ => []

/-- The serialised directory: for each entry its size tag and its record. -/
def metaBytes (X : Externals) : List DATArchiveEntry → List Nat
  | [] => []
  | e :: es => writeEntryRecord X (le32Bytes (u32 (entryRecordSize X e))) e ++ metaBytes X es

/-- Entry `e` with stored body `body` describes the input file at its path:
the body is the file content, or its deflated form for a `CT_ZLIB` entry. -/
def Stored (X : Externals) (fs : List Nat → Option (List Nat)) (base : List Nat)
    (e : DATArchiveEntry) (body : List Nat) : Prop :=
  ∃ content, fs (base ++ e.path) = some content ∧ e.sizeFull = content.length ∧
    e.sizeStored = body.length ∧ e.sizeStored < 2 ^ 32 ∧ e.sizeFull < 2 ^ 32 ∧
    e.offsetPos < 2 ^ 32 ∧ e.keyBase < 256 ∧ e.keyStep < 256 ∧ e.crc32Value < 2 ^ 32 ∧
    ((e.compressionType = CT_NONE ∧ body = content) ∨
     (e.compressionType = CT_ZLIB ∧ X.compress2 content = some body))

/-- `d` is the part of path `p` up to and including a `'/'` at some position. -/
def IsParentDirectory (p d : List Nat) : Prop :=
  ∃ i, i < p.length ∧ p.getD i 0 = 47 ∧ d = p.take (i + 1)

/-- The decryption of the raw header that `open` accepts, in the words of the
specification: the v2 decryption when it begins with the magic, else the legacy
decryption when that one does, else none. -/
def acceptedHeader (X : Externals) (headerBuf : List Nat) : Option (List Nat) :=
  let v2 := (ArchiveEncryption.shiftBlock headerBuf 24
    (ArchiveEncryption.getKeyHashHeader ArchiveEncryption.ENCRYPTION_KEY).1
    (ArchiveEncryption.getKeyHashHeader ArchiveEncryption.ENCRYPTION_KEY).2).1
  let legacy := (ArchiveEncryption.shiftBlockLegacy headerBuf 24
    (ArchiveEncryption.getKeyHashHeaderLegacy X.hashArrayRepresentation
      ArchiveEncryption.ENCRYPTION_KEY).1
    (ArchiveEncryption.getKeyHashHeaderLegacy X.hashArrayRepresentation
      ArchiveEncryption.ENCRYPTION_KEY).2).1
  if v2.take 8 = ArchiveEncryption.HEADER_MAGIC then some v2
  else if legacy.take 8 = ArchiveEncryption.HEADER_MAGIC then some legacy
  else none

/-- The `version` field of a decrypted header: the little-endian `uint32_t` at
byte 8. -/
def headerVersion (header : List Nat) : Nat :=
  le32Value ((header.drop 8).take 4)

/-- The state of an enumerator after `k` calls of `next` (proof device). -/
def nextTimes : Nat → FileSystemDATArchiveEnumerator → FileSystemDATArchiveEnumerator
  | 0, e => e
  | k + 1, e => (nextTimes k e).next.2

/-- The records the loop of `open` parses one after the other from `cursor`, at
most `n` of them, each with the cursor after it; the list ends before the
first record whose tag or fields do not fit (proof device). -/
def parsedRecords (X : Externals) (metaBuf : List Nat) (end_ : Nat) (hasCrc : Bool) :
    Nat → Nat → List (DATArchiveEntry × Nat)
  | 0, _ => []
  | n + 1, cursor =>
    if cursor + 4 > end_ then []
    else
      match readEntryRecord X metaBuf (cursor + 4) end_ hasCrc with
      | none => []
      | some (entry, next) => (entry, next) :: parsedRecords X metaBuf end_ hasCrc n next

/-- The positions of the `recordSize` tags the loop of `open` consumes from
`cursor`, at most `n` of them (proof device). -/
def tagPositions (X : Externals) (metaBuf : List Nat) (end_ : Nat) (hasCrc : Bool) :
    Nat → Nat → List Nat
  | 0, _ => []
  | n + 1, cursor =>
    if cursor + 4 > end_ then []
    else
      cursor ::
        (match readEntryRecord X metaBuf (cursor + 4) end_ hasCrc with
         | none => []
         | some (_, next) => tagPositions X metaBuf end_ hasCrc n next)

/-- Buffers `a` and `b` have the same length and the same bytes everywhere
outside the 4-byte tags at the positions `tags`. -/
def SameOutsideTags (tags : List Nat) (a b : List Nat) : Prop :=
  a.length = b.length ∧
    ∀ j, (∀ t ∈ tags, j < t ∨ t + 4 ≤ j) → a.getD j 0 = b.getD j 0

/-! ## Assumptions on the library functions and on sizes -/

/-- A path the UTF conversions represent without loss: a byte string with
fewer than 2^32 UTF-16 code units, each a 16-bit value, that converts back to
itself. -/
def Representable (X : Externals) (p : List Nat) : Prop :=
  isBytes p ∧ (X.to_wstring p).length < 2 ^ 32 ∧ (∀ u ∈ X.to_wstring p, u < 65536) ∧
    X.to_string (X.to_wstring p) = p

instance (X : Externals) (p : List Nat) : Decidable (Representable X p) := by
  unfold Representable; infer_instance

/-- Every input file, and its deflated form, is shorter than 2^32 bytes. -/
def InputsFit (X : Externals) (fs : List Nat → Option (List Nat)) (base : List Nat)
    (files : List (List Nat)) : Prop :=
  ∀ f ∈ files, ∀ c, fs (base ++ f) = some c →
    c.length < 2 ^ 32 ∧ ∀ z, X.compress2 c = some z → z.length < 2 ^ 32

/-- Generic XOR stream over a whole buffer with key update `next`: the closed
form both cipher loops are shown to compute (proof device, not source code). -/
def xorStream (next : Nat → Nat) : List Nat → Nat → List Nat × Nat
  | [], base => ([], base)
  | d :: ds, base =>
    (u8 (d ^^^ base) :: (xorStream next ds (next base)).1, (xorStream next ds (next base)).2)

open ArchiveEncryption

/-! # Theorems -/

theorem u8_lt (x : Nat) : u8 x < 256 := Nat.mod_lt _ (by decide)

theorem u32_lt (x : Nat) : u32 x < 2 ^ 32 := Nat.mod_lt _ (by decide)

theorem u8_of_lt {x : Nat} (h : x < 256) : u8 x = x := Nat.mod_eq_of_lt h

theorem u32_of_lt {x : Nat} (h : x < 2 ^ 32) : u32 x = x := Nat.mod_eq_of_lt h

theorem u8_u32 (x : Nat) : u8 (u32 x) = x % 256 := by
  unfold u8 u32
  exact Nat.mod_mod_of_dvd x (by decide)

theorem xor_byte_lt {a b : Nat} (ha : a < 256) (hb : b < 256) : a ^^^ b < 256 :=
  @Nat.xor_lt_two_pow a b 8 ha hb

theorem isBytes_nil : isBytes [] := by intro b hb; cases hb

theorem isBytes_cons {a : Nat} {l : List Nat} : isBytes (a :: l) ↔ a < 256 ∧ isBytes l := by
  simp [isBytes]

theorem isBytes_append {l₁ l₂ : List Nat} : isBytes (l₁ ++ l₂) ↔ isBytes l₁ ∧ isBytes l₂ := by
  simp only [isBytes, List.mem_append]
  constructor
  · intro h; exact ⟨fun b hb => h b (Or.inl hb), fun b hb => h b (Or.inr hb)⟩
  · rintro ⟨h1, h2⟩ b (hb | hb)
    · exact h1 b hb
    · exact h2 b hb

theorem isBytes_take {l : List Nat} (h : isBytes l) (n : Nat) : isBytes (l.take n) :=
  fun b hb => h b (List.mem_of_mem_take hb)

theorem isBytes_drop {l : List Nat} (h : isBytes l) (n : Nat) : isBytes (l.drop n) :=
  fun b hb => h b (List.mem_of_mem_drop hb)

/-! ### The XOR stream closed form -/

theorem xorStream_length (next : Nat → Nat) (d : List Nat) (base : Nat) :
    (xorStream next d base).1.length = d.length := by
  induction d generalizing base with
  | nil => rfl
  | cons x xs ih => simp [xorStream, ih]

theorem xorStream_isBytes (next : Nat → Nat) (d : List Nat) (base : Nat) :
    isBytes (xorStream next d base).1 := by
  induction d generalizing base with
  | nil => exact isBytes_nil
  | cons x xs ih =>
    simp only [xorStream]
    exact isBytes_cons.2 ⟨u8_lt _, ih _⟩

theorem xorStream_snd (next : Nat → Nat) (d : List Nat) (base : Nat) :
    (xorStream next d base).2 = next^[d.length] base := by
  induction d generalizing base with
  | nil => rfl
  | cons x xs ih => simp [xorStream, ih]

theorem xorStream_append (next : Nat → Nat) (a b : List Nat) (base : Nat) :
    xorStream next (a ++ b) base =
      ((xorStream next a base).1 ++ (xorStream next b (xorStream next a base).2).1,
       (xorStream next b (xorStream next a base).2).2) := by
  induction a generalizing base with
  | nil => simp [xorStream]
  | cons x xs ih => simp [xorStream, ih]

theorem xorStream_involutive (next : Nat → Nat) (d : List Nat) (base : Nat)
    (hd : isBytes d) (hb : base < 256) (hn : ∀ x, next x < 256) :
    (xorStream next (xorStream next d base).1 base).1 = d := by
  induction d generalizing base with
  | nil => rfl
  | cons x xs ih =>
    have hx := (isBytes_cons.1 hd).1
    simp only [xorStream]
    rw [ih (next base) (isBytes_cons.1 hd).2 (hn base)]
    rw [u8_of_lt (xor_byte_lt hx hb), Nat.xor_cancel_right, u8_of_lt hx]

theorem xorStream_getElem? (next : Nat → Nat) (d : List Nat) (base : Nat) (i : Nat) :
    (xorStream next d base).1[i]? = d[i]?.map (fun x => u8 (x ^^^ next^[i] base)) := by
  induction d generalizing base i with
  | nil => simp [xorStream]
  | cons x xs ih =>
    cases i with
    | zero => simp [xorStream]
    | succ j => simp [xorStream, ih]

theorem take_succ_set (l : List Nat) (i a : Nat) (h : i < l.length) :
    (l.set i a).take (i + 1) = l.take i ++ [a] := by
  rw [List.set_eq_take_append_cons_drop, if_pos h, List.take_append_eq_append_take]
  have hlen : (List.take i l).length = i := by rw [List.length_take]; omega
  rw [hlen, List.take_of_length_le (by omega)]
  have : i + 1 - i = 1 := by omega
  rw [this]
  rfl

/-- Loop invariant of the cipher loops, in closed form. -/
theorem shiftBlock_loop_eq (step n i : Nat) (data : List Nat) (base : Nat)
    (h : i + n ≤ data.length) :
    shiftBlock_loop step n i data base =
      (data.take i ++ (xorStream (fun b => u8 (u32 (b * 0xBD + step))) ((data.drop i).take n) base).1
          ++ data.drop (i + n),
       (xorStream (fun b => u8 (u32 (b * 0xBD + step))) ((data.drop i).take n) base).2) := by
  induction n generalizing i data base with
  | zero => simp [shiftBlock_loop, xorStream]
  | succ n ih =>
    have hi : i < data.length := by omega
    rw [shiftBlock_loop, ih]
    · rw [take_succ_set _ _ _ hi, List.drop_set_of_lt _ _ (by omega),
        List.drop_set_of_lt _ _ (by omega),
        List.drop_eq_getElem_cons hi, List.take_succ_cons, List.getD_eq_getElem _ _ hi]
      simp only [xorStream]
      simp [Nat.add_assoc, Nat.add_comm 1 n]
    · simp; omega


theorem shiftBlockLegacy_loop_eq (step n i : Nat) (data : List Nat) (base : Nat)
    (h : i + n ≤ data.length) :
    shiftBlockLegacy_loop step n i data base =
      (data.take i ++ (xorStream (fun b => u8 (u32 (b + step))) ((data.drop i).take n) base).1
          ++ data.drop (i + n),
       (xorStream (fun b => u8 (u32 (b + step))) ((data.drop i).take n) base).2) := by
  induction n generalizing i data base with
  | zero => simp [shiftBlockLegacy_loop, xorStream]
  | succ n ih =>
    have hi : i < data.length := by omega
    rw [shiftBlockLegacy_loop, ih]
    · rw [take_succ_set _ _ _ hi, List.drop_set_of_lt _ _ (by omega),
        List.drop_set_of_lt _ _ (by omega),
        List.drop_eq_getElem_cons hi, List.take_succ_cons, List.getD_eq_getElem _ _ hi]
      simp only [xorStream]
      simp [Nat.add_assoc, Nat.add_comm 1 n]
    · simp; omega

/-- `shiftBlock` over a whole buffer is the XOR stream with the v2 key update. -/
theorem shiftBlock_eq (d : List Nat) (base step : Nat) :
    shiftBlock d d.length base step = xorStream (fun b => u8 (u32 (b * 0xBD + step))) d base := by
  unfold shiftBlock
  rw [shiftBlock_loop_eq step d.length 0 d base (by omega)]
  simp

/-- `shiftBlockLegacy` over a whole buffer is the XOR stream with the v1 key update. -/
theorem shiftBlockLegacy_eq (d : List Nat) (base step : Nat) :
    shiftBlockLegacy d d.length base step = xorStream (fun b => u8 (u32 (b + step))) d base := by
  unfold shiftBlockLegacy
  rw [shiftBlockLegacy_loop_eq step d.length 0 d base (by omega)]
  simp

theorem shiftBlock_length (d : List Nat) (base step : Nat) :
    (shiftBlock d d.length base step).1.length = d.length := by
  rw [shiftBlock_eq, xorStream_length]

theorem shiftBlockLegacy_length (d : List Nat) (base step : Nat) :
    (shiftBlockLegacy d d.length base step).1.length = d.length := by
  rw [shiftBlockLegacy_eq, xorStream_length]

theorem keyStream_eq_iterate (base step i : Nat) :
    keyStream base step i = (fun b => u8 (u32 (b * 0xBD + step)))^[i] base := by
  induction i with
  | zero => rfl
  | succ i ih =>
    rw [Function.iterate_succ_apply', ← ih, keyStream, u8_u32]

theorem keyStream_lt (base step i : Nat) (hb : base < 256) : keyStream base step i < 256 := by
  cases i with
  | zero => exact hb
  | succ i => exact Nat.mod_lt _ (by decide)

/-! ### The FNV-1a loop -/

theorem fnv1a_32_loop_eq (data : List Nat) (n i hash : Nat) (h : i + n ≤ data.length) :
    fnv1a_32_loop data n i hash =
      ((data.drop i).take n).foldl (fun acc b => u32 ((acc ^^^ u8 b) * FNV_PRIME)) hash := by
  induction n generalizing i hash with
  | zero => simp [fnv1a_32_loop]
  | succ n ih =>
    have hi : i < data.length := by omega
    rw [fnv1a_32_loop, ih _ _ (by omega), List.drop_eq_getElem_cons hi, List.take_succ_cons,
      List.foldl_cons, List.getD_eq_getElem _ _ hi]

theorem foldl_fnv_isBytes (s : List Nat) (hs : isBytes s) (hash : Nat) :
    s.foldl (fun acc b => u32 ((acc ^^^ u8 b) * FNV_PRIME)) hash =
      s.foldl (fun acc b => ((acc ^^^ b) * 16777619) % 2 ^ 32) hash := by
  induction s generalizing hash with
  | nil => simp only [List.foldl_nil]
  | cons x xs ih =>
    rw [List.foldl_cons, List.foldl_cons, ih (isBytes_cons.1 hs).2, u8_of_lt (isBytes_cons.1 hs).1]
    simp only [u32, FNV_PRIME]

/-! ### Claims on the cipher and the key derivation -/

theorem shiftBlock_twice (d : List Nat) (base step : Nat) (hd : isBytes d) (hb : base < 256) :
    (shiftBlock (shiftBlock d d.length base step).1 d.length base step).1 = d := by
  have h := shiftBlock_eq (shiftBlock d d.length base step).1 base step
  rw [shiftBlock_length] at h
  rw [h, shiftBlock_eq]
  exact xorStream_involutive _ d base hd hb (fun _ => u8_lt _)

theorem shiftBlockLegacy_twice (d : List Nat) (base step : Nat) (hd : isBytes d)
    (hb : base < 256) :
    (shiftBlockLegacy (shiftBlockLegacy d d.length base step).1 d.length base step).1 = d := by
  have h := shiftBlockLegacy_eq (shiftBlockLegacy d d.length base step).1 base step
  rw [shiftBlockLegacy_length] at h
  rw [h, shiftBlockLegacy_eq]
  exact xorStream_involutive _ d base hd hb (fun _ => u8_lt _)

/-- C2: applying `shiftBlock` twice from the same `(base, step)` to a byte buffer
returns the buffer unchanged, and the same holds for `shiftBlockLegacy`. -/
theorem shiftBlock_involution (d : List Nat) (base step : Nat)
    (hd : isBytes d) (hb : base < 256) :
    (shiftBlock (shiftBlock d d.length base step).1 d.length base step).1 = d ∧
    (shiftBlockLegacy (shiftBlockLegacy d d.length base step).1 d.length base step).1 = d :=
  ⟨shiftBlock_twice d base step hd hb, shiftBlockLegacy_twice d base step hd hb⟩

theorem shiftBlock_involution_witness :
    (shiftBlock (shiftBlock [1, 2, 255] 3 7 9).1 3 7 9).1 = [1, 2, 255] ∧
    (shiftBlockLegacy (shiftBlockLegacy [1, 2, 255] 3 7 9).1 3 7 9).1 = [1, 2, 255] :=
  shiftBlock_involution [1, 2, 255] 7 9 (by decide) (by decide)

/-- C5: `fnv1a_32` over a byte sequence is the left fold from 2166136261 with
`hash ← ((hash XOR b) * 16777619) mod 2^32`, and the hash of the empty
sequence is `0x811C9DC5`. -/
theorem fnv1a_32_eq_spec (s : List Nat) (hs : isBytes s) :
    fnv1a_32 s = s.foldl (fun hash b => ((hash ^^^ b) * 16777619) % 2 ^ 32) 2166136261 ∧
    fnv1a_32 s = fnv1a_32_spec s ∧
    fnv1a_32 [] = 0x811C9DC5 := by
  have h : fnv1a_32 s = s.foldl (fun hash b => ((hash ^^^ b) * 16777619) % 2 ^ 32) 2166136261 := by
    unfold fnv1a_32 fnv1a_32_ptr
    rw [fnv1a_32_loop_eq s s.length 0 OFFSET_BASIS (by omega)]
    simp only [List.drop_zero, List.take_length]
    rw [foldl_fnv_isBytes s hs]
    rfl
  exact ⟨h, h, rfl⟩

theorem fnv1a_32_eq_spec_witness :
    fnv1a_32 [97, 0, 255] =
      [97, 0, 255].foldl (fun hash b => ((hash ^^^ b) * 16777619) % 2 ^ 32) 2166136261 ∧
    fnv1a_32 [97, 0, 255] = fnv1a_32_spec [97, 0, 255] ∧
    fnv1a_32 [] = 0x811C9DC5 :=
  fnv1a_32_eq_spec [97, 0, 255] (by decide)

/-- C6: `shiftBlock` over a buffer `d` of length `N` keeps the length, replaces
byte `i` by `d[i] XOR b_i` with `b_0 = base`, `b_(i+1) = (b_i * 0xBD + step) mod 256`,
and hands back `b_N` as the advanced base. -/
theorem shiftBlock_keystream (d : List Nat) (base step : Nat)
    (hd : isBytes d) (hb : base < 256) :
    (shiftBlock d d.length base step).1.length = d.length ∧
    (∀ i (hi : i < d.length),
      (shiftBlock d d.length base step).1[i]? = some (d[i] ^^^ keyStream base step i)) ∧
    (shiftBlock d d.length base step).2 = keyStream base step d.length := by
  refine ⟨shiftBlock_length d base step, ?_, ?_⟩
  · intro i hi
    rw [shiftBlock_eq, xorStream_getElem?, List.getElem?_eq_getElem hi, Option.map_some',
      ← keyStream_eq_iterate,
      u8_of_lt (xor_byte_lt (hd _ (List.getElem_mem hi)) (keyStream_lt base step i hb))]
  · rw [shiftBlock_eq, xorStream_snd, keyStream_eq_iterate]

theorem shiftBlock_keystream_witness :
    (shiftBlock [1, 2, 255] 3 7 9).1.length = 3 ∧
    (∀ i (hi : i < [1, 2, 255].length),
      (shiftBlock [1, 2, 255] 3 7 9).1[i]? = some ([1, 2, 255][i] ^^^ keyStream 7 9 i)) ∧
    (shiftBlock [1, 2, 255] 3 7 9).2 = keyStream 7 9 3 :=
  shiftBlock_keystream [1, 2, 255] 7 9 (by decide) (by decide)

theorem and_0xFF (x : Nat) : x &&& 0xFF = x % 256 := Nat.and_pow_two_sub_one_eq_mod x 8

/-- C7: with `h = fnv1a_32(K)`, `getKeyHashHeader` returns
`keyBase = (h mod 256) XOR 0x55` and `keyStep = ((h div 256) mod 256) XOR 0xC8`. -/
theorem getKeyHashHeader_eq (K : List Nat) :
    getKeyHashHeader K =
      ((fnv1a_32 K % 256) ^^^ 0x55, ((fnv1a_32 K / 256) % 256) ^^^ 0xC8) := by
  unfold getKeyHashHeader
  simp only [and_0xFF, Nat.shiftRight_eq_div_pow]
  have h1 : fnv1a_32 K % 256 < 256 := Nat.mod_lt _ (by decide)
  have h2 : fnv1a_32 K / 2 ^ 8 % 256 < 256 := Nat.mod_lt _ (by decide)
  rw [u8_of_lt h1, u8_of_lt h2, u8_of_lt (xor_byte_lt h1 (by decide)),
    u8_of_lt (xor_byte_lt h2 (by decide))]
  rfl

/-- C8: with `h = fnv1a_32(p)`, `getKeyHashFile` returns
`keyBase = ((h div 2^24) mod 256) XOR headerBase XOR 0x4A` and
`keyStep = ((h div 2^16) mod 256) XOR headerStep XOR 0xEB`. -/
theorem getKeyHashFile_eq (p : List Nat) (headerBase headerStep : Nat)
    (hb : headerBase < 256) (hs : headerStep < 256) :
    getKeyHashFile p headerBase headerStep =
      (((fnv1a_32 p / 2 ^ 24) % 256) ^^^ headerBase ^^^ 0x4A,
       ((fnv1a_32 p / 2 ^ 16) % 256) ^^^ headerStep ^^^ 0xEB) := by
  unfold getKeyHashFile
  simp only [and_0xFF, Nat.shiftRight_eq_div_pow]
  have h1 : fnv1a_32 p / 2 ^ 24 % 256 < 256 := Nat.mod_lt _ (by decide)
  have h2 : fnv1a_32 p / 2 ^ 16 % 256 < 256 := Nat.mod_lt _ (by decide)
  rw [u8_of_lt h1, u8_of_lt h2,
    u8_of_lt (xor_byte_lt (xor_byte_lt h1 hb) (by decide)),
    u8_of_lt (xor_byte_lt (xor_byte_lt h2 hs) (by decide))]

theorem getKeyHashFile_eq_witness :
    getKeyHashFile [97, 47, 98] 100 230 =
      (((fnv1a_32 [97, 47, 98] / 2 ^ 24) % 256) ^^^ 100 ^^^ 0x4A,
       ((fnv1a_32 [97, 47, 98] / 2 ^ 16) % 256) ^^^ 230 ^^^ 0xEB) :=
  getKeyHashFile_eq [97, 47, 98] 100 230 (by decide) (by decide)

theorem readBytes_eq_some {buf : List Nat} {cursor end_ len : Nat} (h : cursor + len ≤ end_) :
    readBytes buf cursor end_ len = some ((buf.drop cursor).take len, cursor + len) := by
  unfold readBytes
  rw [if_neg (by omega)]

theorem readBytes_eq_none {buf : List Nat} {cursor end_ len : Nat} (h : end_ < cursor + len) :
    readBytes buf cursor end_ len = none := by
  unfold readBytes
  rw [if_pos (by omega)]

/-- Closed form of a successful `readEntryRecord`. -/
theorem readEntryRecord_eq_some (X : Externals) (buf : List Nat) (cursor end_ : Nat)
    (hasCrc : Bool)
    (h : cursor + (4 + 2 * le32Value ((buf.drop cursor).take 4) + 15 +
      (if hasCrc then 4 else 0)) ≤ end_) :
    readEntryRecord X buf cursor end_ hasCrc =
      some (⟨normalizeSlashes (X.to_string (wcharsOfBytes
              ((buf.drop (cursor + 4)).take (le32Value ((buf.drop cursor).take 4) * 2)))),
            ((buf.drop (cursor + 4 + le32Value ((buf.drop cursor).take 4) * 2)).take 1).getD 0 0,
            le32Value ((buf.drop (cursor + 4 + le32Value ((buf.drop cursor).take 4) * 2 + 1)).take 4),
            le32Value ((buf.drop (cursor + 4 + le32Value ((buf.drop cursor).take 4) * 2 + 1 + 4)).take 4),
            le32Value ((buf.drop (cursor + 4 + le32Value ((buf.drop cursor).take 4) * 2 + 1 + 4 + 4)).take 4),
            ((buf.drop (cursor + 4 + le32Value ((buf.drop cursor).take 4) * 2 + 1 + 4 + 4 + 4)).take 1).getD 0 0,
            ((buf.drop (cursor + 4 + le32Value ((buf.drop cursor).take 4) * 2 + 1 + 4 + 4 + 4 + 1)).take 1).getD 0 0,
            if hasCrc then
              le32Value ((buf.drop (cursor + 4 + le32Value ((buf.drop cursor).take 4) * 2 + 1 + 4 + 4 + 4 + 1 + 1)).take 4)
            else 0⟩,
        cursor + (4 + 2 * le32Value ((buf.drop cursor).take 4) + 15 + (if hasCrc then 4 else 0))) := by
  generalize hn : le32Value ((buf.drop cursor).take 4) = n at h ⊢
  have hc : (if hasCrc = true then 4 else 0) ≤ 4 := by split <;> omega
  unfold readEntryRecord
  rw [readBytes_eq_some (by omega)]
  simp only [hn, SIZEOF_WCHAR]
  rw [if_neg (by omega), readBytes_eq_some (by omega)]
  simp only []
  rw [readBytes_eq_some (by omega)]
  simp only []
  rw [readBytes_eq_some (by omega)]
  simp only []
  rw [readBytes_eq_some (by omega)]
  simp only []
  rw [readBytes_eq_some (by omega)]
  simp only []
  rw [readBytes_eq_some (by omega)]
  simp only []
  rw [readBytes_eq_some (by omega)]
  simp only []
  cases hasCrc with
  | true =>
    simp only [if_true] at h ⊢
    rw [readBytes_eq_some (by omega)]
    simp only [Option.some.injEq, Prod.mk.injEq, true_and]
    omega
  | false =>
    simp only [Bool.false_eq_true, if_false, Option.some.injEq, Prod.mk.injEq, true_and]
    omega

theorem readEntryRecord_eq_none (X : Externals) (buf : List Nat) (cursor end_ : Nat)
    (hasCrc : Bool)
    (h : end_ < cursor + (4 + 2 * le32Value ((buf.drop cursor).take 4) + 15 +
      (if hasCrc then 4 else 0))) :
    readEntryRecord X buf cursor end_ hasCrc = none := by
  generalize hn : le32Value ((buf.drop cursor).take 4) = n at h
  unfold readEntryRecord
  by_cases h1 : cursor + 4 ≤ end_
  swap
  · rw [readBytes_eq_none (by omega)]
  rw [readBytes_eq_some h1]
  simp only [hn, SIZEOF_WCHAR]
  by_cases h2 : n * 2 > end_ - (cursor + 4)
  · rw [if_pos h2]
  rw [if_neg h2, readBytes_eq_some (by omega)]
  simp only []
  by_cases h3 : cursor + 4 + n * 2 + 1 ≤ end_
  swap
  · rw [readBytes_eq_none (by omega)]
  rw [readBytes_eq_some h3]
  simp only []
  by_cases h4 : cursor + 4 + n * 2 + 1 + 4 ≤ end_
  swap
  · rw [readBytes_eq_none (by omega)]
  rw [readBytes_eq_some h4]
  simp only []
  by_cases h5 : cursor + 4 + n * 2 + 1 + 4 + 4 ≤ end_
  swap
  · rw [readBytes_eq_none (by omega)]
  rw [readBytes_eq_some h5]
  simp only []
  by_cases h6 : cursor + 4 + n * 2 + 1 + 4 + 4 + 4 ≤ end_
  swap
  · rw [readBytes_eq_none (by omega)]
  rw [readBytes_eq_some h6]
  simp only []
  by_cases h7 : cursor + 4 + n * 2 + 1 + 4 + 4 + 4 + 1 ≤ end_
  swap
  · rw [readBytes_eq_none (by omega)]
  rw [readBytes_eq_some h7]
  simp only []
  by_cases h8 : cursor + 4 + n * 2 + 1 + 4 + 4 + 4 + 1 + 1 ≤ end_
  swap
  · rw [readBytes_eq_none (by omega)]
  rw [readBytes_eq_some h8]
  simp only []
  cases hasCrc with
  | true =>
    simp only [if_true] at h ⊢
    rw [readBytes_eq_none (by omega)]
  | false =>
    simp only [Bool.false_eq_true, if_false] at h
    omega


/-! ### Little-endian fields and UTF-16 code units -/

theorem le32Bytes_length (x : Nat) : (le32Bytes x).length = 4 := rfl

theorem le32Bytes_isBytes (x : Nat) : isBytes (le32Bytes x) := by
  intro b hb
  simp only [le32Bytes, List.mem_cons, List.mem_singleton, List.not_mem_nil, or_false] at hb
  rcases hb with h | h | h | h <;> rw [h] <;> exact Nat.mod_lt _ (by decide)

theorem le32Value_le32Bytes (x : Nat) (hx : x < 2 ^ 32) : le32Value (le32Bytes x) = x := by
  simp only [le32Value, le32Bytes, u32, List.getD_cons_zero, List.getD_cons_succ]
  omega

theorem wcharBytes_length (w : List Nat) : (wcharBytes w).length = w.length * 2 := by
  induction w with
  | nil => rfl
  | cons u us ih => simp only [wcharBytes, List.length_cons, ih]; omega

theorem wcharBytes_isBytes (w : List Nat) : isBytes (wcharBytes w) := by
  induction w with
  | nil => exact isBytes_nil
  | cons u us ih =>
    simp only [wcharBytes]
    exact isBytes_cons.2 ⟨Nat.mod_lt _ (by decide), isBytes_cons.2 ⟨Nat.mod_lt _ (by decide), ih⟩⟩

theorem wcharsOfBytes_wcharBytes (w : List Nat) (hw : ∀ u ∈ w, u < 65536) :
    wcharsOfBytes (wcharBytes w) = w := by
  induction w with
  | nil => rfl
  | cons u us ih =>
    have hu : u < 65536 := hw u (List.mem_cons_self _ _)
    simp only [wcharBytes, wcharsOfBytes]
    rw [ih (fun v hv => hw v (List.mem_cons_of_mem _ hv))]
    congr 1
    omega

theorem normalizeSlashes_of_not_mem (p : List Nat) (h : 92 ∉ p) : normalizeSlashes p = p := by
  induction p with
  | nil => rfl
  | cons c cs ih =>
    simp only [List.mem_cons, not_or] at h
    simp only [normalizeSlashes, List.map_cons] at ih ⊢
    rw [ih h.2, if_neg (fun hc => h.1 hc.symm)]

theorem not_mem_normalizeSlashes (p : List Nat) : 92 ∉ normalizeSlashes p := by
  induction p with
  | nil => simp [normalizeSlashes]
  | cons c cs ih =>
    simp only [normalizeSlashes, List.map_cons, List.mem_cons, not_or] at ih ⊢
    refine ⟨?_, ih⟩
    split <;> omega

/-! ### Sequential reads -/

theorem readBytes_of_drop {buf m rest : List Nat} {cursor end_ len : Nat}
    (hd : buf.drop cursor = m ++ rest) (hlen : m.length = len) (hle : cursor + len ≤ end_) :
    readBytes buf cursor end_ len = some (m, cursor + len) := by
  unfold readBytes
  rw [if_neg (by omega), hd, ← hlen, List.take_left]

theorem drop_of_drop {buf m rest : List Nat} {cursor len : Nat}
    (hd : buf.drop cursor = m ++ rest) (hlen : m.length = len) :
    buf.drop (cursor + len) = rest := by
  rw [← List.drop_drop, hd, ← hlen, List.drop_left]

/-- The bytes `writeEntryRecord` appends, when the path length fits a `uint32_t`. -/
theorem writeEntryRecord_eq (X : Externals) (buf : List Nat) (e : DATArchiveEntry)
    (hlen : (X.to_wstring e.path).length < 2 ^ 32) :
    writeEntryRecord X buf e =
      buf ++ (le32Bytes (X.to_wstring e.path).length ++ (wcharBytes (X.to_wstring e.path) ++
        ([u8 e.compressionType] ++ (le32Bytes e.sizeFull ++ (le32Bytes e.sizeStored ++
        (le32Bytes e.offsetPos ++ ([e.keyBase] ++ ([e.keyStep] ++ le32Bytes e.crc32Value)))))))) := by
  unfold writeEntryRecord
  simp only [u32_of_lt hlen, SIZEOF_WCHAR]
  rw [List.take_of_length_le (by rw [wcharBytes_length])]
  simp only [List.append_assoc]

theorem writeEntryRecord_length (X : Externals) (buf : List Nat) (e : DATArchiveEntry)
    (hlen : (X.to_wstring e.path).length < 2 ^ 32) :
    (writeEntryRecord X buf e).length = buf.length + (4 + 2 * (X.to_wstring e.path).length + 19) := by
  rw [writeEntryRecord_eq X buf e hlen]
  simp only [List.length_append, le32Bytes_length, wcharBytes_length, List.length_singleton]
  omega

/-- Parsing what `writeEntryRecord` appended, when more bytes may follow. -/
theorem readEntryRecord_append (X : Externals) (pre post : List Nat) (e : DATArchiveEntry)
    (end_ : Nat)
    (hwf : e.wf) (hlen : (X.to_wstring e.path).length < 2 ^ 32)
    (hunits : ∀ u ∈ X.to_wstring e.path, u < 65536)
    (hend : (writeEntryRecord X pre e).length ≤ end_) :
    readEntryRecord X (writeEntryRecord X pre e ++ post) pre.length end_ true =
      some (⟨normalizeSlashes (X.to_string (X.to_wstring e.path)), e.compressionType, e.sizeFull,
        e.sizeStored, e.offsetPos, e.keyBase, e.keyStep, e.crc32Value⟩,
        (writeEntryRecord X pre e).length) := by
  obtain ⟨-, hct, hsf, hss, hop, hkb, hks, hcrc⟩ := hwf
  rw [writeEntryRecord_length X pre e hlen] at hend ⊢
  rw [writeEntryRecord_eq X pre e hlen]
  generalize hw : X.to_wstring e.path = w at *
  have h0 : ((pre ++ (le32Bytes w.length ++ (wcharBytes w ++
        ([u8 e.compressionType] ++ (le32Bytes e.sizeFull ++ (le32Bytes e.sizeStored ++
        (le32Bytes e.offsetPos ++ ([e.keyBase] ++ ([e.keyStep] ++ le32Bytes e.crc32Value)))))))))
        ++ post).drop pre.length =
      le32Bytes w.length ++ (wcharBytes w ++
        ([u8 e.compressionType] ++ (le32Bytes e.sizeFull ++ (le32Bytes e.sizeStored ++
        (le32Bytes e.offsetPos ++ ([e.keyBase] ++ ([e.keyStep] ++ (le32Bytes e.crc32Value ++ post)))))))) := by
    simp only [List.append_assoc]
    exact List.drop_left _ _
  generalize (pre ++ (le32Bytes w.length ++ (wcharBytes w ++
        ([u8 e.compressionType] ++ (le32Bytes e.sizeFull ++ (le32Bytes e.sizeStored ++
        (le32Bytes e.offsetPos ++ ([e.keyBase] ++ ([e.keyStep] ++ le32Bytes e.crc32Value)))))))))
        ++ post = buf at h0
  have h1 := drop_of_drop h0 (le32Bytes_length _)
  have h2 := drop_of_drop h1 (wcharBytes_length w)
  have h3 := drop_of_drop h2 (List.length_singleton _)
  have h4 := drop_of_drop h3 (le32Bytes_length _)
  have h5 := drop_of_drop h4 (le32Bytes_length _)
  have h6 := drop_of_drop h5 (le32Bytes_length _)
  have h7 := drop_of_drop h6 (List.length_singleton _)
  have h8 := drop_of_drop h7 (List.length_singleton _)
  unfold readEntryRecord
  rw [readBytes_of_drop h0 (le32Bytes_length _) (by omega)]
  simp only [le32Value_le32Bytes _ hlen, SIZEOF_WCHAR]
  rw [if_neg (by omega), readBytes_of_drop h1 (wcharBytes_length w) (by omega)]
  simp only []
  rw [readBytes_of_drop h2 (List.length_singleton _) (by omega)]
  simp only []
  rw [readBytes_of_drop h3 (le32Bytes_length _) (by omega)]
  simp only []
  rw [readBytes_of_drop h4 (le32Bytes_length _) (by omega)]
  simp only []
  rw [readBytes_of_drop h5 (le32Bytes_length _) (by omega)]
  simp only []
  rw [readBytes_of_drop h6 (List.length_singleton _) (by omega)]
  simp only []
  rw [readBytes_of_drop h7 (List.length_singleton _) (by omega)]
  simp only [if_true]
  rw [readBytes_of_drop h8 (le32Bytes_length _) (by omega)]
  simp only [le32Value_le32Bytes _ hsf, le32Value_le32Bytes _ hss, le32Value_le32Bytes _ hop,
    le32Value_le32Bytes _ hcrc, wcharsOfBytes_wcharBytes w hunits, List.getD_cons_zero,
    u8_of_lt hct, Option.some.injEq, Prod.mk.injEq, true_and]
  omega

/-! ### Claims on the entry-record codec -/

/-- C4 (amended): for every well-formed entry `e` whose path converts to fewer
than 2^32 UTF-16 code units and back to itself, `readEntryRecord` with
`hasCrc = true` applied to the bytes `writeEntryRecord` produced succeeds,
consumes exactly those bytes, and returns `e` with every backslash of the path
replaced by a slash; so it returns `e` itself when the path holds no backslash. -/
theorem readEntryRecord_writeEntryRecord (X : Externals) (pre : List Nat) (e : DATArchiveEntry)
    (hwf : e.wf) (hlen : (X.to_wstring e.path).length < 2 ^ 32)
    (hunits : ∀ u ∈ X.to_wstring e.path, u < 65536)
    (hrt : X.to_string (X.to_wstring e.path) = e.path) :
    readEntryRecord X (writeEntryRecord X pre e) pre.length
        (writeEntryRecord X pre e).length true =
      some (⟨normalizeSlashes e.path, e.compressionType, e.sizeFull, e.sizeStored, e.offsetPos,
        e.keyBase, e.keyStep, e.crc32Value⟩, (writeEntryRecord X pre e).length) ∧
    (92 ∉ e.path →
      readEntryRecord X (writeEntryRecord X pre e) pre.length
          (writeEntryRecord X pre e).length true =
        some (e, (writeEntryRecord X pre e).length)) := by
  have h := readEntryRecord_append X pre [] e (writeEntryRecord X pre e).length hwf hlen hunits
    (Nat.le_refl _)
  rw [List.append_nil, hrt] at h
  refine ⟨h, fun hns => ?_⟩
  rw [h, normalizeSlashes_of_not_mem _ hns]

theorem readEntryRecord_writeEntryRecord_witness :
    readEntryRecord reference.externals
        (writeEntryRecord reference.externals [1, 2] reference.emojiEntry) 2
        (writeEntryRecord reference.externals [1, 2] reference.emojiEntry).length true =
      some (⟨normalizeSlashes reference.emojiEntry.path, 1, 4096, 30, 24, 7, 9, 0xEBE6C6E6⟩,
        (writeEntryRecord reference.externals [1, 2] reference.emojiEntry).length) ∧
    readEntryRecord reference.externals
        (writeEntryRecord reference.externals [1, 2] reference.emojiEntry) 2
        (writeEntryRecord reference.externals [1, 2] reference.emojiEntry).length true =
      some (reference.emojiEntry,
        (writeEntryRecord reference.externals [1, 2] reference.emojiEntry).length) :=
  ⟨(readEntryRecord_writeEntryRecord reference.externals [1, 2] reference.emojiEntry
      (by decide) (by decide) (by decide) (by decide)).1,
   (readEntryRecord_writeEntryRecord reference.externals [1, 2] reference.emojiEntry
      (by decide) (by decide) (by decide) (by decide)).2 (by decide)⟩

/-- C4 as stated fails: the entry with the valid UTF-8 path `a\b` is serialised
and parsed back with the path `a/b`, so the parsed entry differs from it. -/
theorem readEntryRecord_writeEntryRecord_backslash :
    reference.backslashEntry.wf ∧
    reference.externals.to_string (reference.externals.to_wstring reference.backslashEntry.path)
      = reference.backslashEntry.path ∧
    (readEntryRecord reference.externals
        (writeEntryRecord reference.externals [] reference.backslashEntry) 0
        (writeEntryRecord reference.externals [] reference.backslashEntry).length true).map
      (fun r => r.1.path) = some [97, 47, 98] ∧
    readEntryRecord reference.externals
        (writeEntryRecord reference.externals [] reference.backslashEntry) 0
        (writeEntryRecord reference.externals [] reference.backslashEntry).length true ≠
      some (reference.backslashEntry,
        (writeEntryRecord reference.externals [] reference.backslashEntry).length) := by
  decide

/-- C10: with `n` the little-endian `uint32_t` at the cursor, `readEntryRecord`
succeeds exactly when `4 + 2n + 15 (+ 4 with hasCrc)` bytes remain before `end`
(so it fails when fewer than 4 remain); on success the cursor has advanced by
exactly that many bytes, and without `hasCrc` the returned `crc32Value` is 0. -/
theorem readEntryRecord_bounds (X : Externals) (buf : List Nat) (cursor end_ : Nat)
    (hasCrc : Bool) :
    ((readEntryRecord X buf cursor end_ hasCrc).isSome = true ↔
      cursor + (4 + 2 * le32Value ((buf.drop cursor).take 4) + 15 + (if hasCrc then 4 else 0))
        ≤ end_) ∧
    (end_ < cursor + 4 → readEntryRecord X buf cursor end_ hasCrc = none) ∧
    (∀ e c, readEntryRecord X buf cursor end_ hasCrc = some (e, c) →
      c = cursor + (4 + 2 * le32Value ((buf.drop cursor).take 4) + 15 +
        (if hasCrc then 4 else 0)) ∧
      (hasCrc = false → e.crc32Value = 0)) := by
  by_cases h : cursor + (4 + 2 * le32Value ((buf.drop cursor).take 4) + 15 +
      (if hasCrc then 4 else 0)) ≤ end_
  · have hs := readEntryRecord_eq_some X buf cursor end_ hasCrc h
    refine ⟨?_, ?_, ?_⟩
    · rw [hs]; simp [h]
    · intro h4; omega
    · intro e c hec
      rw [hs] at hec
      simp only [Option.some.injEq, Prod.mk.injEq] at hec
      refine ⟨hec.2.symm, fun hf => ?_⟩
      rw [← hec.1, hf]
      rfl
  · have hn := readEntryRecord_eq_none X buf cursor end_ hasCrc (by omega)
    refine ⟨?_, ?_, ?_⟩
    · rw [hn]; simp [h]
    · intro _; exact hn
    · intro e c hec
      rw [hn] at hec
      cases hec

theorem readEntryRecord_bounds_witness :
    (readEntryRecord reference.externals [0, 0, 0, 0, 1, 2, 0, 0, 0, 3, 0, 0, 0, 4, 0, 0, 0, 7, 9, 5]
      0 19 false).isSome = true ∧
    readEntryRecord reference.externals [0, 0, 0] 0 3 false = none ∧
    (19 = 0 + (4 + 2 * le32Value
        (([0, 0, 0, 0, 1, 2, 0, 0, 0, 3, 0, 0, 0, 4, 0, 0, 0, 7, 9, 5].drop 0).take 4) + 15 +
        (if false = true then 4 else 0)) ∧
      (⟨[], 1, 2, 3, 4, 7, 9, 0⟩ : DATArchiveEntry).crc32Value = 0) :=
  ⟨(readEntryRecord_bounds reference.externals
      [0, 0, 0, 0, 1, 2, 0, 0, 0, 3, 0, 0, 0, 4, 0, 0, 0, 7, 9, 5] 0 19 false).1.2 (by decide),
   (readEntryRecord_bounds reference.externals [0, 0, 0] 0 3 false).2.1 (by decide),
   ((readEntryRecord_bounds reference.externals
      [0, 0, 0, 0, 1, 2, 0, 0, 0, 3, 0, 0, 0, 4, 0, 0, 0, 7, 9, 5] 0 19 false).2.2
      ⟨[], 1, 2, 3, 4, 7, 9, 0⟩ 19 (by decide)).1,
   ((readEntryRecord_bounds reference.externals
      [0, 0, 0, 0, 1, 2, 0, 0, 0, 3, 0, 0, 0, 4, 0, 0, 0, 7, 9, 5] 0 19 false).2.2
      ⟨[], 1, 2, 3, 4, 7, 9, 0⟩ 19 (by decide)).2 rfl⟩

/-! ### Files -/

theorem fileRead_length_le (f : List Nat) (pos len : Nat) : (fileRead f pos len).length ≤ len := by
  unfold fileRead
  rw [List.length_take]
  exact Nat.min_le_left _ _

theorem fileRead_zero_len (f : List Nat) (pos : Nat) : fileRead f pos 0 = [] := by
  simp [fileRead]

theorem fileRead_isBytes {f : List Nat} (h : isBytes f) (pos len : Nat) :
    isBytes (fileRead f pos len) :=
  isBytes_take (isBytes_drop h pos) len

/-- Reading a block that sits between two others. -/
theorem fileRead_mid (p m s : List Nat) : fileRead (p ++ m ++ s) p.length m.length = m := by
  unfold fileRead
  rw [List.append_assoc, List.drop_left, List.take_left]

theorem fileRead_mid' (p m s : List Nat) (pos len : Nat) (hp : pos = p.length)
    (hl : len = m.length) : fileRead (p ++ m ++ s) pos len = m := by
  subst hp; subst hl; exact fileRead_mid p m s

/-- A chunked read followed by the read of the rest is the read of the whole. -/
theorem fileRead_split (f : List Nat) (pos n k : Nat) (hk : k ≤ n) :
    fileRead f pos k ++ fileRead f (pos + (fileRead f pos k).length) (n - (fileRead f pos k).length)
      = fileRead f pos n := by
  unfold fileRead
  rw [List.length_take, ← List.drop_drop]
  generalize List.drop pos f = g
  by_cases hg : k ≤ g.length
  · rw [Nat.min_eq_left hg]
    have : n = k + (n - k) := by omega
    conv_rhs => rw [this, List.take_add]
  · have hg' : g.length < k := by omega
    rw [Nat.min_eq_right (by omega), List.take_of_length_le (by omega),
      List.drop_length, List.take_nil, List.append_nil, List.take_of_length_le (by omega)]

theorem fileWrite_nil (f : List Nat) (pos : Nat) : fileWrite f pos [] = f := by
  simp [fileWrite]

theorem fileWrite_at_end (f b : List Nat) (pos : Nat) (hp : pos = f.length) :
    fileWrite f pos b = f ++ b := by
  subst hp
  unfold fileWrite
  split
  · next h => rw [h, List.append_nil]
  · rw [Nat.sub_self, List.replicate_zero, List.append_nil, List.take_length,
      List.drop_eq_nil_of_le (by omega), List.append_nil]

theorem take_pad_length (f : List Nat) (pos : Nat) :
    ((f ++ List.replicate (pos - f.length) 0).take pos).length = pos := by
  rw [List.length_take, List.length_append, List.length_replicate]
  omega

theorem fileWrite_length (f b : List Nat) (pos : Nat) (hb : b ≠ []) :
    (fileWrite f pos b).length = max f.length (pos + b.length) := by
  unfold fileWrite
  rw [if_neg hb, List.length_append, List.length_append, take_pad_length, List.length_drop]
  omega

/-- Two writes at consecutive positions are one write of the concatenation. -/
theorem fileWrite_fileWrite (f a b : List Nat) (pos : Nat) :
    fileWrite (fileWrite f pos a) (pos + a.length) b = fileWrite f pos (a ++ b) := by
  by_cases ha : a = []
  · subst ha; simp [fileWrite_nil]
  by_cases hb : b = []
  · subst hb; simp [fileWrite_nil]
  have hab : a ++ b ≠ [] := by simp [ha]
  have hlen := fileWrite_length f a pos ha
  have hg : fileWrite f pos a =
      List.take pos (f ++ List.replicate (pos - f.length) 0) ++ a ++ List.drop (pos + a.length) f := by
    unfold fileWrite; rw [if_neg ha]
  have outer : ∀ g : List Nat, fileWrite g (pos + a.length) b =
      List.take (pos + a.length) (g ++ List.replicate (pos + a.length - g.length) 0) ++ b
        ++ List.drop (pos + a.length + b.length) g := by
    intro g; unfold fileWrite; rw [if_neg hb]
  have h1 : pos + a.length - (fileWrite f pos a).length = 0 := by rw [hlen]; omega
  rw [outer, h1, List.replicate_zero, List.append_nil, hg]
  unfold fileWrite
  rw [if_neg hab]
  have hp := take_pad_length f pos
  generalize (f ++ List.replicate (pos - f.length) 0).take pos = P at hp ⊢
  have e1 : List.take (pos + a.length) (P ++ a ++ List.drop (pos + a.length) f) = P ++ a := by
    rw [List.take_append_eq_append_take, List.take_of_length_le (by simp [hp])]
    simp [hp]
  have e2 : List.drop (pos + a.length + b.length) (P ++ a ++ List.drop (pos + a.length) f)
      = List.drop (pos + (a ++ b).length) f := by
    rw [List.drop_append_eq_append_drop, List.drop_eq_nil_of_le (by simp [hp])]
    simp only [List.nil_append, List.length_append, hp, List.drop_drop]
    congr 1
    omega
  rw [e1, e2]
  simp only [List.append_assoc]

/-! ### The copy loop of `encryptArchive` -/

/-- Closed form of the copy loop: one write of the whole block, encrypted by one
`shiftBlock` call. -/
theorem encryptArchive_copy_eq (chunk : Nat) (hchunk : 0 < chunk) (src : List Nat) (step : Nat)
    (fuel pos remaining base : Nat) (dest : List Nat) (hfuel : remaining ≤ fuel) :
    encryptArchive_copy chunk src step fuel pos remaining base dest =
      (fileWrite dest pos
        (shiftBlock (fileRead src pos remaining) (fileRead src pos remaining).length base step).1,
       (shiftBlock (fileRead src pos remaining) (fileRead src pos remaining).length base step).2) := by
  induction fuel generalizing pos remaining base dest with
  | zero =>
    have : remaining = 0 := by omega
    subst this
    simp [encryptArchive_copy, fileRead_zero_len, shiftBlock, shiftBlock_loop, fileWrite_nil]
  | succ fuel ih =>
    unfold encryptArchive_copy
    by_cases hr : remaining > 0
    swap
    · have : remaining = 0 := by omega
      subst this
      simp [fileRead_zero_len, shiftBlock, shiftBlock_loop, fileWrite_nil]
    rw [if_pos hr]
    simp only []
    have hle := fileRead_length_le src pos (min remaining chunk)
    have hmin : min remaining chunk ≤ remaining := Nat.min_le_left _ _
    have hsplit := fileRead_split src pos remaining (min remaining chunk) hmin
    generalize hbuf : fileRead src pos (min remaining chunk) = buf at hle hsplit ⊢
    have hgot : (if buf.length > remaining then remaining else buf.length) = buf.length :=
      if_neg (by omega)
    rw [hgot, shiftBlock_eq, List.take_of_length_le (by rw [xorStream_length])]
    by_cases hg : buf.length = 0
    · rw [if_pos hg]
      have hb : buf = [] := List.length_eq_zero.mp hg
      subst hb
      have hwhole : fileRead src pos remaining = [] := by
        have hmpos : 0 < min remaining chunk := by
          rw [Nat.lt_min]; exact ⟨hr, hchunk⟩
        unfold fileRead at hbuf ⊢
        have hd : List.drop pos src = [] := by
          cases hd : List.drop pos src with
          | nil => rfl
          | cons x xs =>
            rw [hd] at hbuf
            obtain ⟨m, hm⟩ : ∃ m, min remaining chunk = m + 1 := ⟨min remaining chunk - 1, by omega⟩
            rw [hm] at hbuf
            simp at hbuf
        rw [hd, List.take_nil]
      rw [hwhole]
      simp [xorStream, shiftBlock, shiftBlock_loop]
    · rw [if_neg hg, ih _ _ _ _ (by omega)]
      have hw := fileWrite_fileWrite dest
        (xorStream (fun b => u8 (u32 (b * 0xBD + step))) buf base).1
        (shiftBlock (fileRead src (pos + buf.length) (remaining - buf.length))
          (fileRead src (pos + buf.length) (remaining - buf.length)).length
          (xorStream (fun b => u8 (u32 (b * 0xBD + step))) buf base).2 step).1 pos
      rw [xorStream_length] at hw
      rw [hw, ← hsplit, shiftBlock_eq, shiftBlock_eq, xorStream_append]

/-! ### The header -/

theorem headerBytes_length (h : DATArchiveHeader) (hm : h.magic.length = 8) :
    (headerBytes h).length = 24 := by
  simp only [headerBytes, List.length_append, List.length_take, le32Bytes_length, hm]
  rfl

theorem headerBytes_isBytes (h : DATArchiveHeader) (hm : isBytes h.magic) :
    isBytes (headerBytes h) := by
  unfold headerBytes
  exact isBytes_append.2 ⟨isBytes_append.2 ⟨isBytes_append.2 ⟨isBytes_append.2
    ⟨isBytes_take hm 8, le32Bytes_isBytes _⟩, le32Bytes_isBytes _⟩, le32Bytes_isBytes _⟩,
    le32Bytes_isBytes _⟩

theorem parseHeader_headerBytes (h : DATArchiveHeader) (hm : h.magic.length = 8)
    (hv : h.version < 2 ^ 32) (hc : h.entryCount < 2 ^ 32) (ho : h.headerOffset < 2 ^ 32)
    (hs : h.headerSize < 2 ^ 32) : parseHeader (headerBytes h) = h := by
  obtain ⟨magic, version, entryCount, headerOffset, headerSize⟩ := h
  simp only at hm hv hc ho hs
  have hb : headerBytes ⟨magic, version, entryCount, headerOffset, headerSize⟩ =
      magic ++ (le32Bytes version ++ (le32Bytes entryCount ++ (le32Bytes headerOffset ++
        (le32Bytes headerSize ++ [])))) := by
    simp only [headerBytes, List.take_of_length_le (Nat.le_of_eq hm), List.append_assoc,
      List.append_nil]
  rw [hb]
  generalize hB : magic ++ (le32Bytes version ++ (le32Bytes entryCount ++
    (le32Bytes headerOffset ++ (le32Bytes headerSize ++ [])))) = B
  have h0 : B.drop 0 = magic ++ (le32Bytes version ++ (le32Bytes entryCount ++
    (le32Bytes headerOffset ++ (le32Bytes headerSize ++ [])))) := by rw [← hB]; rfl
  have h1 := drop_of_drop h0 hm
  have h2 := drop_of_drop h1 (le32Bytes_length _)
  have h3 := drop_of_drop h2 (le32Bytes_length _)
  have h4 := drop_of_drop h3 (le32Bytes_length _)
  simp only [Nat.zero_add, Nat.reduceAdd] at h1 h2 h3 h4
  have t0 : B.take 8 = magic := by
    rw [← hB, ← hm, List.take_left]
  have t1 : (B.drop 8).take 4 = le32Bytes version := by
    rw [h1, ← le32Bytes_length version, List.take_left]
  have t2 : (B.drop 12).take 4 = le32Bytes entryCount := by
    rw [h2, ← le32Bytes_length entryCount, List.take_left]
  have t3 : (B.drop 16).take 4 = le32Bytes headerOffset := by
    rw [h3, ← le32Bytes_length headerOffset, List.take_left]
  have t4 : (B.drop 20).take 4 = le32Bytes headerSize := by
    rw [h4, ← le32Bytes_length headerSize, List.take_left]
  unfold parseHeader
  rw [t0, t1, t2, t3, t4, le32Value_le32Bytes _ hv, le32Value_le32Bytes _ hc,
    le32Value_le32Bytes _ ho, le32Value_le32Bytes _ hs]

theorem getKeyHashHeader_lt (key : List Nat) :
    (getKeyHashHeader key).1 < 256 ∧ (getKeyHashHeader key).2 < 256 :=
  ⟨u8_lt _, u8_lt _⟩

theorem getKeyHashFile_lt (path : List Nat) (hb hs : Nat) :
    (getKeyHashFile path hb hs).1 < 256 ∧ (getKeyHashFile path hb hs).2 < 256 :=
  ⟨u8_lt _, u8_lt _⟩

/-! ### `encryptArchive` on a staged file -/

theorem encryptBodies_join_length (off : Nat) (es : List DATArchiveEntry) (segs : List (List Nat))
    (h : Layout off es segs) : (encryptBodies es segs).flatten.length = segs.flatten.length := by
  induction es generalizing off segs with
  | nil =>
    cases segs with
    | nil => rfl
    | cons b bs => exact absurd h (by simp [Layout])
  | cons e es ih =>
    cases segs with
    | nil => exact absurd h (by simp [Layout])
    | cons b bs =>
      simp only [Layout] at h
      simp only [encryptBodies, List.flatten_cons, List.length_append, shiftBlock_length,
        ih _ _ h.2.2]

theorem encryptArchive_entries_layout (src : List Nat) (es : List DATArchiveEntry)
    (segs : List (List Nat)) (dest pre post : List Nat)
    (hlay : Layout dest.length es segs) (hsrc : src = pre ++ segs.flatten ++ post)
    (hpre : pre.length = dest.length) :
    encryptArchive_entries src es dest = dest ++ (encryptBodies es segs).flatten := by
  induction es generalizing segs dest pre with
  | nil =>
    cases segs with
    | nil => simp [encryptArchive_entries, encryptBodies]
    | cons b bs => exact absurd hlay (by simp [Layout])
  | cons e es ih =>
    cases segs with
    | nil => exact absurd hlay (by simp [Layout])
    | cons b bs =>
      simp only [Layout] at hlay
      obtain ⟨hoff, hsz, hrest⟩ := hlay
      have hread : fileRead src e.offsetPos e.sizeStored = b := by
        rw [hsrc, List.flatten_cons]
        have : pre ++ (b ++ bs.flatten) ++ post = pre ++ b ++ (bs.flatten ++ post) := by
          simp only [List.append_assoc]
        rw [this]
        exact fileRead_mid' pre b _ _ _ (by omega) hsz
      unfold encryptArchive_entries
      rw [encryptArchive_copy_eq CHUNK (by decide) src e.keyStep e.sizeStored e.offsetPos
        e.sizeStored e.keyBase dest (Nat.le_refl _), hread]
      simp only []
      rw [fileWrite_at_end _ _ _ hoff]
      rw [ih bs (dest ++ (shiftBlock b b.length e.keyBase e.keyStep).1) (pre ++ b)
        (by rw [List.length_append, shiftBlock_length]; exact hrest)
        (by rw [hsrc, List.flatten_cons]; simp only [List.append_assoc])
        (by rw [List.length_append, List.length_append, shiftBlock_length, hpre])]
      simp only [encryptBodies, List.flatten_cons, List.append_assoc]

/-- The output of `encryptArchive` on a staged file: encrypted header, then the
encrypted bodies, then the directory block under the continued header stream. -/
theorem encryptArchive_layout (hdr : List Nat) (hhdr : hdr.length = 24)
    (segs : List (List Nat)) (D : List Nat) (header : DATArchiveHeader) (kb ks : Nat)
    (entries : List DATArchiveEntry) (hlay : Layout 24 entries segs)
    (hoff : header.headerOffset = 24 + segs.flatten.length)
    (hsize : header.headerSize = D.length) :
    encryptArchive (hdr ++ segs.flatten ++ D) header kb ks entries =
      (shiftBlock hdr 24 kb ks).1 ++ (encryptBodies entries segs).flatten ++
        (shiftBlock D D.length (shiftBlock hdr 24 kb ks).2 ks).1 := by
  have hl : (shiftBlock hdr 24 kb ks).1.length = 24 := by
    rw [← hhdr]; exact shiftBlock_length hdr kb ks
  have hread : fileRead (hdr ++ segs.flatten ++ D) 0 SIZEOF_HEADER = hdr := by
    have := fileRead_mid' [] hdr (segs.flatten ++ D) 0 SIZEOF_HEADER rfl (by rw [hhdr]; rfl)
    simpa only [List.nil_append, List.append_assoc] using this
  unfold encryptArchive
  simp only []
  rw [hread, hhdr]
  have hz : SIZEOF_HEADER - 24 = 0 := rfl
  rw [hz, List.replicate_zero, List.append_nil]
  have hS : SIZEOF_HEADER = 24 := rfl
  rw [hS, List.take_of_length_le (Nat.le_of_eq hl), fileWrite_at_end [] _ 0 rfl, List.nil_append]
  rw [encryptArchive_entries_layout (hdr ++ segs.flatten ++ D) entries segs
    (shiftBlock hdr 24 kb ks).1 hdr D (by rw [hl]; exact hlay) rfl (by rw [hl, hhdr])]
  rw [encryptArchive_copy_eq CHUNK (by decide) _ ks header.headerSize header.headerOffset
    header.headerSize _ _ (Nat.le_refl _)]
  simp only []
  have hreadD : fileRead (hdr ++ segs.flatten ++ D) header.headerOffset header.headerSize = D := by
    have := fileRead_mid' (hdr ++ segs.flatten) D [] header.headerOffset header.headerSize
      (by rw [List.length_append, hhdr, hoff]) hsize
    simpa only [List.append_nil] using this
  rw [hreadD, fileWrite_at_end _ _ _ (by
    rw [List.length_append, hl, encryptBodies_join_length 24 entries segs hlay, hoff])]

/-! ### Claims on the key stream across calls and across the header and directory -/

/-- C9: `shiftBlock` over `a ++ b` from `base` gives the bytes and the final base
of `shiftBlock` over `a` from `base` followed by `shiftBlock` over `b` from the
base the first call handed back; hence the chunked copy loop of
`encryptArchive`, for any chunk size, writes exactly the bytes of one
`shiftBlock` call over the whole block and ends on the same base. -/
theorem shiftBlock_append_chunked (a b : List Nat) (base step : Nat)
    (chunk : Nat) (src dest : List Nat) (fuel pos remaining : Nat)
    (hchunk : 0 < chunk) (hfuel : remaining ≤ fuel) :
    shiftBlock (a ++ b) (a ++ b).length base step =
      ((shiftBlock a a.length base step).1 ++
          (shiftBlock b b.length (shiftBlock a a.length base step).2 step).1,
        (shiftBlock b b.length (shiftBlock a a.length base step).2 step).2) ∧
    encryptArchive_copy chunk src step fuel pos remaining base dest =
      (fileWrite dest pos
        (shiftBlock (fileRead src pos remaining) (fileRead src pos remaining).length base step).1,
       (shiftBlock (fileRead src pos remaining) (fileRead src pos remaining).length base step).2) ∧
    encryptArchive_copy CHUNK src step remaining pos remaining base dest =
      encryptArchive_copy chunk src step fuel pos remaining base dest := by
  refine ⟨?_, encryptArchive_copy_eq chunk hchunk src step fuel pos remaining base dest hfuel, ?_⟩
  · rw [shiftBlock_eq, shiftBlock_eq, shiftBlock_eq, xorStream_append]
  · rw [encryptArchive_copy_eq chunk hchunk src step fuel pos remaining base dest hfuel,
      encryptArchive_copy_eq CHUNK (by decide) src step remaining pos remaining base dest
        (Nat.le_refl _)]

theorem shiftBlock_append_chunked_witness :
    shiftBlock ([1, 2] ++ [3, 4, 5]) ([1, 2] ++ [3, 4, 5]).length 7 9 =
      ((shiftBlock [1, 2] [1, 2].length 7 9).1 ++
          (shiftBlock [3, 4, 5] [3, 4, 5].length (shiftBlock [1, 2] [1, 2].length 7 9).2 9).1,
        (shiftBlock [3, 4, 5] [3, 4, 5].length (shiftBlock [1, 2] [1, 2].length 7 9).2 9).2) ∧
    encryptArchive_copy 2 [0, 0, 1, 2, 3, 4, 5, 6] 9 5 2 5 7 [8, 8] =
      (fileWrite [8, 8] 2
        (shiftBlock (fileRead [0, 0, 1, 2, 3, 4, 5, 6] 2 5)
          (fileRead [0, 0, 1, 2, 3, 4, 5, 6] 2 5).length 7 9).1,
       (shiftBlock (fileRead [0, 0, 1, 2, 3, 4, 5, 6] 2 5)
          (fileRead [0, 0, 1, 2, 3, 4, 5, 6] 2 5).length 7 9).2) ∧
    encryptArchive_copy CHUNK [0, 0, 1, 2, 3, 4, 5, 6] 9 5 2 5 7 [8, 8] =
      encryptArchive_copy 2 [0, 0, 1, 2, 3, 4, 5, 6] 9 5 2 5 7 [8, 8] :=
  shiftBlock_append_chunked [1, 2] [3, 4, 5] 7 9 2 [0, 0, 1, 2, 3, 4, 5, 6] [8, 8] 5 2 5
    (by decide) (by decide)

/-- The base after 24 bytes of key stream. -/
theorem shiftBlock_header_base (hdr : List Nat) (hlen : hdr.length = 24) (kb ks : Nat) :
    (shiftBlock hdr 24 kb ks).2 = keyStream kb ks 24 := by
  have := shiftBlock_eq hdr kb ks
  rw [hlen] at this
  rw [this, xorStream_snd, hlen, keyStream_eq_iterate]

/-- The trial decryption of `open` on a v2-encrypted header. -/
theorem openArchive_trial_encrypted (X : Externals) (header : DATArchiveHeader)
    (hmagic : header.magic = HEADER_MAGIC)
    (hv : header.version < 2 ^ 32) (hc : header.entryCount < 2 ^ 32)
    (ho : header.headerOffset < 2 ^ 32) (hs : header.headerSize < 2 ^ 32) :
    (shiftBlock (shiftBlock (headerBytes header) 24 (getKeyHashHeader ENCRYPTION_KEY).1
        (getKeyHashHeader ENCRYPTION_KEY).2).1 24 (getKeyHashHeader ENCRYPTION_KEY).1
        (getKeyHashHeader ENCRYPTION_KEY).2).1 = headerBytes header ∧
    openArchive_trial X (shiftBlock (headerBytes header) 24 (getKeyHashHeader ENCRYPTION_KEY).1
        (getKeyHashHeader ENCRYPTION_KEY).2).1 =
      some (false,
        keyStream (getKeyHashHeader ENCRYPTION_KEY).1 (getKeyHashHeader ENCRYPTION_KEY).2 24,
        (getKeyHashHeader ENCRYPTION_KEY).2, header) := by
  have hm8 : header.magic.length = 8 := by rw [hmagic]; rfl
  have hlenH := headerBytes_length header hm8
  have hbytesH : isBytes (headerBytes header) :=
    headerBytes_isBytes header (by rw [hmagic]; decide)
  have hkb := (getKeyHashHeader_lt ENCRYPTION_KEY).1
  have hencLen : (shiftBlock (headerBytes header) 24 (getKeyHashHeader ENCRYPTION_KEY).1
      (getKeyHashHeader ENCRYPTION_KEY).2).1.length = 24 := by
    rw [← hlenH]; exact shiftBlock_length _ _ _
  have hinv : (shiftBlock (shiftBlock (headerBytes header) 24 (getKeyHashHeader ENCRYPTION_KEY).1
      (getKeyHashHeader ENCRYPTION_KEY).2).1 24 (getKeyHashHeader ENCRYPTION_KEY).1
      (getKeyHashHeader ENCRYPTION_KEY).2).1 = headerBytes header := by
    have := shiftBlock_twice (headerBytes header) (getKeyHashHeader ENCRYPTION_KEY).1
      (getKeyHashHeader ENCRYPTION_KEY).2 hbytesH hkb
    rw [hlenH] at this
    exact this
  refine ⟨hinv, ?_⟩
  have hS : SIZEOF_HEADER = 24 := rfl
  unfold openArchive_trial
  simp only [hS, hinv, shiftBlock_header_base _ hencLen]
  rw [parseHeader_headerBytes header hm8 hv hc ho hs, if_pos hmagic]

/-- The directory block encrypted from the base retained after the header
decrypts, from the same base, to itself. -/
theorem openArchive_decryptMeta_encrypted (D : List Nat) (hD : isBytes D) (kb ks : Nat)
    (hkb : kb < 256) :
    (openArchive_decryptMeta false (shiftBlock D D.length (keyStream kb ks 24) ks).1
      (keyStream kb ks 24) ks).1 = D := by
  unfold openArchive_decryptMeta
  simp only [Bool.false_eq_true, if_false]
  rw [shiftBlock_length]
  exact shiftBlock_twice D (keyStream kb ks 24) ks hD (keyStream_lt kb ks 24 hkb)

/-- Reading the header and the directory block back from the output file. -/
theorem fileRead_archive (H B E : List Nat) (off size : Nat) (hH : H.length = 24)
    (hoff : off = 24 + B.length) (hsize : size = E.length) :
    fileRead (H ++ B ++ E) 0 SIZEOF_HEADER = H ∧ fileRead (H ++ B ++ E) off size = E := by
  constructor
  · have := fileRead_mid' [] H (B ++ E) 0 SIZEOF_HEADER rfl (by rw [hH]; rfl)
    simpa only [List.nil_append, List.append_assoc] using this
  · have := fileRead_mid' (H ++ B) E [] off size (by rw [List.length_append, hH, hoff]) hsize
    simpa only [List.append_nil] using this

/-- For a staged file made of a header with the magic, entry bodies laid out
back to back and a directory block `D`: on the first 24 bytes of what
`encryptArchive` emits the trial decryption matches on the v2 cipher, the v2
decryption of these bytes is the plaintext header, the base it hands back is
the key stream advanced by 24 bytes, and from that base the directory block
decrypts to `D`. -/
theorem openArchive_trial_staged (X : Externals) (header : DATArchiveHeader)
    (entries : List DATArchiveEntry) (segs : List (List Nat)) (D : List Nat)
    (hmagic : header.magic = HEADER_MAGIC)
    (hv : header.version < 2 ^ 32) (hc : header.entryCount < 2 ^ 32)
    (hoff : header.headerOffset = 24 + segs.flatten.length) (ho : header.headerOffset < 2 ^ 32)
    (hsize : header.headerSize = D.length) (hs : header.headerSize < 2 ^ 32)
    (hlay : Layout 24 entries segs) (hD : isBytes D) :
    openArchive_trial X (fileRead (encryptArchive (headerBytes header ++ segs.flatten ++ D) header
        (getKeyHashHeader ENCRYPTION_KEY).1 (getKeyHashHeader ENCRYPTION_KEY).2 entries)
        0 SIZEOF_HEADER) =
      some (false,
        keyStream (getKeyHashHeader ENCRYPTION_KEY).1 (getKeyHashHeader ENCRYPTION_KEY).2 24,
        (getKeyHashHeader ENCRYPTION_KEY).2, header) ∧
    (shiftBlock (fileRead (encryptArchive (headerBytes header ++ segs.flatten ++ D) header
        (getKeyHashHeader ENCRYPTION_KEY).1 (getKeyHashHeader ENCRYPTION_KEY).2 entries)
        0 SIZEOF_HEADER) SIZEOF_HEADER
        (getKeyHashHeader ENCRYPTION_KEY).1 (getKeyHashHeader ENCRYPTION_KEY).2).1
      = headerBytes header ∧
    (openArchive_decryptMeta false
        (fileRead (encryptArchive (headerBytes header ++ segs.flatten ++ D) header
          (getKeyHashHeader ENCRYPTION_KEY).1 (getKeyHashHeader ENCRYPTION_KEY).2 entries)
          header.headerOffset header.headerSize)
        (keyStream (getKeyHashHeader ENCRYPTION_KEY).1 (getKeyHashHeader ENCRYPTION_KEY).2 24)
        (getKeyHashHeader ENCRYPTION_KEY).2).1 = D := by
  have hm8 : header.magic.length = 8 := by rw [hmagic]; rfl
  have hlenH := headerBytes_length header hm8
  have hencLen : (shiftBlock (headerBytes header) 24 (getKeyHashHeader ENCRYPTION_KEY).1
      (getKeyHashHeader ENCRYPTION_KEY).2).1.length = 24 := by
    rw [← hlenH]; exact shiftBlock_length _ _ _
  rw [encryptArchive_layout (headerBytes header) hlenH segs D header _ _ entries hlay hoff hsize]
  obtain ⟨hrH, hrD⟩ := fileRead_archive
    (shiftBlock (headerBytes header) 24 (getKeyHashHeader ENCRYPTION_KEY).1
      (getKeyHashHeader ENCRYPTION_KEY).2).1
    (encryptBodies entries segs).flatten
    (shiftBlock D D.length (shiftBlock (headerBytes header) 24
      (getKeyHashHeader ENCRYPTION_KEY).1 (getKeyHashHeader ENCRYPTION_KEY).2).2
      (getKeyHashHeader ENCRYPTION_KEY).2).1
    header.headerOffset header.headerSize hencLen
    (by rw [encryptBodies_join_length 24 entries segs hlay, hoff])
    (by rw [shiftBlock_length, hsize])
  obtain ⟨hinv, htrial⟩ := openArchive_trial_encrypted X header hmagic hv hc ho hs
  rw [hrH, hrD, shiftBlock_header_base _ hlenH]
  exact ⟨htrial, hinv, openArchive_decryptMeta_encrypted D hD _ _
    (getKeyHashHeader_lt ENCRYPTION_KEY).1⟩

/-! ### The writer's staging -/

theorem fileRead_all (f : List Nat) : fileRead f 0 f.length = f := by
  simp [fileRead]

/-- A write over a block that sits between two others. -/
theorem fileWrite_mid (p m s b : List Nat) (pos : Nat) (hp : pos = p.length)
    (hb : b.length = m.length) (hne : b ≠ []) :
    fileWrite (p ++ m ++ s) pos b = p ++ b ++ s := by
  subst hp
  unfold fileWrite
  rw [if_neg hne]
  have h0 : p.length - (p ++ m ++ s).length = 0 := by
    simp only [List.length_append]; omega
  have e1 : List.take p.length (p ++ m ++ s) = p := by
    rw [List.append_assoc, List.take_left]
  have e2 : List.drop (p.length + b.length) (p ++ m ++ s) = s := by
    rw [hb, ← List.length_append, List.drop_left]
  rw [h0, List.replicate_zero, List.append_nil, e1, e2]

/-- The outcome of the compression step when the sizes fit a `uint32_t`. -/
theorem create_compress_spec (X : Externals) (content : List Nat)
    (hz : ∀ z, X.compress2 content = some z → z.length < 2 ^ 32) :
    ∃ ct seg, create_compress X content content.length = (ct, seg.length, seg) ∧
      ((ct = CT_NONE ∧ seg = content) ∨ (ct = CT_ZLIB ∧ X.compress2 content = some seg)) := by
  unfold create_compress
  by_cases h : content.length ≥ 0x100
  · rw [if_pos h, List.take_length]
    unfold zlibDeflate
    cases hc : X.compress2 content with
    | none => exact ⟨CT_NONE, content, by simp, Or.inl ⟨rfl, rfl⟩⟩
    | some z =>
      refine ⟨CT_ZLIB, z, ?_, Or.inr ⟨rfl, rfl⟩⟩
      simp [u32_of_lt (hz z hc)]
  · rw [if_neg h]
    exact ⟨CT_NONE, content, rfl, Or.inl ⟨rfl, rfl⟩⟩

theorem create_files_length_le (X : Externals) (fs : List Nat → Option (List Nat))
    (base : List Nat) (kb ks : Nat) (files : List (List Nat)) (tmp : List Nat)
    (entries : List DATArchiveEntry) (tmp' : List Nat) (entries' : List DATArchiveEntry)
    (h : create_files X fs base kb ks files tmp entries = some (tmp', entries')) :
    tmp.length ≤ tmp'.length := by
  induction files generalizing tmp entries with
  | nil =>
    simp only [create_files, Option.some.injEq, Prod.mk.injEq] at h
    rw [h.1]
  | cons f rest ih =>
    unfold create_files at h
    cases hfs : fs (base ++ f) with
    | none => rw [hfs] at h; cases h
    | some input =>
      rw [hfs] at h
      simp only [] at h
      have := ih _ _ h
      refine Nat.le_trans ?_ this
      split
      · exact Nat.le_refl _
      · rw [List.length_append]; omega

/-- The per-file loop of `create` appends the stored bodies back to back and one
entry per file, each describing its input file. -/
theorem create_files_spec (X : Externals) (fs : List Nat → Option (List Nat))
    (base : List Nat) (kb ks : Nat) (files : List (List Nat)) (tmp : List Nat)
    (entries : List DATArchiveEntry) (tmp' : List Nat) (entries' : List DATArchiveEntry)
    (h : create_files X fs base kb ks files tmp entries = some (tmp', entries'))
    (hlen : tmp'.length < 2 ^ 32) (hin : InputsFit X fs base files) :
    ∃ new segs, entries' = entries ++ new ∧ tmp' = tmp ++ segs.flatten ∧
      new.map (fun e => e.path) = files ∧ Layout tmp.length new segs ∧
      List.Forall₂ (Stored X fs base) new segs := by
  induction files generalizing tmp entries with
  | nil =>
    simp only [create_files, Option.some.injEq, Prod.mk.injEq] at h
    exact ⟨[], [], by simp [h.2], by simp [h.1], rfl, trivial, List.Forall₂.nil⟩
  | cons f rest ih =>
    have hle := create_files_length_le X fs base kb ks _ _ _ _ _ h
    unfold create_files at h
    cases hfs : fs (base ++ f) with
    | none => rw [hfs] at h; cases h
    | some input =>
      rw [hfs] at h
      simp only [] at h
      obtain ⟨hil, hiz⟩ := hin f (List.mem_cons_self _ _) input hfs
      rw [u32_of_lt hil, fileRead_all] at h
      obtain ⟨ct, seg, hcomp, hct⟩ := create_compress_spec X input hiz
      rw [hcomp] at h
      simp only [] at h
      have htmp : (if seg = [] then tmp else tmp ++ List.take seg.length seg) = tmp ++ seg := by
        split
        · next hs => rw [hs, List.append_nil]
        · rw [List.take_length]
      rw [htmp] at h
      obtain ⟨new, segs, hent, htmp', hmap, hlay, hst⟩ :=
        ih _ _ h (fun g hg => hin g (List.mem_cons_of_mem _ hg))
      have htl : tmp.length + seg.length ≤ tmp'.length := by
        rw [htmp']; simp only [List.length_append]; omega
      refine ⟨⟨f, ct, input.length, seg.length, u32 tmp.length, (getKeyHashFile f kb ks).1,
        (getKeyHashFile f kb ks).2, u32 (X.crc32 input)⟩ :: new, seg :: segs, ?_, ?_, ?_, ?_, ?_⟩
      · rw [hent]; simp only [List.append_assoc, List.singleton_append]
      · rw [htmp']; simp only [List.flatten_cons, List.append_assoc]
      · simp only [List.map_cons, hmap]
      · refine ⟨u32_of_lt (by omega), rfl, ?_⟩
        rw [List.length_append] at hlay
        exact hlay
      · refine List.Forall₂.cons ?_ hst
        refine ⟨input, hfs, rfl, rfl, by simp only; omega, hil, u32_lt _,
          (getKeyHashFile_lt f kb ks).1, (getKeyHashFile_lt f kb ks).2, u32_lt _, hct⟩

theorem writeEntryRecord_append_left (X : Externals) (buf : List Nat) (e : DATArchiveEntry) :
    writeEntryRecord X buf e = buf ++ writeEntryRecord X [] e := by
  unfold writeEntryRecord
  simp only [List.append_assoc, List.nil_append]

theorem create_meta_eq (X : Externals) (es : List DATArchiveEntry) (buf : List Nat) :
    create_meta X es buf = buf ++ metaBytes X es := by
  induction es generalizing buf with
  | nil => simp [create_meta, metaBytes]
  | cons e es ih =>
    rw [create_meta, ih, metaBytes, writeEntryRecord_append_left X (buf ++ _),
      writeEntryRecord_append_left X (le32Bytes _)]
    simp only [List.append_assoc]

theorem le32Bytes_ne_nil (x : Nat) : le32Bytes x ≠ [] := by
  simp [le32Bytes]

/-- Patching `headerOffset` and `headerSize` into the staged header. -/
theorem fileWrite_patch (magic : List Nat) (hm : magic.length = 8) (v c ho hs : Nat)
    (rest : List Nat) :
    fileWrite (fileWrite (headerBytes ⟨magic, v, c, 0, 0⟩ ++ rest) 16 (le32Bytes ho)) 20
        (le32Bytes hs) =
      headerBytes ⟨magic, v, c, ho, hs⟩ ++ rest := by
  have hP : (magic ++ le32Bytes v ++ le32Bytes c).length = 16 := by
    simp only [List.length_append, le32Bytes_length, hm]
  have e0 : headerBytes ⟨magic, v, c, 0, 0⟩ ++ rest =
      (magic ++ le32Bytes v ++ le32Bytes c) ++ le32Bytes 0 ++ (le32Bytes 0 ++ rest) := by
    simp only [headerBytes, List.take_of_length_le (Nat.le_of_eq hm), List.append_assoc]
  rw [e0, fileWrite_mid (magic ++ le32Bytes v ++ le32Bytes c) (le32Bytes 0) (le32Bytes 0 ++ rest)
    (le32Bytes ho) 16 hP.symm rfl (le32Bytes_ne_nil _)]
  have e1 : (magic ++ le32Bytes v ++ le32Bytes c) ++ le32Bytes ho ++ (le32Bytes 0 ++ rest) =
      (magic ++ le32Bytes v ++ le32Bytes c ++ le32Bytes ho) ++ le32Bytes 0 ++ rest := by
    simp only [List.append_assoc]
  rw [e1, fileWrite_mid (magic ++ le32Bytes v ++ le32Bytes c ++ le32Bytes ho) (le32Bytes 0) rest
    (le32Bytes hs) 20 (by simp only [List.length_append, le32Bytes_length, hm])
    rfl (le32Bytes_ne_nil _)]
  simp only [headerBytes, List.take_of_length_le (Nat.le_of_eq hm), List.append_assoc]

/-- What `create` has staged when it calls `encryptArchive`. -/
theorem create_stage_spec (X : Externals) (fs : List Nat → Option (List Nat))
    (m_files : List (List Nat)) (baseDir : List Nat) (tmp : List Nat)
    (header : DATArchiveHeader) (entries : List DATArchiveEntry)
    (h : create_stage X fs m_files baseDir = some (tmp, header, entries))
    (hlen : tmp.length < 2 ^ 32) (hcount : m_files.length < 2 ^ 32)
    (hin : InputsFit X fs (create_base baseDir) m_files) :
    ∃ segs cm,
      header = ⟨HEADER_MAGIC, VERSION_CURRENT, m_files.length, 24 + segs.flatten.length,
        cm.length⟩ ∧
      tmp = headerBytes header ++ segs.flatten ++ cm ∧
      X.compress2 (metaBytes X entries) = some cm ∧
      entries.map (fun e => e.path) = m_files ∧ Layout 24 entries segs ∧
      List.Forall₂ (Stored X fs (create_base baseDir)) entries segs := by
  unfold create_stage at h
  simp only [] at h
  rw [u32_of_lt hcount] at h
  cases hcf : create_files X fs (create_base baseDir) (getKeyHashHeader ENCRYPTION_KEY).1
      (getKeyHashHeader ENCRYPTION_KEY).2 m_files
      (headerBytes ⟨HEADER_MAGIC, VERSION_CURRENT, m_files.length, 0, 0⟩) [] with
  | none => rw [hcf] at h; cases h
  | some r =>
    obtain ⟨tmp1, entries1⟩ := r
    rw [hcf] at h
    simp only [] at h
    unfold zlibDeflate at h
    rw [create_meta_eq, List.nil_append] at h
    cases hc : X.compress2 (metaBytes X entries1) with
    | none => rw [hc] at h; simp at h
    | some cm =>
      rw [hc] at h
      simp only [not_true_eq_false, if_false, Option.some.injEq, Prod.mk.injEq] at h
      obtain ⟨htmp, hheader, hentries⟩ := h
      subst hentries
      have hH0 : (headerBytes ⟨HEADER_MAGIC, VERSION_CURRENT, m_files.length, 0, 0⟩).length
          = 24 := headerBytes_length _ rfl
      have hle := create_files_length_le X fs _ _ _ _ _ _ _ _ hcf
      rw [hH0] at hle
      have hl1 : (fileWrite (tmp1 ++ cm) 16 (le32Bytes (u32 tmp1.length))).length
          = (tmp1 ++ cm).length := by
        rw [fileWrite_length _ _ _ (le32Bytes_ne_nil _), le32Bytes_length, List.length_append]
        omega
      have hl2 : tmp.length = (tmp1 ++ cm).length := by
        rw [← htmp, fileWrite_length _ _ _ (le32Bytes_ne_nil _), le32Bytes_length, hl1,
          List.length_append]
        omega
      rw [List.length_append] at hl2
      obtain ⟨new, segs, hent, htmp1, hmap, hlay, hst⟩ :=
        create_files_spec X fs _ _ _ _ _ _ _ _ hcf (by omega) hin
      rw [List.nil_append] at hent
      subst hent
      rw [hH0] at hlay
      have hl3 : tmp1.length = 24 + segs.flatten.length := by
        rw [htmp1, List.length_append, hH0]
      have ht1 : u32 tmp1.length = 24 + segs.flatten.length := by
        rw [u32_of_lt (by omega), hl3]
      have hcm : u32 cm.length = cm.length := u32_of_lt (by omega)
      rw [ht1, hcm] at hheader htmp
      refine ⟨segs, cm, hheader.symm, ?_, hc, hmap, hlay, hst⟩
      rw [← htmp, htmp1, ← hheader, List.append_assoc, fileWrite_patch HEADER_MAGIC rfl,
        List.append_assoc]

/-! ### The index built by `open` -/

theorem mem_keys_iff_find (m : List (List Nat × DATArchiveEntry)) (k : List Nat) :
    (m.find? (fun kv => kv.1 = k)).isSome = true ↔ k ∈ m.map Prod.fst := by
  rw [List.find?_isSome]
  simp only [decide_eq_true_eq, List.mem_map]

theorem mapEmplace_keys (m : List (List Nat × DATArchiveEntry)) (k : List Nat)
    (v : DATArchiveEntry) (p : List Nat) :
    p ∈ (mapEmplace m k v).map Prod.fst ↔ p ∈ m.map Prod.fst ∨ p = k := by
  unfold mapEmplace
  split
  · next h =>
    rw [mem_keys_iff_find] at h
    constructor
    · exact Or.inl
    · rintro (h1 | h1)
      · exact h1
      · rw [h1]; exact h
  · simp only [List.map_append, List.map_cons, List.map_nil, List.mem_append,
      List.mem_singleton]

theorem mapFind_mapEmplace (m : List (List Nat × DATArchiveEntry)) (k : List Nat)
    (v e : DATArchiveEntry) (p : List Nat) (h : mapFind (mapEmplace m k v) p = some e) :
    mapFind m p = some e ∨ (k = p ∧ v = e) := by
  unfold mapEmplace at h
  split at h
  · exact Or.inl h
  · unfold mapFind at h ⊢
    rw [List.find?_append] at h
    cases hf : m.find? (fun kv => kv.1 = p) with
    | some x =>
      rw [hf] at h
      exact Or.inl h
    | none =>
      rw [hf] at h
      simp only [Option.none_or, List.find?_cons, List.find?_nil] at h
      by_cases hk : k = p
      · simp only [hk, decide_True, Option.map_some', Option.some.injEq] at h
        exact Or.inr ⟨hk, h⟩
      · simp only [hk, decide_False, Option.map_none'] at h
        cases h

theorem foldl_mapEmplace_keys (es : List DATArchiveEntry)
    (m : List (List Nat × DATArchiveEntry)) (p : List Nat) :
    p ∈ (es.foldl (fun m e => mapEmplace m e.path e) m).map Prod.fst ↔
      p ∈ m.map Prod.fst ∨ p ∈ es.map (fun e => e.path) := by
  induction es generalizing m with
  | nil => simp
  | cons e es ih =>
    rw [List.foldl_cons, ih, mapEmplace_keys]
    simp only [List.map_cons, List.mem_cons]
    tauto

theorem mapFind_foldl_mapEmplace (es : List DATArchiveEntry)
    (m : List (List Nat × DATArchiveEntry)) (p : List Nat) (e : DATArchiveEntry)
    (h : mapFind (es.foldl (fun m e => mapEmplace m e.path e) m) p = some e) :
    mapFind m p = some e ∨ (e ∈ es ∧ e.path = p) := by
  induction es generalizing m with
  | nil => exact Or.inl h
  | cons x xs ih =>
    rw [List.foldl_cons] at h
    rcases ih _ h with h1 | ⟨h1, h2⟩
    · rcases mapFind_mapEmplace _ _ _ _ _ h1 with h3 | ⟨h3, h4⟩
      · exact Or.inl h3
      · exact Or.inr ⟨by rw [← h4]; exact List.mem_cons_self _ _, by rw [← h4]; exact h3⟩
    · exact Or.inr ⟨List.mem_cons_of_mem _ h1, h2⟩

theorem mapFind_isSome_of_mem_keys (m : List (List Nat × DATArchiveEntry)) (p : List Nat)
    (h : p ∈ m.map Prod.fst) : ∃ e, mapFind m p = some e := by
  have := (mem_keys_iff_find m p).2 h
  unfold mapFind
  cases hf : m.find? (fun kv => kv.1 = p) with
  | none => rw [hf] at this; cases this
  | some x => exact ⟨x.2, rfl⟩

/-- The record loop of `open` on the directory the writer serialised: every
record parses back to its entry and is indexed, without a warning. -/
theorem openArchive_parse_metaBytes (X : Externals) (es : List DATArchiveEntry)
    (pre post : List Nat) (i : Nat) (m : List (List Nat × DATArchiveEntry))
    (dirs : List (List Nat))
    (hes : ∀ e ∈ es, e.wf ∧ Representable X e.path ∧ 92 ∉ e.path) :
    (openArchive_parse X (pre ++ metaBytes X es ++ post) (pre ++ metaBytes X es ++ post).length
        true es.length i pre.length m dirs).1 =
      es.foldl (fun m e => mapEmplace m e.path e) m := by
  induction es generalizing pre i m dirs with
  | nil => rfl
  | cons e es ih =>
    obtain ⟨hwf, ⟨-, hlen, hunits, hrt⟩, hns⟩ := hes e (List.mem_cons_self _ _)
    have hB : pre ++ metaBytes X (e :: es) ++ post =
        writeEntryRecord X (pre ++ le32Bytes (u32 (entryRecordSize X e))) e ++
          (metaBytes X es ++ post) := by
      rw [metaBytes, writeEntryRecord_append_left X (pre ++ _),
        writeEntryRecord_append_left X (le32Bytes _)]
      simp only [List.append_assoc]
    have hB2 : pre ++ metaBytes X (e :: es) ++ post =
        writeEntryRecord X (pre ++ le32Bytes (u32 (entryRecordSize X e))) e ++
          metaBytes X es ++ post := by
      rw [hB, List.append_assoc]
    have hWlen := writeEntryRecord_length X (pre ++ le32Bytes (u32 (entryRecordSize X e))) e hlen
    rw [List.length_append, le32Bytes_length] at hWlen
    have hread := readEntryRecord_append X (pre ++ le32Bytes (u32 (entryRecordSize X e)))
      (metaBytes X es ++ post) e (pre ++ metaBytes X (e :: es) ++ post).length hwf hlen hunits
      (by rw [hB, List.length_append]; omega)
    rw [← hB, List.length_append, le32Bytes_length, hrt, normalizeSlashes_of_not_mem _ hns] at hread
    simp only [List.length_cons]
    unfold openArchive_parse
    have hlenB : pre.length + 4 ≤ (pre ++ metaBytes X (e :: es) ++ post).length := by
      rw [hB, List.length_append, hWlen]; omega
    rw [if_neg (by omega)]
    simp only []
    rw [hread]
    simp only []
    have := ih (writeEntryRecord X (pre ++ le32Bytes (u32 (entryRecordSize X e))) e) (i + 1)
      (mapEmplace m e.path e) (collectParentDirectories e.path dirs)
      (fun x hx => hes x (List.mem_cons_of_mem _ hx))
    rw [← hB2] at this
    rw [this, List.foldl_cons]

/-! ### The sample inputs -/

theorem sampleFs_bytes (p c : List Nat) (h : reference.sampleFs p = some c) :
    isBytes c ∧ c.length ≤ 256 := by
  unfold reference.sampleFs at h
  split at h
  · simp only [Option.some.injEq] at h
    subst h
    exact ⟨by decide, by decide⟩
  · split at h
    · simp only [Option.some.injEq] at h
      subst h
      refine ⟨?_, by rw [List.length_replicate]⟩
      intro b hb
      rw [(List.mem_replicate.1 hb).2]
      decide
    · cases h

theorem sample_inputsFit (base : List Nat) (files : List (List Nat)) :
    InputsFit reference.externals reference.sampleFs base files := by
  intro f _ c hc
  have hl := (sampleFs_bytes _ c hc).2
  refine ⟨by omega, ?_⟩
  intro z hz
  simp only [reference.externals, reference.compress2, Option.some.injEq] at hz
  subst hz
  simp only [List.length_cons]
  omega

/-! ### Claims on the record size and the parsed path -/

theorem writeEntryRecord_length_u32 (X : Externals) (buf : List Nat) (e : DATArchiveEntry) :
    (writeEntryRecord X buf e).length =
      buf.length + (2 * u32 (X.to_wstring e.path).length + 23) := by
  have hle : u32 (X.to_wstring e.path).length ≤ (X.to_wstring e.path).length :=
    Nat.mod_le _ _
  unfold writeEntryRecord
  simp only [List.length_append, le32Bytes_length, List.length_take, wcharBytes_length,
    List.length_singleton, SIZEOF_WCHAR]
  omega

/-- C11: for every entry whose record fits the `uint32_t` size tag, `entryRecordSize`
is `2 * pathCharCount + 23`, which is the number of bytes `writeEntryRecord`
appends, so the tag `create` serialises before the record decodes to the
record's serialised length. -/
theorem entryRecordSize_eq_written (X : Externals) (buf : List Nat) (e : DATArchiveEntry)
    (hfit : 2 * (X.to_wstring e.path).length + 23 < 2 ^ 32) :
    entryRecordSize X e = 2 * (X.to_wstring e.path).length + 23 ∧
    (writeEntryRecord X buf e).length = buf.length + entryRecordSize X e ∧
    create_meta X [e] buf =
      buf ++ le32Bytes (u32 (entryRecordSize X e)) ++ writeEntryRecord X [] e ∧
    le32Value (le32Bytes (u32 (entryRecordSize X e))) = (writeEntryRecord X [] e).length := by
  have hsize : entryRecordSize X e = 2 * (X.to_wstring e.path).length + 23 := by
    unfold entryRecordSize SIZEOF_WCHAR
    omega
  have hn : u32 (X.to_wstring e.path).length = (X.to_wstring e.path).length :=
    u32_of_lt (by omega)
  have hlen : ∀ b : List Nat, (writeEntryRecord X b e).length = b.length + entryRecordSize X e := by
    intro b
    rw [writeEntryRecord_length_u32, hn, hsize]
  refine ⟨hsize, hlen buf, ?_, ?_⟩
  · rw [create_meta, create_meta, writeEntryRecord_append_left]
  · rw [le32Value_le32Bytes _ (u32_lt _), hlen [], List.length_nil, Nat.zero_add, hsize]
    exact u32_of_lt hfit

theorem entryRecordSize_eq_written_witness :
    entryRecordSize reference.externals reference.emojiEntry =
      2 * (reference.externals.to_wstring reference.emojiEntry.path).length + 23 ∧
    (writeEntryRecord reference.externals [1, 2] reference.emojiEntry).length =
      [1, 2].length + entryRecordSize reference.externals reference.emojiEntry ∧
    create_meta reference.externals [reference.emojiEntry] [1, 2] =
      [1, 2] ++ le32Bytes (u32 (entryRecordSize reference.externals reference.emojiEntry)) ++
        writeEntryRecord reference.externals [] reference.emojiEntry ∧
    le32Value (le32Bytes (u32 (entryRecordSize reference.externals reference.emojiEntry))) =
      (writeEntryRecord reference.externals [] reference.emojiEntry).length :=
  entryRecordSize_eq_written reference.externals [1, 2] reference.emojiEntry (by decide)

/-- A record that parses is long enough, hence has the closed form. -/
theorem readEntryRecord_some_bound (X : Externals) (buf : List Nat) (cursor end_ : Nat)
    (hasCrc : Bool) (e : DATArchiveEntry) (c : Nat)
    (h : readEntryRecord X buf cursor end_ hasCrc = some (e, c)) :
    cursor + (4 + 2 * le32Value ((buf.drop cursor).take 4) + 15 + (if hasCrc then 4 else 0))
      ≤ end_ := by
  by_contra hn
  rw [readEntryRecord_eq_none X buf cursor end_ hasCrc (by omega)] at h
  cases h

theorem readEntryRecord_path_eq (X : Externals) (buf : List Nat) (cursor end_ : Nat)
    (hasCrc : Bool) (e : DATArchiveEntry) (c : Nat)
    (h : readEntryRecord X buf cursor end_ hasCrc = some (e, c)) :
    e.path = normalizeSlashes (X.to_string (wcharsOfBytes
      (fileRead buf (cursor + 4) (2 * le32Value (fileRead buf cursor 4))))) := by
  have hb := readEntryRecord_some_bound X buf cursor end_ hasCrc e c h
  rw [readEntryRecord_eq_some X buf cursor end_ hasCrc hb] at h
  simp only [Option.some.injEq, Prod.mk.injEq] at h
  rw [← h.1]
  simp only [fileRead, Nat.mul_comm]

/-- C12: for every record `readEntryRecord` parses successfully, the returned
path holds no backslash and is the UTF-8 form of the stored UTF-16 path (the
`charCount` code units after the count) with every backslash replaced by a
slash. -/
theorem readEntryRecord_path (X : Externals) (buf : List Nat) (cursor end_ : Nat)
    (hasCrc : Bool) (e : DATArchiveEntry) (c : Nat)
    (h : readEntryRecord X buf cursor end_ hasCrc = some (e, c)) :
    92 ∉ e.path ∧
    e.path = normalizeSlashes (X.to_string (wcharsOfBytes
      (fileRead buf (cursor + 4) (2 * le32Value (fileRead buf cursor 4))))) := by
  have hp := readEntryRecord_path_eq X buf cursor end_ hasCrc e c h
  refine ⟨?_, hp⟩
  rw [hp]
  exact not_mem_normalizeSlashes _

theorem readEntryRecord_path_witness :
    92 ∉ (⟨[97, 47, 98], 0, 13, 13, 24, 7, 9, 0xEBE6C6E6⟩ : DATArchiveEntry).path ∧
    (⟨[97, 47, 98], 0, 13, 13, 24, 7, 9, 0xEBE6C6E6⟩ : DATArchiveEntry).path =
      normalizeSlashes (reference.externals.to_string (wcharsOfBytes
        (fileRead (writeEntryRecord reference.externals [] reference.backslashEntry) (0 + 4)
          (2 * le32Value
            (fileRead (writeEntryRecord reference.externals [] reference.backslashEntry) 0 4))))) :=
  readEntryRecord_path reference.externals
    (writeEntryRecord reference.externals [] reference.backslashEntry) 0 29 true
    ⟨[97, 47, 98], 0, 13, 13, 24, 7, 9, 0xEBE6C6E6⟩ 29 (by decide)

/-! ### The lookup operations -/

theorem mapCount_ne_zero_iff (m : List (List Nat × DATArchiveEntry)) (k : List Nat) :
    mapCount m k ≠ 0 ↔ k ∈ m.map Prod.fst := by
  unfold mapCount
  rw [← mem_keys_iff_find]
  split <;> simp_all

theorem mapCount_pos_iff (m : List (List Nat × DATArchiveEntry)) (k : List Nat) :
    mapCount m k > 0 ↔ k ∈ m.map Prod.fst := by
  rw [← mapCount_ne_zero_iff]
  omega

theorem setCount_ne_zero_iff (s : List (List Nat)) (k : List Nat) :
    setCount s k ≠ 0 ↔ k ∈ s := by
  unfold setCount
  split <;> simp_all

theorem setCount_pos_iff (s : List (List Nat)) (k : List Nat) :
    setCount s k > 0 ↔ k ∈ s := by
  rw [← setCount_ne_zero_iff]
  omega

theorem mapFind_eq_none_iff (m : List (List Nat × DATArchiveEntry)) (k : List Nat) :
    mapFind m k = none ↔ k ∉ m.map Prod.fst := by
  rw [← mem_keys_iff_find]
  unfold mapFind
  cases m.find? (fun kv => kv.1 = k) <;> simp

theorem mapFind_some_mem (m : List (List Nat × DATArchiveEntry)) (k : List Nat)
    (e : DATArchiveEntry) (h : mapFind m k = some e) : (k, e) ∈ m := by
  unfold mapFind at h
  cases hf : m.find? (fun kv => kv.1 = k) with
  | none => rw [hf] at h; cases h
  | some x =>
    rw [hf] at h
    simp only [Option.map_some', Option.some.injEq] at h
    have hm := List.mem_of_find?_eq_some hf
    have hk := List.find?_some hf
    simp only [decide_eq_true_eq] at hk
    rw [← h, ← hk]
    exact hm

theorem hasNode_eq (self : FileSystemDATArchive) (name : List Nat) :
    hasNode self name = true ↔
      name ∈ self.m_entries.map Prod.fst ∨
      (if name ≠ [] ∧ name.getLast? ≠ some 47 then name ++ [47] else name)
        ∈ self.m_directories := by
  unfold hasNode
  by_cases hk : name ∈ self.m_entries.map Prod.fst
  · rw [if_pos ((mapCount_ne_zero_iff _ _).2 hk)]
    simp [hk]
  · rw [if_neg (fun h => hk ((mapCount_ne_zero_iff _ _).1 h))]
    simp only [decide_eq_true_eq, setCount_pos_iff, hk, false_or]

theorem getNodeType_eq (self : FileSystemDATArchive) (name : List Nat) :
    getNodeType self name =
      if name ∈ self.m_entries.map Prod.fst then FileSystemNodeType.file
      else if (if name ≠ [] ∧ name.getLast? ≠ some 47 then name ++ [47] else name)
          ∈ self.m_directories then FileSystemNodeType.directory
      else FileSystemNodeType.unknown := by
  unfold getNodeType
  by_cases hk : name ∈ self.m_entries.map Prod.fst
  · rw [if_pos ((mapCount_ne_zero_iff _ _).2 hk), if_pos hk]
  · rw [if_neg (fun h => hk ((mapCount_ne_zero_iff _ _).1 h)), if_neg hk]
    simp only [setCount_ne_zero_iff]

theorem hasFile_eq (self : FileSystemDATArchive) (name : List Nat) :
    hasFile self name = true ↔ name ∈ self.m_entries.map Prod.fst := by
  unfold hasFile
  simp only [decide_eq_true_eq, mapCount_pos_iff]

theorem hasDirectory_eq (self : FileSystemDATArchive) (name : List Nat) :
    hasDirectory self name = true ↔
      name = [] ∨
      (if name ≠ [] ∧ name.getLast? ≠ some 47 then name ++ [47] else name)
        ∈ self.m_directories := by
  unfold hasDirectory
  by_cases hn : name = []
  · simp [hn]
  · rw [if_neg hn]
    simp only [decide_eq_true_eq, setCount_pos_iff, hn, false_or]

/-- C15: `getNodeType(name)` is file when `name` is a key of the entry map;
otherwise directory when `name`, with `'/'` appended if it is non-empty and does
not end in `'/'`, is in the directory set; otherwise unknown; and `hasNode(name)`
is true exactly when `getNodeType(name)` is not unknown. -/
theorem getNodeType_hasNode (self : FileSystemDATArchive) (name : List Nat) :
    getNodeType self name =
      (if name ∈ self.m_entries.map Prod.fst then FileSystemNodeType.file
       else if (if name ≠ [] ∧ name.getLast? ≠ some 47 then name ++ [47] else name)
          ∈ self.m_directories then FileSystemNodeType.directory
       else FileSystemNodeType.unknown) ∧
    (hasNode self name = true ↔ getNodeType self name ≠ FileSystemNodeType.unknown) := by
  refine ⟨getNodeType_eq self name, ?_⟩
  rw [hasNode_eq, getNodeType_eq]
  by_cases hk : name ∈ self.m_entries.map Prod.fst
  · simp [hk]
  · by_cases hd : (if name ≠ [] ∧ name.getLast? ≠ some 47 then name ++ [47] else name)
        ∈ self.m_directories
    · simp [hk, hd]
    · simp [hk, hd]

/-- C16: `hasFile(name)` is true exactly when `name` is a key of the entry map;
`getFileSize(name)` is the `sizeFull` of the entry at that key and 0 when it is
no key; neither depends on the directory set, so a name that is no key has
`hasFile = false` and size 0 even when it is a synthetic directory. -/
theorem hasFile_getFileSize (self : FileSystemDATArchive) (name : List Nat) :
    (hasFile self name = true ↔ name ∈ self.m_entries.map Prod.fst) ∧
    (name ∈ self.m_entries.map Prod.fst →
      ∃ e, (name, e) ∈ self.m_entries ∧ mapFind self.m_entries name = some e ∧
        getFileSize self name = e.sizeFull) ∧
    (name ∉ self.m_entries.map Prod.fst →
      hasFile self name = false ∧ getFileSize self name = 0) ∧
    (∀ dirs : List (List Nat),
      hasFile ⟨self.m_path, self.m_file, self.m_readOffset, self.m_keyBase, self.m_keyStep,
        self.m_version, self.m_entries, dirs⟩ name = hasFile self name ∧
      getFileSize ⟨self.m_path, self.m_file, self.m_readOffset, self.m_keyBase, self.m_keyStep,
        self.m_version, self.m_entries, dirs⟩ name = getFileSize self name) := by
  refine ⟨hasFile_eq self name, ?_, ?_, fun dirs => ⟨rfl, rfl⟩⟩
  · intro hk
    obtain ⟨e, he⟩ := mapFind_isSome_of_mem_keys _ _ hk
    refine ⟨e, mapFind_some_mem _ _ _ he, he, ?_⟩
    unfold getFileSize
    rw [he]
  · intro hk
    constructor
    · cases h : hasFile self name with
      | false => rfl
      | true => exact absurd ((hasFile_eq self name).1 h) hk
    · unfold getFileSize
      rw [(mapFind_eq_none_iff _ _).2 hk]

theorem hasFile_getFileSize_witness :
    (∃ e, ([97, 47, 98], e) ∈ reference.sampleReader.m_entries ∧
      mapFind reference.sampleReader.m_entries [97, 47, 98] = some e ∧
      getFileSize reference.sampleReader [97, 47, 98] = e.sizeFull) ∧
    (hasFile reference.sampleReader [97, 47] = false ∧
      getFileSize reference.sampleReader [97, 47] = 0) :=
  ⟨(hasFile_getFileSize reference.sampleReader [97, 47, 98]).2.1 (by decide),
   (hasFile_getFileSize reference.sampleReader [97, 47]).2.2.1 (by decide)⟩

/-- C17 (amended): for every non-empty name that does not end in `'/'`,
`hasDirectory(name)` equals `hasDirectory(name + "/")`. -/
theorem hasDirectory_trailing_slash (self : FileSystemDATArchive) (name : List Nat)
    (hne : name ≠ []) (hlast : name.getLast? ≠ some 47) :
    hasDirectory self name = hasDirectory self (name ++ [47]) := by
  have h2 : name ++ [47] ≠ [] := by simp
  have h3 : ¬ ((name ++ [47]) ≠ [] ∧ (name ++ [47]).getLast? ≠ some 47) := by
    simp
  unfold hasDirectory
  simp only [if_neg hne, if_neg h2, if_neg h3, if_pos (And.intro hne hlast)]

theorem hasDirectory_trailing_slash_witness :
    hasDirectory reference.sampleReader [97] = hasDirectory reference.sampleReader ([97] ++ [47]) :=
  hasDirectory_trailing_slash reference.sampleReader [97] (by decide) (by decide)

/-- C17 as stated fails at the empty name, which does not end in `'/'`: the root
always exists, while `"/"` is looked up in the directory set. -/
theorem hasDirectory_trailing_slash_root :
    ([] : List Nat).getLast? ≠ some 47 ∧
    hasDirectory reference.emptyArchiveReader [] = true ∧
    hasDirectory reference.emptyArchiveReader ([] ++ [47]) = false ∧
    hasDirectory reference.emptyArchiveReader [] ≠
      hasDirectory reference.emptyArchiveReader ([] ++ [47]) := by
  decide

/-- C18 fails on the code: on the reader of an archive with zero entries the
root exists for `hasDirectory`, but `hasNode("")` is false and
`getNodeType("")` is unknown. -/
theorem hasNode_root_emptyArchive :
    reference.emptyArchiveReader.m_entries = [] ∧
    hasDirectory reference.emptyArchiveReader [] = true ∧
    hasNode reference.emptyArchiveReader [] = false ∧
    getNodeType reference.emptyArchiveReader [] = FileSystemNodeType.unknown := by
  decide

/-! ### The index `open` builds -/

/-- Induction over the record loop of `open`: a property of the index that every
parsed record preserves holds of the final index. -/
theorem openArchive_parse_induction (X : Externals) (metaBuf : List Nat) (end_ : Nat)
    (hasCrc : Bool) (P : List (List Nat × DATArchiveEntry) → List (List Nat) → Prop)
    (hstep : ∀ entries dirs cursor e c,
      readEntryRecord X metaBuf cursor end_ hasCrc = some (e, c) → P entries dirs →
      P (mapEmplace entries e.path e) (collectParentDirectories e.path dirs))
    (n i cursor : Nat) (entries : List (List Nat × DATArchiveEntry)) (dirs : List (List Nat))
    (h0 : P entries dirs) :
    P (openArchive_parse X metaBuf end_ hasCrc n i cursor entries dirs).1
      (openArchive_parse X metaBuf end_ hasCrc n i cursor entries dirs).2.1 := by
  induction n generalizing i cursor entries dirs with
  | zero => exact h0
  | succ n ih =>
    unfold openArchive_parse
    by_cases hc : cursor + 4 > end_
    · rw [if_pos hc]; exact h0
    · rw [if_neg hc]
      simp only []
      cases hr : readEntryRecord X metaBuf (cursor + 4) end_ hasCrc with
      | none => exact h0
      | some r =>
        obtain ⟨e, c⟩ := r
        exact ih _ _ _ _ (hstep entries dirs (cursor + 4) e c hr h0)

/-! ### The stream `open` opens -/

/-- The mode `open` passes, `std::ios::binary` alone, is not in the table of
open modes. -/
theorem validOpenMode_ios_binary : validOpenMode ios_binary = false := rfl

/-- The modes of the writer are in the table: `binary | in | out | trunc` of the
temp file, `binary | in` of an input file (`std::ifstream` adds `in`) and
`binary | trunc | out` of the output file (`std::ofstream` adds `out`). -/
theorem validOpenMode_writer :
    validOpenMode ⟨false, false, true, true, true, true⟩ = true ∧
    validOpenMode ⟨false, false, true, true, false, false⟩ = true ∧
    validOpenMode ⟨false, false, true, false, true, true⟩ = true :=
  ⟨rfl, rfl, rfl⟩

/-- The `open` call of the reader never opens the stream: it leaves the stream
as it was and fails. -/
theorem fstream_open_ios_binary (stream : Option (List Nat))
    (fs : List Nat → Option (List Nat)) (path : List Nat) :
    fstream_open stream fs path ios_binary = (stream, false) := by
  unfold fstream_open
  cases stream with
  | none => rw [validOpenMode_ios_binary]; rfl
  | some file => rfl

section

attribute [local irreducible] openArchive_trial openArchive_decryptMeta zlibInflate
  openArchive_parse fileRead

/-- Every call of `open` returns false, for every fuel: with the stream closed
it logs that the file cannot be opened, and on a stream that was open it fails
at the header read. It clears the index and changes neither the stream nor the
keys nor the version. -/
theorem openArchive_fails (X : Externals) (self : FileSystemDATArchive)
    (fs : List Nat → Option (List Nat)) (path : List Nat) (readOffset fuel : Nat) :
    openArchive X self fs path readOffset fuel =
      some (false,
        ⟨path, self.m_file, readOffset, self.m_keyBase, self.m_keyStep, self.m_version, [], []⟩,
        if self.m_file = none then [LogMsg.cannotOpen] else [LogMsg.headerReadFailed]) := by
  unfold openArchive
  rw [fstream_open_ios_binary]
  simp only []
  cases hf : self.m_file with
  | none => rfl
  | some file =>
    simp only []
    rw [if_pos (Or.inl (by simp))]
    simp

end

theorem mem_collectParentDirectories_loop (filePath : List Nat) (n pos : Nat)
    (dirs : List (List Nat)) (d : List Nat) :
    d ∈ collectParentDirectories_loop filePath n pos dirs ↔
      d ∈ dirs ∨ ∃ i, pos ≤ i ∧ i < pos + n ∧ filePath.getD i 0 = 47 ∧
        d = filePath.take (i + 1) := by
  induction n generalizing pos dirs with
  | zero =>
    simp only [collectParentDirectories_loop]
    constructor
    · exact Or.inl
    · rintro (h | ⟨i, h1, h2, -⟩)
      · exact h
      · omega
  | succ n ih =>
    unfold collectParentDirectories_loop
    by_cases hs : filePath.getD pos 0 = 47
    · rw [if_pos hs, ih]
      have hins : d ∈ (if filePath.take (pos + 1) ∈ dirs then dirs
          else dirs ++ [filePath.take (pos + 1)]) ↔ d ∈ dirs ∨ d = filePath.take (pos + 1) := by
        split
        · next hm =>
          constructor
          · exact Or.inl
          · rintro (h | h)
            · exact h
            · rw [h]; exact hm
        · simp only [List.mem_append, List.mem_singleton]
      rw [hins]
      constructor
      · rintro ((h | h) | ⟨i, h1, h2, h3, h4⟩)
        · exact Or.inl h
        · exact Or.inr ⟨pos, Nat.le_refl _, by omega, hs, h⟩
        · exact Or.inr ⟨i, by omega, by omega, h3, h4⟩
      · rintro (h | ⟨i, h1, h2, h3, h4⟩)
        · exact Or.inl (Or.inl h)
        · by_cases hi : i = pos
          · subst hi; exact Or.inl (Or.inr h4)
          · exact Or.inr ⟨i, by omega, by omega, h3, h4⟩
    · rw [if_neg hs, ih]
      constructor
      · rintro (h | ⟨i, h1, h2, h3, h4⟩)
        · exact Or.inl h
        · exact Or.inr ⟨i, by omega, by omega, h3, h4⟩
      · rintro (h | ⟨i, h1, h2, h3, h4⟩)
        · exact Or.inl h
        · by_cases hi : i = pos
          · subst hi; exact absurd h3 hs
          · exact Or.inr ⟨i, by omega, by omega, h3, h4⟩

theorem mem_collectParentDirectories (filePath : List Nat) (dirs : List (List Nat))
    (d : List Nat) :
    d ∈ collectParentDirectories filePath dirs ↔ d ∈ dirs ∨ IsParentDirectory filePath d := by
  unfold collectParentDirectories IsParentDirectory
  rw [mem_collectParentDirectories_loop]
  constructor
  · rintro (h | ⟨i, -, h2, h3, h4⟩)
    · exact Or.inl h
    · exact Or.inr ⟨i, by omega, h3, h4⟩
  · rintro (h | ⟨i, h2, h3, h4⟩)
    · exact Or.inl h
    · exact Or.inr ⟨i, Nat.zero_le _, by omega, h3, h4⟩

theorem IsParentDirectory.props {p d : List Nat} (h : IsParentDirectory p d) :
    d.getLast? = some 47 ∧ d ≠ [] ∧ d <+: p := by
  obtain ⟨i, hi, hs, hd⟩ := h
  have htake : p.take (i + 1) = p.take i ++ [47] := by
    rw [List.take_succ, List.getElem?_eq_getElem hi]
    rw [List.getD_eq_getElem _ _ hi] at hs
    rw [hs]
    rfl
  refine ⟨?_, ?_, ?_⟩
  · rw [hd, htake, List.getLast?_append]
    rfl
  · rw [hd, htake]; simp
  · rw [hd]; exact List.take_prefix _ _

/-- The directory set the record loop builds from an empty index holds exactly
the parent directories of the keys of the entry map it builds. -/
theorem openArchive_parse_directories (X : Externals) (metaBuf : List Nat) (hasCrc : Bool)
    (n : Nat) (d : List Nat) :
    d ∈ (openArchive_parse X metaBuf metaBuf.length hasCrc n 0 0 [] []).2.1 ↔
      ∃ p ∈ (openArchive_parse X metaBuf metaBuf.length hasCrc n 0 0 [] []).1.map Prod.fst,
        IsParentDirectory p d :=
  openArchive_parse_induction X metaBuf metaBuf.length hasCrc
    (fun entries dirs => ∀ d, d ∈ dirs ↔ ∃ p ∈ entries.map Prod.fst, IsParentDirectory p d)
    (by
      intro entries dirs cursor e c _ hP d
      rw [mem_collectParentDirectories, hP d]
      constructor
      · rintro (⟨p, hp, hpd⟩ | h)
        · exact ⟨p, (mapEmplace_keys _ _ _ _).2 (Or.inl hp), hpd⟩
        · exact ⟨e.path, (mapEmplace_keys _ _ _ _).2 (Or.inr rfl), h⟩
      · rintro ⟨p, hp, hpd⟩
        rcases (mapEmplace_keys _ _ _ _).1 hp with h | h
        · exact Or.inl ⟨p, h, hpd⟩
        · rw [h] at hpd; exact Or.inr hpd)
    n 0 0 [] [] (by intro d; simp) d

/-- C13: after `open` (which returns for every fuel), the synthetic directory
set is exactly the set of prefixes `p[0..i]` over the entry paths `p` and the
positions `i` with `p[i] = '/'`; so every member ends in `'/'`, is a prefix of
an entry path, and is not the empty string. The record loop of `open` keeps
the same relation between the map and the set it builds, for every directory
buffer. -/
theorem openArchive_directories (X : Externals) (self : FileSystemDATArchive)
    (fs : List Nat → Option (List Nat)) (path : List Nat) (readOffset fuel : Nat) :
    ∃ r, openArchive X self fs path readOffset fuel = some r ∧
      (∀ d, d ∈ r.2.1.m_directories ↔
        ∃ p ∈ r.2.1.m_entries.map Prod.fst,
          ∃ i, i < p.length ∧ p.getD i 0 = 47 ∧ d = p.take (i + 1)) ∧
      (∀ d ∈ r.2.1.m_directories,
        d.getLast? = some 47 ∧ d ≠ [] ∧ ∃ p ∈ r.2.1.m_entries.map Prod.fst, d <+: p) ∧
      (∀ (metaBuf : List Nat) (hasCrc : Bool) (n : Nat) (d : List Nat),
        (d ∈ (openArchive_parse X metaBuf metaBuf.length hasCrc n 0 0 [] []).2.1 ↔
          ∃ p ∈ (openArchive_parse X metaBuf metaBuf.length hasCrc n 0 0 [] []).1.map
            Prod.fst, ∃ i, i < p.length ∧ p.getD i 0 = 47 ∧ d = p.take (i + 1)) ∧
        (d ∈ (openArchive_parse X metaBuf metaBuf.length hasCrc n 0 0 [] []).2.1 →
          d.getLast? = some 47 ∧ d ≠ [] ∧
          ∃ p ∈ (openArchive_parse X metaBuf metaBuf.length hasCrc n 0 0 [] []).1.map
            Prod.fst, d <+: p)) := by
  refine ⟨_, openArchive_fails X self fs path readOffset fuel, ?_, ?_, ?_⟩
  · intro d
    simp
  · intro d hd
    cases hd
  · intro metaBuf hasCrc n d
    refine ⟨openArchive_parse_directories X metaBuf hasCrc n d, ?_⟩
    intro hd
    obtain ⟨p, hp, hpd⟩ := (openArchive_parse_directories X metaBuf hasCrc n d).1 hd
    exact ⟨hpd.props.1, hpd.props.2.1, p, hp, hpd.props.2.2⟩

/-! ### Lookups on names the index does not hold -/

/-- A name that is no key of the entry map, and whose directory form is not in
the directory set, is reported absent by every lookup. -/
theorem lookups_absent (X : Externals) (s : FileSystemDATArchive) (name : List Nat)
    (hk : name ∉ s.m_entries.map Prod.fst)
    (hd : (if name ≠ [] ∧ name.getLast? ≠ some 47 then name ++ [47] else name)
      ∉ s.m_directories) :
    hasNode s name = false ∧ getNodeType s name = FileSystemNodeType.unknown ∧
    hasFile s name = false ∧ getFileSize s name = 0 ∧
    readFile X s name = (none, []) ∧ (name ≠ [] → hasDirectory s name = false) := by
  have hfind : mapFind s.m_entries name = none := (mapFind_eq_none_iff _ _).2 hk
  refine ⟨?_, ?_, ?_, ?_, ?_, ?_⟩
  · cases h : hasNode s name with
    | false => rfl
    | true =>
      rcases (hasNode_eq s name).1 h with h1 | h1
      · exact absurd h1 hk
      · exact absurd h1 hd
  · rw [getNodeType_eq, if_neg hk, if_neg hd]
  · cases h : hasFile s name with
    | false => rfl
    | true => exact absurd ((hasFile_eq s name).1 h) hk
  · unfold getFileSize
    rw [hfind]
  · unfold readFile
    rw [hfind]
  · intro hne
    cases h : hasDirectory s name with
    | false => rfl
    | true =>
      rcases (hasDirectory_eq s name).1 h with h1 | h1
      · exact absurd h1 hne
      · exact absurd h1 hd

/-- On a reader whose index is empty every lookup reports absence, the root
apart for `hasDirectory`. -/
theorem lookups_empty_index (X : Externals) (s : FileSystemDATArchive) (name : List Nat)
    (he : s.m_entries = []) (hd : s.m_directories = []) :
    hasNode s name = false ∧ getNodeType s name = FileSystemNodeType.unknown ∧
    hasFile s name = false ∧ getFileSize s name = 0 ∧
    hasDirectory s name = decide (name = []) ∧ readFile X s name = (none, []) := by
  obtain ⟨h1, h2, h3, h4, h5, h6⟩ := lookups_absent X s name (by rw [he]; simp) (by rw [hd]; simp)
  refine ⟨h1, h2, h3, h4, ?_, h5⟩
  by_cases hn : name = []
  · rw [hn]
    rfl
  · rw [h6 hn]
    simp [hn]

/-- C20: whenever `open` returns false, the entry map and the directory set of
the reader are empty, whatever they held before the call, so `hasFile` and
`hasNode` are false and `readFile` fails for every name. -/
theorem openArchive_false_index_empty (X : Externals) (self : FileSystemDATArchive)
    (fs : List Nat → Option (List Nat)) (path : List Nat) (readOffset fuel : Nat)
    (r : Bool × FileSystemDATArchive × List LogMsg)
    (hr : openArchive X self fs path readOffset fuel = some r)
    (hfail : r.1 = false) :
    r.2.1.m_entries = [] ∧ r.2.1.m_directories = [] ∧
    ∀ name, hasFile r.2.1 name = false ∧ hasNode r.2.1 name = false ∧
      readFile X r.2.1 name = (none, []) := by
  have _hfalse := hfail
  rw [openArchive_fails] at hr
  simp only [Option.some.injEq] at hr
  rw [← hr]
  refine ⟨rfl, rfl, fun name => ?_⟩
  obtain ⟨h1, -, h3, -, -, h6⟩ := lookups_empty_index X
    ⟨path, self.m_file, readOffset, self.m_keyBase, self.m_keyStep, self.m_version, [], []⟩
    name rfl rfl
  exact ⟨h3, h1, h6⟩

theorem openArchive_false_index_empty_witness :
    reference.sampleReader.m_entries ≠ [] ∧
    ∃ r, openArchive reference.externals reference.sampleReader (fun _ => none) [112] 0 1
        = some r ∧ r.1 = false ∧
      r.2.1.m_entries = [] ∧ r.2.1.m_directories = [] ∧
      ∀ name, hasFile r.2.1 name = false ∧ hasNode r.2.1 name = false ∧
        readFile reference.externals r.2.1 name = (none, []) :=
  ⟨by decide, _, openArchive_fails _ _ _ _ _ _, rfl,
    openArchive_false_index_empty reference.externals reference.sampleReader
      (fun _ => none) [112] 0 1 _ (openArchive_fails _ _ _ _ _ _) rfl⟩

/-! ### The header stage of `open` -/

/-- The record loop logs nothing, or one warning about the record where it stopped. -/
theorem openArchive_parse_log (X : Externals) (metaBuf : List Nat) (end_ : Nat) (hasCrc : Bool)
    (n i cursor : Nat) (entries : List (List Nat × DATArchiveEntry)) (dirs : List (List Nat)) :
    (openArchive_parse X metaBuf end_ hasCrc n i cursor entries dirs).2.2 = [] ∨
    (∃ j, (openArchive_parse X metaBuf end_ hasCrc n i cursor entries dirs).2.2
      = [LogMsg.truncatedMetadata j]) ∨
    (∃ j, (openArchive_parse X metaBuf end_ hasCrc n i cursor entries dirs).2.2
      = [LogMsg.parseFailed j]) := by
  induction n generalizing i cursor entries dirs with
  | zero => exact Or.inl rfl
  | succ n ih =>
    unfold openArchive_parse
    by_cases hc : cursor + 4 > end_
    · rw [if_pos hc]; exact Or.inr (Or.inl ⟨i, rfl⟩)
    · rw [if_neg hc]
      simp only []
      cases hr : readEntryRecord X metaBuf (cursor + 4) end_ hasCrc with
      | none => exact Or.inr (Or.inr ⟨i, rfl⟩)
      | some r =>
        obtain ⟨e, c⟩ := r
        exact ih _ _ _ _

section

attribute [local irreducible] ArchiveEncryption.shiftBlock ArchiveEncryption.shiftBlockLegacy
  ArchiveEncryption.getKeyHashHeader ArchiveEncryption.getKeyHashHeaderLegacy

/-- The trial decryption of `open` accepts the decryption that the
specification names, and the header it returns carries that decryption's
version field. -/
theorem openArchive_trial_version (X : Externals) (headerBuf : List Nat) :
    (openArchive_trial X headerBuf).map (fun t => t.2.2.2.version) =
      (acceptedHeader X headerBuf).map headerVersion := by
  unfold openArchive_trial acceptedHeader
  simp only [parseHeader, SIZEOF_HEADER, headerVersion]
  split
  · rfl
  · split
    · rfl
    · next h => rw [if_pos (Classical.not_not.1 h)]; rfl

end

/-! ### Reading an entry body -/

section

attribute [local irreducible] ArchiveEncryption.shiftBlock ArchiveEncryption.shiftBlockLegacy
  fileRead zlibInflateKnown

/-- The buffer `readEntryData` hands back does not depend on the `crc32Value`
of the entry, and the logs of two such reads differ in the CRC warning only. -/
theorem readEntryData_crc (X : Externals) (self : FileSystemDATArchive) (p : List Nat)
    (ct sf ss off kb ks c1 c2 : Nat) :
    (readEntryData X self ⟨p, ct, sf, ss, off, kb, ks, c1⟩).1 =
      (readEntryData X self ⟨p, ct, sf, ss, off, kb, ks, c2⟩).1 ∧
    (readEntryData X self ⟨p, ct, sf, ss, off, kb, ks, c1⟩).2.filter
        (fun m => decide (m ≠ LogMsg.crcMismatch)) =
      (readEntryData X self ⟨p, ct, sf, ss, off, kb, ks, c2⟩).2.filter
        (fun m => decide (m ≠ LogMsg.crcMismatch)) := by
  have hcrc : ∀ (c : Nat) (out : List Nat),
      (if c ≠ 0 ∧ out ≠ [] ∧ u32 (X.crc32 out) ≠ c then [LogMsg.crcMismatch] else []).filter
        (fun m => decide (m ≠ LogMsg.crcMismatch)) = [] := by
    intro c out
    split <;> simp
  unfold readEntryData
  cases self.m_file with
  | none => exact ⟨rfl, rfl⟩
  | some file =>
    simp only []
    by_cases h1 : ss > 0 ∧ (fileRead file (self.m_readOffset + off) ss).length < ss
    · simp only [if_pos h1, and_self]
    · simp only [if_neg h1]
      by_cases h2 : ct = CT_NONE
      · simp only [if_pos h2, hcrc, and_self]
      · simp only [if_neg h2]
        by_cases h3 : ct = CT_ZLIB
        · simp only [if_pos h3]
          generalize (if ss > 0 then zlibInflateKnown X _ sf else (true, [])) = infl
          by_cases h4 : ¬ infl.1 = true
          · simp only [if_pos h4, and_self]
          · simp only [if_neg h4, List.filter_append, hcrc, and_self]
        · simp only [if_neg h3, hcrc, and_self]

end

/-- C26: the CRC is advisory. For every reader state and entry, the buffer
`readEntryData` hands back (none when it returns false) is the same whatever
`crc32Value` the entry carries, matching, mismatching or 0; the logs of the two
reads differ in the CRC warning only. -/
theorem readEntryData_crc_advisory (X : Externals) (self : FileSystemDATArchive)
    (e : DATArchiveEntry) (c : Nat) :
    (readEntryData X self ⟨e.path, e.compressionType, e.sizeFull, e.sizeStored, e.offsetPos,
      e.keyBase, e.keyStep, c⟩).1 = (readEntryData X self e).1 ∧
    (readEntryData X self ⟨e.path, e.compressionType, e.sizeFull, e.sizeStored, e.offsetPos,
      e.keyBase, e.keyStep, c⟩).2.filter (fun m => decide (m ≠ LogMsg.crcMismatch)) =
      (readEntryData X self e).2.filter (fun m => decide (m ≠ LogMsg.crcMismatch)) := by
  cases e with
  | mk p ct sf ss off kb ks c0 => exact readEntryData_crc X self p ct sf ss off kb ks c c0

theorem shiftBlock_nil (v kb ks : Nat) :
    (if v = VERSION_LEGACY then (shiftBlockLegacy [] 0 kb ks).1
      else (shiftBlock [] 0 kb ks).1) = [] := by
  split <;> rfl

/-- An entry that stores no bytes reads as the empty buffer on an open reader,
without a library call. -/
theorem readEntryData_zero (X : Externals) (self : FileSystemDATArchive) (file : List Nat)
    (e : DATArchiveEntry) (hopen : self.m_file = some file) (hz : e.sizeStored = 0) :
    readEntryData X self e =
      (some [], if e.compressionType = CT_ZLIB ∧ e.sizeFull ≠ 0 then [LogMsg.sizeMismatch]
        else []) := by
  unfold readEntryData
  rw [hopen]
  simp only [hz, fileRead_zero_len, List.length_nil, shiftBlock_nil]
  have hz2 : (1 : Nat) ≠ 0 := by decide
  by_cases h1 : e.compressionType = CT_NONE
  · have h2 : ¬ e.compressionType = CT_ZLIB := by rw [h1]; decide
    simp [h1, h2, CT_NONE, CT_ZLIB]
  · by_cases h2 : e.compressionType = CT_ZLIB
    · by_cases h3 : e.sizeFull = 0
      · simp [h1, h2, h3, CT_NONE, CT_ZLIB]
      · have h4 : ¬ 0 = e.sizeFull := fun h => h3 h.symm
        simp [h1, h2, h3, h4, CT_NONE, CT_ZLIB]
    · simp [h1, h2]

/-! ### The entries `create` emits -/

theorem create_compress_small (X : Externals) (content : List Nat) (fileSize : Nat)
    (h : fileSize < 256) :
    create_compress X content fileSize = (CT_NONE, fileSize, content) := by
  unfold create_compress
  rw [if_neg (by omega)]

theorem create_compress_deflated (X : Externals) (content z : List Nat) (fileSize : Nat)
    (h : 256 ≤ fileSize) (hz : X.compress2 (content.take fileSize) = some z) :
    create_compress X content fileSize = (CT_ZLIB, u32 z.length, z) := by
  unfold create_compress zlibDeflate
  rw [if_pos (by omega), hz]
  rfl

theorem create_compress_fallback (X : Externals) (content : List Nat) (fileSize : Nat)
    (hz : X.compress2 (content.take fileSize) = none) :
    create_compress X content fileSize = (CT_NONE, fileSize, content) := by
  unfold create_compress zlibDeflate
  rw [hz]
  split <;> rfl

/-- An entry that `create_compress` marks uncompressed stores `fileSize` bytes. -/
theorem create_compress_none (X : Externals) (content : List Nat) (fileSize : Nat)
    (h : (create_compress X content fileSize).1 = CT_NONE) :
    (create_compress X content fileSize).2.1 = fileSize := by
  unfold create_compress zlibDeflate at h ⊢
  split
  · next h1 =>
    rw [if_pos h1] at h
    cases hc : X.compress2 (content.take fileSize) with
    | none => rfl
    | some z =>
      rw [hc] at h
      simp [CT_NONE, CT_ZLIB] at h
  · rfl

/-- Each entry the per-file loop appends is computed from the input file at
its path. -/
theorem create_files_emitted (X : Externals) (fs : List Nat → Option (List Nat))
    (base : List Nat) (kb ks : Nat) (files : List (List Nat)) (tmp : List Nat)
    (entries : List DATArchiveEntry) (tmp' : List Nat) (entries' : List DATArchiveEntry)
    (h : create_files X fs base kb ks files tmp entries = some (tmp', entries')) :
    ∃ new, entries' = entries ++ new ∧
      List.Forall₂ (fun f e => ∃ input, fs (base ++ f) = some input ∧ e.path = f ∧
        e.sizeFull = u32 input.length ∧
        e.compressionType =
          (create_compress X (fileRead input 0 (u32 input.length)) (u32 input.length)).1 ∧
        e.sizeStored =
          (create_compress X (fileRead input 0 (u32 input.length)) (u32 input.length)).2.1)
        files new := by
  induction files generalizing tmp entries with
  | nil =>
    simp only [create_files, Option.some.injEq, Prod.mk.injEq] at h
    exact ⟨[], by simp [h.2], List.Forall₂.nil⟩
  | cons f rest ih =>
    unfold create_files at h
    cases hfs : fs (base ++ f) with
    | none => rw [hfs] at h; cases h
    | some input =>
      rw [hfs] at h
      simp only [] at h
      obtain ⟨new, hent, hall⟩ := ih _ _ h
      refine ⟨⟨f,
        (create_compress X (fileRead input 0 (u32 input.length)) (u32 input.length)).1,
        u32 input.length,
        (create_compress X (fileRead input 0 (u32 input.length)) (u32 input.length)).2.1,
        u32 tmp.length, (getKeyHashFile f kb ks).1, (getKeyHashFile f kb ks).2,
        u32 (X.crc32 (fileRead input 0 (u32 input.length)))⟩ :: new, ?_,
        List.Forall₂.cons ⟨input, hfs, rfl, rfl, rfl, rfl⟩ hall⟩
      rw [hent]
      simp only [List.append_assoc, List.singleton_append]

/-- The entries `create` has staged, one per queued file and in the order of
the queue, each computed from the input file at its path. -/
theorem create_stage_emitted (X : Externals) (fs : List Nat → Option (List Nat))
    (m_files : List (List Nat)) (baseDir : List Nat) (tmp : List Nat)
    (header : DATArchiveHeader) (entries : List DATArchiveEntry)
    (h : create_stage X fs m_files baseDir = some (tmp, header, entries)) :
    List.Forall₂ (fun f e => ∃ input, fs (create_base baseDir ++ f) = some input ∧ e.path = f ∧
      e.sizeFull = u32 input.length ∧
      e.compressionType =
        (create_compress X (fileRead input 0 (u32 input.length)) (u32 input.length)).1 ∧
      e.sizeStored =
        (create_compress X (fileRead input 0 (u32 input.length)) (u32 input.length)).2.1)
      m_files entries := by
  unfold create_stage at h
  simp only [] at h
  cases hcf : create_files X fs (create_base baseDir) (getKeyHashHeader ENCRYPTION_KEY).1
      (getKeyHashHeader ENCRYPTION_KEY).2 m_files
      (headerBytes ⟨HEADER_MAGIC, VERSION_CURRENT, u32 m_files.length, 0, 0⟩) [] with
  | none => rw [hcf] at h; cases h
  | some r =>
    obtain ⟨tmp1, entries1⟩ := r
    rw [hcf] at h
    simp only [] at h
    split at h
    · cases h
    · simp only [Option.some.injEq, Prod.mk.injEq] at h
      obtain ⟨new, hent, hall⟩ := create_files_emitted X fs _ _ _ _ _ _ _ _ hcf
      rw [List.nil_append] at hent
      rw [← h.2.2, hent]
      exact hall

theorem forall₂_imp_mem {α β : Type} {R S : α → β → Prop} {l₁ : List α} {l₂ : List β}
    (h : List.Forall₂ R l₁ l₂) (himp : ∀ a ∈ l₁, ∀ b, R a b → S a b) :
    List.Forall₂ S l₁ l₂ := by
  induction h with
  | nil => exact List.Forall₂.nil
  | cons hab _ ih =>
    exact List.Forall₂.cons (himp _ (List.mem_cons_self _ _) _ hab)
      (ih (fun a ha b hr => himp a (List.mem_cons_of_mem _ ha) b hr))

theorem forall₂_mem_right {α β : Type} {R : α → β → Prop} {l₁ : List α} {l₂ : List β}
    (h : List.Forall₂ R l₁ l₂) (b : β) (hb : b ∈ l₂) : ∃ a ∈ l₁, R a b := by
  induction h with
  | nil => cases hb
  | cons hab _ ih =>
    rcases List.mem_cons.1 hb with h1 | h1
    · subst h1
      exact ⟨_, List.mem_cons_self _ _, hab⟩
    · obtain ⟨a, ha, hr⟩ := ih h1
      exact ⟨a, List.mem_cons_of_mem _ ha, hr⟩

/-- C23: for every input file of size `s` that `create` processes (sizes below
2^32): if `s < 256` the entry has `compressionType` none and
`sizeStored = sizeFull = s`, whatever the deflate function is (it is not
called); if `s ≥ 256` and deflate succeeds the entry has `compressionType` zlib,
`sizeFull = s` and `sizeStored` the compressed length; if `s ≥ 256` and deflate
fails the entry has `compressionType` none and `sizeStored = sizeFull = s`.
So every emitted entry with `compressionType` none has
`sizeStored = sizeFull`. -/
theorem create_compression_rule (X : Externals) (fs : List Nat → Option (List Nat))
    (m_files : List (List Nat)) (baseDir : List Nat) (tmp : List Nat)
    (header : DATArchiveHeader) (entries : List DATArchiveEntry)
    (h : create_stage X fs m_files baseDir = some (tmp, header, entries))
    (hin : InputsFit X fs (create_base baseDir) m_files) :
    List.Forall₂ (fun f e => ∃ content, fs (create_base baseDir ++ f) = some content ∧
        e.path = f ∧ e.sizeFull = content.length ∧
        (content.length < 256 →
          e.compressionType = CT_NONE ∧ e.sizeStored = content.length ∧
          ∀ X' : Externals,
            create_compress X' content content.length = (CT_NONE, content.length, content)) ∧
        (256 ≤ content.length → ∀ z, X.compress2 content = some z →
          e.compressionType = CT_ZLIB ∧ e.sizeStored = z.length) ∧
        (256 ≤ content.length → X.compress2 content = none →
          e.compressionType = CT_NONE ∧ e.sizeStored = content.length))
      m_files entries ∧
    (∀ e ∈ entries, e.compressionType = CT_NONE → e.sizeStored = e.sizeFull) := by
  have hem := create_stage_emitted X fs m_files baseDir tmp header entries h
  constructor
  · refine forall₂_imp_mem hem ?_
    rintro f hf e ⟨input, hfs, hp, hfull, hct, hst⟩
    obtain ⟨hlen, hz⟩ := hin f hf input hfs
    rw [u32_of_lt hlen] at hfull hct hst
    rw [fileRead_all] at hct hst
    refine ⟨input, hfs, hp, hfull, ?_, ?_, ?_⟩
    · intro hs
      rw [create_compress_small X input input.length hs] at hct hst
      exact ⟨hct, hst, fun X' => create_compress_small X' input input.length hs⟩
    · intro hs z hc
      rw [create_compress_deflated X input z input.length hs
        (by rw [List.take_length]; exact hc)] at hct hst
      exact ⟨hct, by rw [hst]; exact u32_of_lt (hz z hc)⟩
    · intro _ hc
      rw [create_compress_fallback X input input.length
        (by rw [List.take_length]; exact hc)] at hct hst
      exact ⟨hct, hst⟩
  · intro e he hn
    obtain ⟨f, -, input, -, -, hfull, hct, hst⟩ := forall₂_mem_right hem e he
    rw [hst, hfull]
    exact create_compress_none X _ _ (by rw [← hct]; exact hn)

set_option maxRecDepth 1000000 in
theorem sample_stage_isSome :
    (create_stage reference.externals reference.sampleFs
      (reference.samplePaths.foldl addFile []) [100]).isSome = true := by
  decide

set_option maxRecDepth 1000000 in
theorem create_compression_rule_witness :
    ∃ t, create_stage reference.externals reference.sampleFs
        (reference.samplePaths.foldl addFile []) [100] = some t ∧
      (t.2.2.map (fun e => (e.path, e.compressionType, e.sizeFull, e.sizeStored)) =
        [([97], CT_NONE, 3, 3), ([98, 47, 99], CT_ZLIB, 256, 258)]) ∧
      (∀ e ∈ t.2.2, e.compressionType = CT_NONE → e.sizeStored = e.sizeFull) :=
  ⟨(create_stage reference.externals reference.sampleFs
      (reference.samplePaths.foldl addFile []) [100]).get sample_stage_isSome,
    (Option.some_get sample_stage_isSome).symm, by decide,
    (create_compression_rule reference.externals reference.sampleFs
      (reference.samplePaths.foldl addFile []) [100] _ _ _
      (Option.some_get sample_stage_isSome).symm (sample_inputsFit _ _)).2⟩

/-! ### The layout `create` stages -/

/-- Bodies laid out back to back: the first offset, the step from one entry to
the next, the total length, and the bound on every entry. -/
theorem Layout_offsets (off : Nat) (es : List DATArchiveEntry) (segs : List (List Nat))
    (h : Layout off es segs) :
    segs.flatten.length = (es.map (fun e => e.sizeStored)).sum ∧
    (∀ e, es.head? = some e → e.offsetPos = off) ∧
    (∀ i a b, es[i]? = some a → es[i + 1]? = some b →
      b.offsetPos = a.offsetPos + a.sizeStored) ∧
    (∀ e ∈ es, off ≤ e.offsetPos ∧
      e.offsetPos + e.sizeStored ≤ off + (es.map (fun e => e.sizeStored)).sum) := by
  induction es generalizing off segs with
  | nil =>
    cases segs with
    | nil => exact ⟨rfl, by simp, by simp, by simp⟩
    | cons s ss => exact absurd h (by simp [Layout])
  | cons e es ih =>
    cases segs with
    | nil => exact absurd h (by simp [Layout])
    | cons s ss =>
      obtain ⟨ho, hs, hl⟩ := h
      obtain ⟨h1, h2, h3, h4⟩ := ih _ _ hl
      refine ⟨?_, ?_, ?_, ?_⟩
      · simp only [List.flatten_cons, List.length_append, List.map_cons, List.sum_cons, h1, hs]
      · intro e' he'
        simp only [List.head?_cons, Option.some.injEq] at he'
        rw [← he']; exact ho
      · intro i a b ha hb
        cases i with
        | zero =>
          simp only [List.getElem?_cons_zero, Option.some.injEq] at ha
          simp only [Nat.zero_add, List.getElem?_cons_succ] at hb
          have hb' : es.head? = some b := by
            cases es with
            | nil => simp at hb
            | cons x xs => simpa using hb
          rw [h2 b hb', ← ha, ho, hs]
        | succ j =>
          simp only [List.getElem?_cons_succ] at ha hb
          exact h3 j a b ha hb
      · intro e' he'
        simp only [List.map_cons, List.sum_cons]
        rcases List.mem_cons.1 he' with h5 | h5
        · rw [h5, ho]; omega
        · have := h4 e' h5
          omega

/-- C24: for every list of N input files (sizes below 2^32), in the archive that
`create` stages the header has `entryCount = N` and `version = 2`, the entries
follow the order of the queue, the first entry has `offsetPos = 24`, each later
entry has `offsetPos` equal to the previous entry's `offsetPos + sizeStored`,
and `headerOffset` is 24 plus the sum of all `sizeStored` (24 when N = 0); so
`offsetPos + sizeStored ≤ headerOffset` for every entry. -/
theorem create_stage_layout (X : Externals) (fs : List Nat → Option (List Nat))
    (m_files : List (List Nat)) (baseDir : List Nat) (tmp : List Nat)
    (header : DATArchiveHeader) (entries : List DATArchiveEntry)
    (h : create_stage X fs m_files baseDir = some (tmp, header, entries))
    (hlen : tmp.length < 2 ^ 32) (hcount : m_files.length < 2 ^ 32)
    (hin : InputsFit X fs (create_base baseDir) m_files) :
    tmp.take 24 = headerBytes header ∧
    header.entryCount = m_files.length ∧ header.version = 2 ∧
    entries.map (fun e => e.path) = m_files ∧
    (∀ e, entries.head? = some e → e.offsetPos = 24) ∧
    (∀ i a b, entries[i]? = some a → entries[i + 1]? = some b →
      b.offsetPos = a.offsetPos + a.sizeStored) ∧
    header.headerOffset = 24 + (entries.map (fun e => e.sizeStored)).sum ∧
    (m_files = [] → header.headerOffset = 24) ∧
    (∀ e ∈ entries, e.offsetPos + e.sizeStored ≤ header.headerOffset) := by
  obtain ⟨segs, cm, hh, htmp, -, hpaths, hlay, -⟩ :=
    create_stage_spec X fs m_files baseDir tmp header entries h hlen hcount hin
  obtain ⟨h1, h2, h3, h4⟩ := Layout_offsets 24 entries segs hlay
  have hoff : header.headerOffset = 24 + (entries.map (fun e => e.sizeStored)).sum := by
    rw [hh, h1]
  have hhl : (headerBytes header).length = 24 := by
    rw [hh]; rfl
  refine ⟨?_, by rw [hh], by rw [hh]; rfl, hpaths, h2, h3, hoff, ?_, ?_⟩
  · rw [htmp, List.append_assoc, ← hhl, List.take_left]
  · intro hnil
    rw [hnil] at hpaths
    have : entries = [] := by
      cases entries with
      | nil => rfl
      | cons x xs => simp at hpaths
    rw [hoff, this]
    rfl
  · intro e he
    rw [hoff]
    exact (h4 e he).2

set_option maxRecDepth 1000000 in
theorem create_stage_layout_witness :
    ∃ t, create_stage reference.externals reference.sampleFs
        (reference.samplePaths.foldl addFile []) [100] = some t ∧
      t.2.1.entryCount = 2 ∧ t.2.1.version = 2 ∧
      t.2.2.map (fun e => (e.offsetPos, e.sizeStored)) = [(24, 3), (27, 258)] ∧
      t.2.1.headerOffset = 24 + (t.2.2.map (fun e => e.sizeStored)).sum ∧
      (∀ e ∈ t.2.2, e.offsetPos + e.sizeStored ≤ t.2.1.headerOffset) :=
  ⟨_, (Option.some_get sample_stage_isSome).symm, by decide, by decide, by decide,
    (create_stage_layout reference.externals reference.sampleFs
      (reference.samplePaths.foldl addFile []) [100] _ _ _
      (Option.some_get sample_stage_isSome).symm (by decide) (by decide)
      (sample_inputsFit _ _)).2.2.2.2.2.2.1,
    (create_stage_layout reference.externals reference.sampleFs
      (reference.samplePaths.foldl addFile []) [100] _ _ _
      (Option.some_get sample_stage_isSome).symm (by decide) (by decide)
      (sample_inputsFit _ _)).2.2.2.2.2.2.2.2⟩

/-! ### The record loop of `open`, record by record -/

theorem getLast?_getD_cons (c d : Nat) (l : List Nat) :
    (c :: l).getLast?.getD d = l.getLast?.getD c := by
  cases l with
  | nil => rfl
  | cons x xs =>
    rw [List.getLast?_cons_cons]
    cases h : (x :: xs).getLast? with
    | none => simp at h
    | some y => rfl

theorem parsedRecords_length_le (X : Externals) (metaBuf : List Nat) (end_ : Nat)
    (hasCrc : Bool) (n cursor : Nat) :
    (parsedRecords X metaBuf end_ hasCrc n cursor).length ≤ n := by
  induction n generalizing cursor with
  | zero => simp [parsedRecords]
  | succ n ih =>
    unfold parsedRecords
    split
    · simp
    · cases hr : readEntryRecord X metaBuf (cursor + 4) end_ hasCrc with
      | none => simp
      | some r =>
        obtain ⟨e, c⟩ := r
        simp only [List.length_cons]
        have := ih c
        omega

/-- The record loop indexes the records that parse, in their order, and logs a
warning for the first record that does not. -/
theorem openArchive_parse_eq (X : Externals) (metaBuf : List Nat) (end_ : Nat) (hasCrc : Bool)
    (n i cursor : Nat) (entries : List (List Nat × DATArchiveEntry)) (dirs : List (List Nat)) :
    openArchive_parse X metaBuf end_ hasCrc n i cursor entries dirs =
      ((parsedRecords X metaBuf end_ hasCrc n cursor).foldl
          (fun m r => mapEmplace m r.1.path r.1) entries,
        (parsedRecords X metaBuf end_ hasCrc n cursor).foldl
          (fun d r => collectParentDirectories r.1.path d) dirs,
        if (parsedRecords X metaBuf end_ hasCrc n cursor).length = n then []
        else if (((parsedRecords X metaBuf end_ hasCrc n cursor).map Prod.snd).getLast?.getD
            cursor) + 4 > end_ then
          [LogMsg.truncatedMetadata (i + (parsedRecords X metaBuf end_ hasCrc n cursor).length)]
        else
          [LogMsg.parseFailed (i + (parsedRecords X metaBuf end_ hasCrc n cursor).length)]) := by
  induction n generalizing i cursor entries dirs with
  | zero => simp [parsedRecords, openArchive_parse]
  | succ n ih =>
    unfold parsedRecords openArchive_parse
    by_cases hc : cursor + 4 > end_
    · simp [hc]
    · rw [if_neg hc, if_neg hc]
      simp only []
      cases hr : readEntryRecord X metaBuf (cursor + 4) end_ hasCrc with
      | none => simp [hc]
      | some r =>
        obtain ⟨e, c⟩ := r
        simp only []
        rw [ih]
        simp only [List.foldl_cons, List.length_cons, List.map_cons, getLast?_getD_cons,
          Nat.add_right_cancel_iff]
        have e1 : i + 1 + (parsedRecords X metaBuf end_ hasCrc n c).length =
            i + ((parsedRecords X metaBuf end_ hasCrc n c).length + 1) := by omega
        rw [e1]

/-- Each record of `parsedRecords` is what `readEntryRecord` returns after the
tag at the cursor the previous record left, and when fewer than `n` records
are listed the next tag or record does not fit. -/
theorem parsedRecords_chain (X : Externals) (metaBuf : List Nat) (end_ : Nat) (hasCrc : Bool)
    (n cursor : Nat) :
    (∀ (j : Nat) (r : DATArchiveEntry × Nat) (c : Nat),
      (parsedRecords X metaBuf end_ hasCrc n cursor)[j]? = some r →
      (cursor :: (parsedRecords X metaBuf end_ hasCrc n cursor).map Prod.snd)[j]? = some c →
      c + 4 ≤ end_ ∧ readEntryRecord X metaBuf (c + 4) end_ hasCrc = some r) ∧
    ((parsedRecords X metaBuf end_ hasCrc n cursor).length < n →
      (((parsedRecords X metaBuf end_ hasCrc n cursor).map Prod.snd).getLast?.getD cursor) + 4
          > end_ ∨
        readEntryRecord X metaBuf
          ((((parsedRecords X metaBuf end_ hasCrc n cursor).map Prod.snd).getLast?.getD cursor)
            + 4) end_ hasCrc = none) := by
  induction n generalizing cursor with
  | zero => simp [parsedRecords]
  | succ n ih =>
    unfold parsedRecords
    by_cases hc : cursor + 4 > end_
    · simp [hc]
    · rw [if_neg hc]
      cases hr : readEntryRecord X metaBuf (cursor + 4) end_ hasCrc with
      | none => simp [hr]
      | some r =>
        obtain ⟨e, c⟩ := r
        simp only [List.map_cons, getLast?_getD_cons, List.length_cons]
        obtain ⟨ih1, ih2⟩ := ih c
        constructor
        · intro j r c0 hj hcj
          cases j with
          | zero =>
            simp only [List.getElem?_cons_zero, Option.some.injEq] at hj hcj
            subst hj hcj
            exact ⟨by omega, hr⟩
          | succ j =>
            simp only [List.getElem?_cons_succ] at hj hcj
            exact ih1 j r c0 hj hcj
        · intro hlt
          exact ih2 (by omega)

/-- `emplace` keeps the value a key already has. -/
theorem mapFind_mapEmplace_eq (m : List (List Nat × DATArchiveEntry)) (k : List Nat)
    (v : DATArchiveEntry) (p : List Nat) :
    mapFind (mapEmplace m k v) p =
      match mapFind m p with
      | some e => some e
      | none => if k = p then some v else none := by
  unfold mapEmplace
  split
  · next hk =>
    cases hf : mapFind m p with
    | some e => rfl
    | none =>
      simp only []
      by_cases hkp : k = p
      · subst hkp
        have := (mapFind_eq_none_iff m k).1 hf
        exact absurd ((mem_keys_iff_find m k).1 hk) this
      · rw [if_neg hkp]
  · unfold mapFind
    rw [List.find?_append]
    cases hf : m.find? (fun kv => kv.1 = p) with
    | some x => rfl
    | none =>
      by_cases hkp : k = p
      · simp [hkp]
      · simp [hkp]

/-- The index built from a list of records holds, for every path, the first
record with that path. -/
theorem mapFind_foldl_first (es : List (DATArchiveEntry × Nat))
    (m : List (List Nat × DATArchiveEntry)) (p : List Nat) :
    mapFind (es.foldl (fun m r => mapEmplace m r.1.path r.1) m) p =
      match mapFind m p with
      | some e => some e
      | none => (es.map Prod.fst).find? (fun e => e.path = p) := by
  induction es generalizing m with
  | nil =>
    simp only [List.foldl_nil]
    cases hf : mapFind m p with
    | none => rfl
    | some e => rfl
  | cons r rs ih =>
    rw [List.foldl_cons, ih, mapFind_mapEmplace_eq]
    cases hf : mapFind m p with
    | some e => rfl
    | none =>
      simp only [List.map_cons, List.find?_cons]
      by_cases hkp : r.1.path = p
      · simp [hkp]
      · simp [hkp]

theorem mapEmplace_length_le (m : List (List Nat × DATArchiveEntry)) (k : List Nat)
    (v : DATArchiveEntry) : (mapEmplace m k v).length ≤ m.length + 1 := by
  unfold mapEmplace
  split
  · omega
  · simp

theorem foldl_mapEmplace_length_le (es : List (DATArchiveEntry × Nat))
    (m : List (List Nat × DATArchiveEntry)) :
    (es.foldl (fun m r => mapEmplace m r.1.path r.1) m).length ≤ m.length + es.length := by
  induction es generalizing m with
  | nil => simp
  | cons r rs ih =>
    rw [List.foldl_cons, List.length_cons]
    have h1 := ih (mapEmplace m r.1.path r.1)
    have h2 := mapEmplace_length_le m r.1.path r.1
    omega

/-! ### The size tags are not read -/

theorem getElem?_eq_of_getD (a b : List Nat) (hlen : a.length = b.length) (j : Nat)
    (h : a.getD j 0 = b.getD j 0) : a[j]? = b[j]? := by
  by_cases hj : j < a.length
  · have hjb : j < b.length := by omega
    rw [List.getD_eq_getElem _ _ hj, List.getD_eq_getElem _ _ hjb] at h
    rw [List.getElem?_eq_getElem hj, List.getElem?_eq_getElem hjb, h]
  · rw [List.getElem?_eq_none (by omega), List.getElem?_eq_none (by omega)]

theorem take_drop_congr (a b : List Nat) (c m : Nat) (hlen : a.length = b.length)
    (h : ∀ j, c ≤ j → j < c + m → a.getD j 0 = b.getD j 0) :
    (a.drop c).take m = (b.drop c).take m := by
  apply List.ext_getElem?
  intro i
  by_cases hi : i < m
  · rw [List.getElem?_take_of_lt hi, List.getElem?_take_of_lt hi, List.getElem?_drop,
      List.getElem?_drop]
    exact getElem?_eq_of_getD a b hlen _ (h _ (by omega) (by omega))
  · rw [List.getElem?_eq_none (by rw [List.length_take]; omega),
      List.getElem?_eq_none (by rw [List.length_take]; omega)]

/-- `readEntryRecord` reads the bytes of the record only: two buffers of one
length that agree from `cursor` to the end of the record the first one holds
there (as far as its path length announces) parse alike. -/
theorem readEntryRecord_congr (X : Externals) (a b : List Nat) (cursor end_ : Nat)
    (hasCrc : Bool) (hlen : a.length = b.length)
    (h : ∀ j, cursor ≤ j →
      j < cursor + (4 + 2 * le32Value ((a.drop cursor).take 4) + 15 +
        (if hasCrc then 4 else 0)) → a.getD j 0 = b.getD j 0) :
    readEntryRecord X a cursor end_ hasCrc = readEntryRecord X b cursor end_ hasCrc := by
  have h4 : (a.drop cursor).take 4 = (b.drop cursor).take 4 :=
    take_drop_congr a b cursor 4 hlen (fun j h1 h2 => h j h1 (by omega))
  have key : ∀ x y, cursor ≤ x →
      x + y ≤ cursor + (4 + 2 * le32Value ((a.drop cursor).take 4) + 15 +
        (if hasCrc then 4 else 0)) → (a.drop x).take y = (b.drop x).take y :=
    fun x y hx hy => take_drop_congr a b x y hlen (fun j h1 h2 => h j (by omega) (by omega))
  by_cases hfit : cursor + (4 + 2 * le32Value ((a.drop cursor).take 4) + 15 +
      (if hasCrc then 4 else 0)) ≤ end_
  · rw [readEntryRecord_eq_some X a cursor end_ hasCrc hfit,
      readEntryRecord_eq_some X b cursor end_ hasCrc (by rw [← h4]; exact hfit)]
    have hc : (if hasCrc = true then 4 else 0) ≤ 4 := by split <;> omega
    generalize hn : le32Value ((a.drop cursor).take 4) = n at key hfit
    rw [← h4, hn]
    rw [key (cursor + 4) (n * 2) (by omega) (by omega),
      key (cursor + 4 + n * 2) 1 (by omega) (by omega),
      key (cursor + 4 + n * 2 + 1) 4 (by omega) (by omega),
      key (cursor + 4 + n * 2 + 1 + 4) 4 (by omega) (by omega),
      key (cursor + 4 + n * 2 + 1 + 4 + 4) 4 (by omega) (by omega),
      key (cursor + 4 + n * 2 + 1 + 4 + 4 + 4) 1 (by omega) (by omega),
      key (cursor + 4 + n * 2 + 1 + 4 + 4 + 4 + 1) 1 (by omega) (by omega)]
    cases hasCrc with
    | false => rfl
    | true =>
      simp only [if_true] at key ⊢
      rw [key (cursor + 4 + n * 2 + 1 + 4 + 4 + 4 + 1 + 1) 4 (by omega) (by omega)]
  · rw [readEntryRecord_eq_none X a cursor end_ hasCrc (by omega),
      readEntryRecord_eq_none X b cursor end_ hasCrc (by rw [← h4]; omega)]

theorem tagPositions_ge (X : Externals) (metaBuf : List Nat) (end_ : Nat) (hasCrc : Bool)
    (n cursor t : Nat) (h : t ∈ tagPositions X metaBuf end_ hasCrc n cursor) : cursor ≤ t := by
  induction n generalizing cursor with
  | zero => simp [tagPositions] at h
  | succ n ih =>
    unfold tagPositions at h
    split at h
    · cases h
    · rcases List.mem_cons.1 h with h1 | h1
      · omega
      · cases hr : readEntryRecord X metaBuf (cursor + 4) end_ hasCrc with
        | none => rw [hr] at h1; cases h1
        | some r =>
          obtain ⟨e, c⟩ := r
          rw [hr] at h1
          have hb := readEntryRecord_some_bound X metaBuf (cursor + 4) end_ hasCrc e c hr
          rw [readEntryRecord_eq_some X metaBuf (cursor + 4) end_ hasCrc hb] at hr
          simp only [Option.some.injEq, Prod.mk.injEq] at hr
          have := ih c h1
          omega

/-- The record loop does not read the size tags: two buffers of one length that
agree, from `cursor` on, outside the tags the loop consumes build the same
index and log, and the loop consumes the same tags in both. -/
theorem openArchive_parse_congr (X : Externals) (a b : List Nat) (hasCrc : Bool)
    (hlen : a.length = b.length) (n i cursor : Nat)
    (entries : List (List Nat × DATArchiveEntry)) (dirs : List (List Nat))
    (hsame : ∀ j, cursor ≤ j →
      (∀ t ∈ tagPositions X a a.length hasCrc n cursor, j < t ∨ t + 4 ≤ j) →
      a.getD j 0 = b.getD j 0) :
    openArchive_parse X a a.length hasCrc n i cursor entries dirs =
      openArchive_parse X b b.length hasCrc n i cursor entries dirs ∧
    tagPositions X b b.length hasCrc n cursor = tagPositions X a a.length hasCrc n cursor := by
  induction n generalizing i cursor entries dirs with
  | zero => exact ⟨rfl, rfl⟩
  | succ n ih =>
    rw [← hlen]
    rw [openArchive_parse, openArchive_parse, tagPositions, tagPositions]
    rw [tagPositions] at hsame
    by_cases hc : cursor + 4 > a.length
    · rw [if_pos hc, if_pos hc, if_pos hc, if_pos hc]
      exact ⟨rfl, rfl⟩
    · rw [if_neg hc, if_neg hc, if_neg hc, if_neg hc]
      rw [if_neg hc] at hsame
      simp only []
      cases hr : readEntryRecord X a (cursor + 4) a.length hasCrc with
      | none =>
        rw [hr] at hsame
        have hrb : readEntryRecord X b (cursor + 4) a.length hasCrc = none := by
          rw [← readEntryRecord_congr X a b (cursor + 4) a.length hasCrc hlen
            (fun j h1 _ => hsame j (by omega) (by
              intro t ht
              simp only [List.mem_singleton] at ht
              subst ht
              exact Or.inr h1)), hr]
        rw [hrb]
        exact ⟨rfl, rfl⟩
      | some r =>
        obtain ⟨e, c⟩ := r
        rw [hr] at hsame
        have hb := readEntryRecord_some_bound X a (cursor + 4) a.length hasCrc e c hr
        have hc' : c = cursor + 4 + (4 + 2 * le32Value ((a.drop (cursor + 4)).take 4) + 15 +
            (if hasCrc then 4 else 0)) := by
          have hr2 := hr
          rw [readEntryRecord_eq_some X a (cursor + 4) a.length hasCrc hb] at hr2
          simp only [Option.some.injEq, Prod.mk.injEq] at hr2
          exact hr2.2.symm
        have hrb : readEntryRecord X b (cursor + 4) a.length hasCrc = some (e, c) := by
          rw [← readEntryRecord_congr X a b (cursor + 4) a.length hasCrc hlen
            (fun j h1 h2 => hsame j (by omega) (by
              intro t ht
              rcases List.mem_cons.1 ht with h3 | h3
              · subst h3
                exact Or.inr h1
              · have := tagPositions_ge X a a.length hasCrc n c t h3
                exact Or.inl (by omega))), hr]
        rw [hrb]
        simp only []
        have hih := ih (i + 1) c (mapEmplace entries e.path e)
          (collectParentDirectories e.path dirs)
          (fun j h1 h2 => hsame j (by omega) (by
            intro t ht
            rcases List.mem_cons.1 ht with h3 | h3
            · subst h3
              exact Or.inr (by omega)
            · exact h2 t h3))
        rw [← hlen] at hih
        exact ⟨hih.1, by rw [hih.2]⟩

/-! ### Size tags and the index -/

theorem sameOutsideTags_of_bounded (tags a b : List Nat) (hlen : a.length = b.length)
    (h : ∀ j, j < a.length → (∀ t ∈ tags, j < t ∨ t + 4 ≤ j) → a.getD j 0 = b.getD j 0) :
    SameOutsideTags tags a b := by
  refine ⟨hlen, fun j hj => ?_⟩
  by_cases hlt : j < a.length
  · exact h j hlt hj
  · rw [List.getD_eq_default _ _ (by omega), List.getD_eq_default _ _ (by omega)]

/-- C28: the `recordSize` tags do not influence parsing. For two decompressed
directory buffers of equal length that differ only inside the 4-byte tags the
record loop consumes, and the same `entryCount` and record layout, the loop
builds the same entry map and the same directory set (and consumes the same
tags); and `open` leaves the same entry map and directory set whatever the
file holds. -/
theorem openArchive_parse_ignores_tags (X : Externals) (a b : List Nat) (hasCrc : Bool)
    (entryCount : Nat)
    (hsame : SameOutsideTags (tagPositions X a a.length hasCrc entryCount 0) a b) :
    (openArchive_parse X a a.length hasCrc entryCount 0 0 [] []).1 =
      (openArchive_parse X b b.length hasCrc entryCount 0 0 [] []).1 ∧
    (openArchive_parse X a a.length hasCrc entryCount 0 0 [] []).2.1 =
      (openArchive_parse X b b.length hasCrc entryCount 0 0 [] []).2.1 ∧
    tagPositions X b b.length hasCrc entryCount 0 =
      tagPositions X a a.length hasCrc entryCount 0 ∧
    (∀ (self : FileSystemDATArchive) (fs fs2 : List Nat → Option (List Nat)) (path : List Nat)
      (readOffset fuel : Nat),
      ∃ r r2, openArchive X self fs path readOffset fuel = some r ∧
        openArchive X self fs2 path readOffset fuel = some r2 ∧
        r.2.1.m_entries = r2.2.1.m_entries ∧ r.2.1.m_directories = r2.2.1.m_directories) := by
  have hc := openArchive_parse_congr X a b hasCrc hsame.1 entryCount 0 0 [] []
    (fun j _ hj => hsame.2 j hj)
  refine ⟨by rw [hc.1], by rw [hc.1], hc.2, ?_⟩
  intro self fs fs2 path readOffset fuel
  exact ⟨_, _, openArchive_fails X self fs path readOffset fuel,
    openArchive_fails X self fs2 path readOffset fuel, rfl, rfl⟩

set_option maxRecDepth 1000000 in
theorem openArchive_parse_ignores_tags_witness :
    reference.oddCompressionDirectory.take 4 ≠ [1, 2, 3, 4] ∧
    (openArchive_parse reference.externals reference.oddCompressionDirectory
      reference.oddCompressionDirectory.length true 1 0 0 [] []).1 =
    (openArchive_parse reference.externals ([1, 2, 3, 4] ++ reference.oddCompressionDirectory.drop 4)
      ([1, 2, 3, 4] ++ reference.oddCompressionDirectory.drop 4).length true 1 0 0 [] []).1 :=
  ⟨by decide,
    (openArchive_parse_ignores_tags reference.externals reference.oddCompressionDirectory
      ([1, 2, 3, 4] ++ reference.oddCompressionDirectory.drop 4) true 1
      (sameOutsideTags_of_bounded _ _ _ (by decide) (by decide))).1⟩

/-! ### The compression type of an indexed entry -/

/-- The `compressionType` of a parsed record is the byte after its path. -/
theorem readEntryRecord_compressionType (X : Externals) (buf : List Nat) (cursor end_ : Nat)
    (hasCrc : Bool) (e : DATArchiveEntry) (c : Nat)
    (h : readEntryRecord X buf cursor end_ hasCrc = some (e, c)) :
    e.compressionType = buf.getD (cursor + 4 + 2 * le32Value (fileRead buf cursor 4)) 0 := by
  have hb := readEntryRecord_some_bound X buf cursor end_ hasCrc e c h
  rw [readEntryRecord_eq_some X buf cursor end_ hasCrc hb] at h
  simp only [Option.some.injEq, Prod.mk.injEq] at h
  rw [← h.1]
  simp only [fileRead, Nat.mul_comm]
  generalize cursor + 4 + 2 * le32Value (List.take 4 (List.drop cursor buf)) = x
  rw [List.getD_eq_getElem?_getD, List.getD_eq_getElem?_getD]
  cases hd : List.drop x buf with
  | nil =>
    have : buf.length ≤ x := List.drop_eq_nil_iff.1 hd
    simp [List.getElem?_eq_none this]
  | cons y ys =>
    have hx : buf[x]? = some y := by
      have h0 : (List.drop x buf)[0]? = buf[x + 0]? := by rw [List.getElem?_drop]
      rw [hd] at h0
      simpa using h0.symm
    simp [hx]

/-- A record the loop parses is indexed under its path when no earlier entry
has that path. -/
theorem openArchive_parse_indexes (X : Externals) (metaBuf : List Nat) (end_ : Nat)
    (hasCrc : Bool) (n i cursor : Nat) (entries : List (List Nat × DATArchiveEntry))
    (dirs : List (List Nat)) (e : DATArchiveEntry) (c : Nat)
    (hfit : cursor + 4 ≤ end_)
    (hr : readEntryRecord X metaBuf (cursor + 4) end_ hasCrc = some (e, c))
    (hnew : mapFind entries e.path = none) :
    mapFind (openArchive_parse X metaBuf end_ hasCrc (n + 1) i cursor entries dirs).1 e.path
      = some e := by
  rw [openArchive_parse, if_neg (by omega)]
  simp only []
  rw [hr]
  simp only []
  rw [openArchive_parse_eq]
  simp only []
  rw [mapFind_foldl_first, mapFind_mapEmplace_eq, hnew]
  simp

section

attribute [local irreducible] ArchiveEncryption.shiftBlock ArchiveEncryption.shiftBlockLegacy
  fileRead zlibInflateKnown

/-- An entry whose `compressionType` is neither `CT_NONE` nor `CT_ZLIB` reads as
the empty buffer: no case of the `switch` fills `outBuf`. -/
theorem readEntryData_other (X : Externals) (self : FileSystemDATArchive) (file : List Nat)
    (e : DATArchiveEntry) (hopen : self.m_file = some file)
    (hbody : ¬ (e.sizeStored > 0 ∧
      (fileRead file (self.m_readOffset + e.offsetPos) e.sizeStored).length < e.sizeStored))
    (h0 : e.compressionType ≠ CT_NONE) (h1 : e.compressionType ≠ CT_ZLIB) :
    readEntryData X self e = (some [], []) := by
  unfold readEntryData
  rw [hopen]
  simp only []
  rw [if_neg hbody, if_neg h0, if_neg h1]
  simp

/-- An uncompressed entry reads as its stored bytes under the cipher that the
`version` of the reader selects. -/
theorem readEntryData_none_cipher (X : Externals) (self : FileSystemDATArchive)
    (file : List Nat) (e : DATArchiveEntry) (hopen : self.m_file = some file)
    (hbody : ¬ (e.sizeStored > 0 ∧
      (fileRead file (self.m_readOffset + e.offsetPos) e.sizeStored).length < e.sizeStored))
    (h0 : e.compressionType = CT_NONE) :
    (readEntryData X self e).1 =
      some (if self.m_version = VERSION_LEGACY then
        (shiftBlockLegacy (fileRead file (self.m_readOffset + e.offsetPos) e.sizeStored)
          (fileRead file (self.m_readOffset + e.offsetPos) e.sizeStored).length
          e.keyBase e.keyStep).1
      else
        (shiftBlock (fileRead file (self.m_readOffset + e.offsetPos) e.sizeStored)
          (fileRead file (self.m_readOffset + e.offsetPos) e.sizeStored).length
          e.keyBase e.keyStep).1) := by
  unfold readEntryData
  rw [hopen]
  simp only []
  rw [if_neg hbody, if_pos h0]

end

/-! ### The format variant `open` applies -/

section

attribute [local irreducible] ArchiveEncryption.shiftBlock ArchiveEncryption.shiftBlockLegacy
  ArchiveEncryption.getKeyHashHeader ArchiveEncryption.getKeyHashHeaderLegacy

/-- The trial reports the legacy variant exactly when the v2 decryption does
not show the magic. -/
theorem openArchive_trial_flag (X : Externals) (headerBuf : List Nat) (l : Bool) (b k : Nat)
    (h : DATArchiveHeader) (ht : openArchive_trial X headerBuf = some (l, b, k, h)) :
    (l = false ↔
      (shiftBlock headerBuf 24 (getKeyHashHeader ENCRYPTION_KEY).1
        (getKeyHashHeader ENCRYPTION_KEY).2).1.take 8 = HEADER_MAGIC) := by
  unfold openArchive_trial at ht
  simp only [parseHeader, SIZEOF_HEADER] at ht
  split at ht
  · next hm =>
    simp only [Option.some.injEq, Prod.mk.injEq] at ht
    rw [← ht.1]
    exact ⟨fun _ => hm, fun _ => rfl⟩
  · next hm =>
    split at ht
    · cases ht
    · simp only [Option.some.injEq, Prod.mk.injEq] at ht
      rw [← ht.1]
      exact ⟨fun hh => Bool.noConfusion hh, fun hh => absurd hh hm⟩

end

/-! ### The enumerator -/

theorem wrapInt_of_range (x : Int) (h0 : -(2 ^ 31) ≤ x) (h1 : x < 2 ^ 31) : wrapInt x = x := by
  unfold wrapInt
  rw [Int.emod_eq_of_lt (by omega) (by omega)]
  omega

/-- After `k` calls of `next` (at most 2^31) the index is `k - 1`; the archive
and the snapshot do not change. -/
theorem nextTimes_new (archive : FileSystemDATArchive) (items : List Item) (k : Nat)
    (hk : k ≤ 2 ^ 31) :
    nextTimes k (FileSystemDATArchiveEnumerator.new archive items) =
      ⟨archive, items, (k : Int) - 1⟩ := by
  induction k with
  | zero =>
    simp [nextTimes, FileSystemDATArchiveEnumerator.new]
  | succ k ih =>
    rw [nextTimes, ih (by omega)]
    unfold FileSystemDATArchiveEnumerator.next
    simp only []
    rw [wrapInt_of_range _ (by omega) (by omega)]
    congr 1
    omega

theorem enumerator_out_of_range (X : Externals) (archive : FileSystemDATArchive)
    (items : List Item) (idx : Int) (h : idx < 0 ∨ idx.toNat ≥ items.length) :
    FileSystemDATArchiveEnumerator.getName ⟨archive, items, idx⟩ = [] ∧
    FileSystemDATArchiveEnumerator.getNodeType ⟨archive, items, idx⟩
      = FileSystemNodeType.unknown ∧
    FileSystemDATArchiveEnumerator.getFileSize ⟨archive, items, idx⟩ = 0 ∧
    FileSystemDATArchiveEnumerator.readFile X ⟨archive, items, idx⟩ = (none, []) := by
  unfold FileSystemDATArchiveEnumerator.getName FileSystemDATArchiveEnumerator.getNodeType
    FileSystemDATArchiveEnumerator.getFileSize FileSystemDATArchiveEnumerator.readFile
  simp only [if_pos h, and_self]

theorem enumerator_in_range (archive : FileSystemDATArchive)
    (items : List Item) (idx : Int) (it : Item) (h0 : 0 ≤ idx)
    (hit : items[idx.toNat]? = some it) :
    FileSystemDATArchiveEnumerator.getName ⟨archive, items, idx⟩ = it.name ∧
    FileSystemDATArchiveEnumerator.getNodeType ⟨archive, items, idx⟩
      = (if it.isDirectory then FileSystemNodeType.directory else FileSystemNodeType.file) ∧
    FileSystemDATArchiveEnumerator.getFileSize ⟨archive, items, idx⟩ = it.fileSize := by
  have hlt : idx.toNat < items.length := by
    rcases Nat.lt_or_ge idx.toNat items.length with h | h
    · exact h
    · rw [List.getElem?_eq_none h] at hit; cases hit
  have hn : ¬ (idx < 0 ∨ idx.toNat ≥ items.length) := by omega
  have hg : items.getD idx.toNat ⟨[], false, 0⟩ = it := by
    rw [List.getD_eq_getElem?_getD, hit]
    rfl
  unfold FileSystemDATArchiveEnumerator.getName FileSystemDATArchiveEnumerator.getNodeType
    FileSystemDATArchiveEnumerator.getFileSize
  simp only [if_neg hn, hg, and_self]

/-- C27: for an enumerator whose snapshot holds n items, the k-th call of `next`
(1 ≤ k ≤ 2^31, so that the `int` index does not overflow) returns true if and
only if k ≤ n; while it returned true, `getName`, `getNodeType` and
`getFileSize` report the name, the kind (file or directory) and the size of
the k-th item; before the first call and once `next` has returned false, the
accessors are bounds-checked: `getName` returns the empty string, `getNodeType`
unknown, `getFileSize` 0 and `readFile` false. -/
theorem enumerator_next (X : Externals) (archive : FileSystemDATArchive) (items : List Item)
    (k : Nat) (hk1 : 1 ≤ k) (hk2 : k ≤ 2 ^ 31) :
    ((nextTimes (k - 1) (FileSystemDATArchiveEnumerator.new archive items)).next.1 = true ↔
      k ≤ items.length) ∧
    (nextTimes (k - 1) (FileSystemDATArchiveEnumerator.new archive items)).next.2 =
      nextTimes k (FileSystemDATArchiveEnumerator.new archive items) ∧
    (k ≤ items.length → ∃ it, items[k - 1]? = some it ∧
      (nextTimes k (FileSystemDATArchiveEnumerator.new archive items)).getName = it.name ∧
      (nextTimes k (FileSystemDATArchiveEnumerator.new archive items)).getNodeType =
        (if it.isDirectory then FileSystemNodeType.directory else FileSystemNodeType.file) ∧
      (nextTimes k (FileSystemDATArchiveEnumerator.new archive items)).getFileSize
        = it.fileSize) ∧
    ((FileSystemDATArchiveEnumerator.new archive items).getName = [] ∧
      (FileSystemDATArchiveEnumerator.new archive items).getNodeType
        = FileSystemNodeType.unknown ∧
      (FileSystemDATArchiveEnumerator.new archive items).getFileSize = 0 ∧
      (FileSystemDATArchiveEnumerator.new archive items).readFile X = (none, [])) ∧
    (items.length < k →
      (nextTimes k (FileSystemDATArchiveEnumerator.new archive items)).getName = [] ∧
      (nextTimes k (FileSystemDATArchiveEnumerator.new archive items)).getNodeType
        = FileSystemNodeType.unknown ∧
      (nextTimes k (FileSystemDATArchiveEnumerator.new archive items)).getFileSize = 0 ∧
      (nextTimes k (FileSystemDATArchiveEnumerator.new archive items)).readFile X
        = (none, [])) := by
  obtain ⟨j, rfl⟩ : ∃ j, k = j + 1 := ⟨k - 1, by omega⟩
  have hstep : nextTimes (j + 1) (FileSystemDATArchiveEnumerator.new archive items) =
      (nextTimes j (FileSystemDATArchiveEnumerator.new archive items)).next.2 := rfl
  have hk := nextTimes_new archive items (j + 1) hk2
  have hj := nextTimes_new archive items j (by omega)
  have hidx : ((j + 1 : Nat) : Int) - 1 = (j : Int) := by omega
  rw [hidx] at hk
  simp only [Nat.add_sub_cancel]
  refine ⟨?_, hstep.symm, ?_, ?_, ?_⟩
  · rw [hj]
    unfold FileSystemDATArchiveEnumerator.next
    simp only []
    rw [wrapInt_of_range _ (by omega) (by omega)]
    simp only [decide_eq_true_eq]
    constructor
    · rintro ⟨-, h2⟩
      omega
    · intro h
      exact ⟨by omega, by omega⟩
  · intro hle
    have hlt : j < items.length := by omega
    refine ⟨items[j], List.getElem?_eq_getElem hlt, ?_⟩
    rw [hk]
    exact enumerator_in_range archive items (j : Int) items[j] (by omega)
      (by rw [Int.toNat_ofNat]; exact List.getElem?_eq_getElem hlt)
  · exact enumerator_out_of_range X archive items (-1) (Or.inl (by decide))
  · intro hlt
    rw [hk]
    exact enumerator_out_of_range X archive items (j : Int)
      (Or.inr (by rw [Int.toNat_ofNat]; omega))

theorem enumerator_next_witness :
    ((nextTimes (2 - 1) (FileSystemDATArchiveEnumerator.new reference.sampleReader
      reference.sampleItems)).next.1 = true ↔ 2 ≤ reference.sampleItems.length) ∧
    (2 ≤ reference.sampleItems.length → ∃ it, reference.sampleItems[2 - 1]? = some it ∧
      (nextTimes 2 (FileSystemDATArchiveEnumerator.new reference.sampleReader
        reference.sampleItems)).getName = it.name ∧
      (nextTimes 2 (FileSystemDATArchiveEnumerator.new reference.sampleReader
        reference.sampleItems)).getNodeType =
        (if it.isDirectory then FileSystemNodeType.directory else FileSystemNodeType.file) ∧
      (nextTimes 2 (FileSystemDATArchiveEnumerator.new reference.sampleReader
        reference.sampleItems)).getFileSize = it.fileSize) :=
  ⟨(enumerator_next reference.externals reference.sampleReader reference.sampleItems 2
      (by decide) (by decide)).1,
    (enumerator_next reference.externals reference.sampleReader reference.sampleItems 2
      (by decide) (by decide)).2.2.1⟩

/-! ### The stream of the reader

`open` opens `m_file` with `std::ios::binary` alone, a mode that opens no file:
the call returns false at the `is_open()` check, for every file and every
reader. The writer opens its streams with modes of the table. -/

/-- On a default-constructed reader `open` returns false with the stream
closed, the members as constructed and the index empty, whatever the file
system holds. -/
theorem openArchive_new (X : Externals) (fs : List Nat → Option (List Nat)) (path : List Nat)
    (readOffset fuel : Nat) :
    openArchive X FileSystemDATArchive.new fs path readOffset fuel =
      some (false, ⟨path, none, readOffset, 0, 0, 0, [], []⟩, [LogMsg.cannotOpen]) := by
  rw [openArchive_fails]
  rfl

/-- On a closed stream `readEntryData` returns false. -/
theorem readEntryData_closed (X : Externals) (self : FileSystemDATArchive)
    (entry : DATArchiveEntry) (h : self.m_file = none) :
    readEntryData X self entry = (none, []) := by
  unfold readEntryData
  rw [h]

/-- The inflate loop does not end on an input that stops inside the two-byte
tag of the stand-in format: every round reports `Z_BUF_ERROR`, which the loop
does not treat as an error. -/
theorem zlibInflate_loop_spins (fuel : Nat) (out : List Nat) :
    zlibInflate_loop reference.externals fuel ⟨[120], []⟩ out = none := by
  induction fuel with
  | zero => rfl
  | succ n ih =>
    rw [zlibInflate_loop]
    have hr : reference.externals.inflate ⟨[120], []⟩ 32768 = (Z_BUF_ERROR, [], ⟨[120], []⟩) := rfl
    rw [hr]
    have h1 : ¬ (Z_BUF_ERROR = Z_STREAM_ERROR ∨ Z_BUF_ERROR = Z_DATA_ERROR ∨
        Z_BUF_ERROR = Z_MEM_ERROR) := by decide
    have h2 : Z_BUF_ERROR ≠ Z_STREAM_END := by decide
    simp only [h1, if_false, h2, ne_eq, not_false_eq_true, if_true, List.take_nil,
      List.append_nil]
    exact ih

set_option maxRecDepth 1000000 in
theorem sampleArchive_created :
    create reference.externals reference.sampleFs (reference.samplePaths.foldl addFile []) [100]
      = some reference.sampleArchive := by
  have h : (create reference.externals reference.sampleFs
      (reference.samplePaths.foldl addFile []) [100]).isSome = true := by decide
  unfold reference.sampleArchive
  cases hc : create reference.externals reference.sampleFs
      (reference.samplePaths.foldl addFile []) [100] with
  | none => rw [hc] at h; exact Bool.noConfusion h
  | some a => rfl

/-- C1: the round trip through `create` and `open` fails. `create` writes an
archive for the sample files `a` and `b\c`; `open` of a fresh reader on that
archive, as on any file, returns false with the stream closed, because the
mode `std::ios::binary` alone opens no file; the index stays empty and
`readFile` fails for every name, the two queued paths among them. -/
theorem create_openArchive_no_roundtrip :
    validOpenMode ios_binary = false ∧
    create reference.externals reference.sampleFs (reference.samplePaths.foldl addFile []) [100]
      = some reference.sampleArchive ∧
    reference.samplePaths.foldl addFile [] = [[97], [98, 47, 99]] ∧
    (∀ fuel, ∃ r, openArchive reference.externals FileSystemDATArchive.new
        (reference.fsOf reference.sampleArchive) [111] 0 fuel = some r ∧
      r.1 = false ∧ r.2.1.m_entries = [] ∧
      readFile reference.externals r.2.1 [97] = (none, []) ∧
      readFile reference.externals r.2.1 [98, 47, 99] = (none, [])) ∧
    (∀ (X : Externals) (fs : List Nat → Option (List Nat)) (path : List Nat)
      (readOffset fuel : Nat),
      ∃ r, openArchive X FileSystemDATArchive.new fs path readOffset fuel = some r ∧
        r.1 = false ∧ r.2.2 = [LogMsg.cannotOpen] ∧ r.2.1.m_file = none ∧
        r.2.1.m_entries = [] ∧ r.2.1.m_directories = [] ∧
        ∀ name, readFile X r.2.1 name = (none, [])) := by
  refine ⟨rfl, sampleArchive_created, by decide, ?_, ?_⟩
  · intro fuel
    exact ⟨_, openArchive_new _ _ _ _ _, rfl, rfl, rfl, rfl⟩
  · intro X fs path readOffset fuel
    exact ⟨_, openArchive_new _ _ _ _ _, rfl, rfl, rfl, rfl, rfl, fun _ => rfl⟩

/-- C3: `open` makes no trial decryption on what `encryptArchive` emits. For
every staged file, header and entry list, `open` of a fresh reader on the
emitted archive returns false at the `is_open()` check: no header is
recovered, `m_keyBase` and `m_keyStep` keep their initial value 0 instead of
the base retained after the header, and no directory block is decrypted. The
emitted bytes are not at fault: on the staged sample the trial decryption, as a
function of the first 24 bytes, matches on the v2 cipher and gives the staged
header back. -/
theorem openArchive_no_trial (X : Externals) (src : List Nat) (header : DATArchiveHeader)
    (entries : List DATArchiveEntry) (path : List Nat) (readOffset fuel : Nat) :
    (∃ r, openArchive X FileSystemDATArchive.new
        (fun _ => some (encryptArchive src header (getKeyHashHeader ENCRYPTION_KEY).1
          (getKeyHashHeader ENCRYPTION_KEY).2 entries)) path readOffset fuel = some r ∧
      r.1 = false ∧ r.2.2 = [LogMsg.cannotOpen] ∧ r.2.1.m_file = none ∧
      r.2.1.m_keyBase = 0 ∧ r.2.1.m_keyStep = 0 ∧ r.2.1.m_version = 0) ∧
    openArchive_trial reference.externals
        (fileRead (encryptArchive (headerBytes reference.stagedHeader ++
          [[1, 2, 3]].flatten ++ [120, 1]) reference.stagedHeader
        (getKeyHashHeader ENCRYPTION_KEY).1 (getKeyHashHeader ENCRYPTION_KEY).2
        [reference.stagedEntry]) 0 SIZEOF_HEADER) =
      some (false,
        keyStream (getKeyHashHeader ENCRYPTION_KEY).1 (getKeyHashHeader ENCRYPTION_KEY).2 24,
        (getKeyHashHeader ENCRYPTION_KEY).2, reference.stagedHeader) :=
  ⟨⟨_, openArchive_new _ _ _ _ _, rfl, rfl, rfl, rfl, rfl, rfl⟩,
    (openArchive_trial_staged reference.externals reference.stagedHeader
      [reference.stagedEntry] [[1, 2, 3]] [120, 1] rfl (by decide) (by decide) rfl (by decide)
      rfl (by decide) ⟨rfl, rfl, trivial⟩ (by decide)).1⟩

set_option maxRecDepth 1000000 in
/-- C19: `open` never gets past the header stage. The first 24 bytes of the
archive `create` writes for the sample files meet both conditions (the v2
decryption begins with the magic and its version field is 2), and 24 zero
bytes meet neither; on both files, as on every file, `open` of a fresh reader
returns false with the cannot-open message, not with the messages of the
header stage. -/
theorem openArchive_header_stage_unreached :
    (∃ h, acceptedHeader reference.externals (fileRead reference.sampleArchive 0 24) = some h ∧
      h.take 8 = HEADER_MAGIC ∧ headerVersion h = 2) ∧
    acceptedHeader reference.externals (List.replicate 24 0) = none ∧
    (∀ fuel, openArchive reference.externals FileSystemDATArchive.new
        (reference.fsOf reference.sampleArchive) [111] 0 fuel =
      some (false, ⟨[111], none, 0, 0, 0, 0, [], []⟩, [LogMsg.cannotOpen])) ∧
    (∀ fuel, openArchive reference.externals FileSystemDATArchive.new
        (reference.fsOf (List.replicate 24 0)) [111] 0 fuel =
      some (false, ⟨[111], none, 0, 0, 0, 0, [], []⟩, [LogMsg.cannotOpen])) ∧
    (∀ (X : Externals) (fs : List Nat → Option (List Nat)) (path : List Nat)
      (readOffset fuel : Nat),
      ∃ r, openArchive X FileSystemDATArchive.new fs path readOffset fuel = some r ∧
        r.1 = false ∧ r.2.2 = [LogMsg.cannotOpen]) :=
  ⟨⟨(acceptedHeader reference.externals (fileRead reference.sampleArchive 0 24)).getD [],
      by decide, by decide, by decide⟩,
    by decide,
    fun _ => openArchive_new _ _ _ _ _,
    fun _ => openArchive_new _ _ _ _ _,
    fun X fs path readOffset fuel => ⟨_, openArchive_new X fs path readOffset fuel, rfl, rfl⟩⟩

set_option maxRecDepth 1000000 in
/-- C21: `open` does not keep the parsed prefix. In the sample directory of two
whole records and the beginning of a third, the record loop parses the records
of `a` and `b/c` and stops at the third with a warning; `open` of a fresh
reader on the archive with that directory and `entryCount` 3 returns false at
the `is_open()` check and the index is empty. -/
theorem openArchive_partial_directory_lost :
    (parsedRecords reference.externals reference.truncatedDirectory
      reference.truncatedDirectory.length true 3 0).map (fun r => r.1.path) =
        [[97], [98, 47, 99]] ∧
    (openArchive_parse reference.externals reference.truncatedDirectory
      reference.truncatedDirectory.length true 3 0 0 [] []).1.map Prod.fst =
        [[97], [98, 47, 99]] ∧
    (openArchive_parse reference.externals reference.truncatedDirectory
      reference.truncatedDirectory.length true 3 0 0 [] []).2.2 = [LogMsg.parseFailed 2] ∧
    (∀ fuel, openArchive reference.externals FileSystemDATArchive.new
        (reference.fsOf (reference.archiveOf 2 3 reference.truncatedDirectory)) [111] 0 fuel =
      some (false, ⟨[111], none, 0, 0, 0, 0, [], []⟩, [LogMsg.cannotOpen])) :=
  ⟨by decide, by decide, by decide, fun _ => openArchive_new _ _ _ _ _⟩

/-- C25: for every input file of size 0 the writer emits an entry with
`sizeFull = sizeStored = 0` and `compressionType` none; but `readEntryData`
does not return the empty buffer for an entry with `sizeStored = 0`: on the
reader `open` leaves, whatever the file, the stream is closed and
`readEntryData` returns false for every entry, as does `readFile` for every
name. -/
theorem zero_size_entry (X : Externals) (fs : List Nat → Option (List Nat))
    (m_files : List (List Nat)) (baseDir : List Nat) (tmp : List Nat)
    (header : DATArchiveHeader) (entries : List DATArchiveEntry)
    (h : create_stage X fs m_files baseDir = some (tmp, header, entries)) :
    List.Forall₂ (fun f e => ∀ content, fs (create_base baseDir ++ f) = some content →
        content.length = 0 →
        e.sizeFull = 0 ∧ e.sizeStored = 0 ∧ e.compressionType = CT_NONE) m_files entries ∧
    (∀ (archive : List Nat → Option (List Nat)) (path : List Nat) (readOffset fuel : Nat),
      ∃ r, openArchive X FileSystemDATArchive.new archive path readOffset fuel = some r ∧
        r.1 = false ∧ r.2.1.m_file = none ∧
        (∀ e : DATArchiveEntry, readEntryData X r.2.1 e = (none, [])) ∧
        ∀ name, readFile X r.2.1 name = (none, [])) := by
  constructor
  · refine List.Forall₂.imp ?_ (create_stage_emitted X fs m_files baseDir tmp header entries h)
    rintro f e ⟨input, hfs, -, hfull, hct, hst⟩ content hc h0
    rw [hfs] at hc
    simp only [Option.some.injEq] at hc
    subst hc
    have hu : u32 input.length = 0 := by rw [h0]; rfl
    rw [hu] at hfull hct hst
    rw [create_compress_small X _ 0 (by omega)] at hct hst
    exact ⟨hfull, hst, hct⟩
  · intro archive path readOffset fuel
    exact ⟨_, openArchive_new X archive path readOffset fuel, rfl, rfl,
      fun e => readEntryData_closed X _ e rfl, fun _ => rfl⟩

theorem emptyFile_stage_isSome :
    (create_stage reference.externals (fun p => if p = [100, 47, 122] then some [] else none)
      [[122]] [100]).isSome = true := by
  decide

theorem zero_size_entry_witness :
    (∃ t, create_stage reference.externals
        (fun p => if p = [100, 47, 122] then some [] else none) [[122]] [100] = some t ∧
      t.2.2.map (fun e => (e.path, e.compressionType, e.sizeFull, e.sizeStored)) =
        [([122], CT_NONE, 0, 0)]) ∧
    (∃ r, openArchive reference.externals FileSystemDATArchive.new
        (fun _ => create reference.externals
          (fun p => if p = [100, 47, 122] then some [] else none) [[122]] [100]) [111] 0 1
        = some r ∧ r.1 = false ∧ r.2.1.m_file = none ∧
      (∀ e : DATArchiveEntry, readEntryData reference.externals r.2.1 e = (none, [])) ∧
      ∀ name, readFile reference.externals r.2.1 name = (none, [])) :=
  ⟨⟨_, (Option.some_get emptyFile_stage_isSome).symm, by decide⟩,
    (zero_size_entry reference.externals
      (fun p => if p = [100, 47, 122] then some [] else none) [[122]] [100] _ _ _
      (Option.some_get emptyFile_stage_isSome).symm).2
      (fun _ => create reference.externals
        (fun p => if p = [100, 47, 122] then some [] else none) [[122]] [100]) [111] 0 1⟩

/-! ### Claims that hold because `open` accepts no file -/

end core
